import Mathlib

/-!
# quackai: request-coalescing dispatch layer

A shallow embedding of the Go sources of the repository (the vectorised
front-end `aiLLM` / `aiLLMBatch`, the batch dispatcher `LLMDispatcher`, the
fused dispatcher `FusedDispatcher` and their helpers) together with theorems
about them.

Conventions of the embedding

* A Go `string` is modelled by the list of its code points (`Str`); the
  strings that reach this code are valid UTF-8 (database VARCHAR values and
  JSON-decoded replies), for which substring search on bytes and on code
  points coincide.
* A Go `error` is modelled by `Option GoError`: `none` is `nil`.
* A Go `map[string]V` is modelled by an association list with unique keys
  (`GoMap V`); reading a missing key yields `none`, which the call sites turn
  into the zero value exactly where the Go code does.
* Goroutines, timers and channels are modelled by explicit steps; remote
  services are parameters (oracles) of the functions that call them.
-/

namespace QuackAI

/-! ## Strings, errors, maps -/

/-- A Go string, as the list of its code points. -/
abbrev Str := List Char

/-- The message of a Go error value. -/
abbrev GoError := Str

/-- A Go map with string keys, as an association list. -/
abbrev GoMap (V : Type) := List (Str × V)

namespace GoMap

/-- Map read `v, ok := m[k]`. -/
def get {V : Type} : GoMap V → Str → Option V
  | [], _ => none
  | (k', v) :: r, k => if k' = k then some v else get r k

/-- Map write `m[k] = v`. -/
def set {V : Type} : GoMap V → Str → V → GoMap V
  | [], k, v => [(k, v)]
  | (k', v') :: r, k, v => if k' = k then (k, v) :: r else (k', v') :: set r k v

/-- Builtin `delete(m, k)`. -/
def delete {V : Type} (m : GoMap V) (k : Str) : GoMap V :=
  m.filter (fun e => decide (e.1 ≠ k))

/-- The keys of the map. -/
def keys {V : Type} (m : GoMap V) : List Str := m.map Prod.fst

/-- The loop `for k := range m { m[k] = v }`. -/
def setAllVals {V : Type} (m : GoMap V) (v : V) : GoMap V :=
  m.map (fun e => (e.1, v))

end GoMap

/-- Read of a `map[string]string` with the zero value for a missing key. -/
def getStr (m : GoMap Str) (k : Str) : Str := (GoMap.get m k).getD []

/-! ## Fingerprints (`shared.go`, `anthropic_request.go`) -/

/-- The table `hextable` of `encoding/hex`. -/
def hextable : List Char :=
  ['0', '1', '2', '3', '4', '5', '6', '7', '8', '9', 'a', 'b', 'c', 'd', 'e', 'f']

/-- One hexadecimal digit. -/
def hexDigit (n : Nat) : Char := hextable.getD n '0'

/-- Go `hex.EncodeToString`: two lower-case digits per byte, high nibble first. -/
def hexEncodeToString (bs : List Nat) : Str :=
  bs.flatMap (fun b => [hexDigit ((b % 256) / 16), hexDigit ((b % 256) % 16)])

/-- Go `strconv.Itoa` / the verb `%d`. -/
def itoa : Int → Str
  | Int.ofNat n => Nat.toDigits 10 n
  | Int.negSucc n => '-' :: Nat.toDigits 10 (n + 1)

/-- The bytes that both fingerprint functions hash: `text + "\x00" + prompt`. -/
def hashInput (text prompt : Str) : Str := text ++ [Char.ofNat 0] ++ prompt

/-- Go `customID` of `shared.go`; `sha1Sum s` stands for `sha1.Sum([]byte(s))`,
a function of the standard library that is a parameter here. -/
def customID (sha1Sum : Str → List Nat) (text prompt : Str) : Str :=
  hexEncodeToString ((sha1Sum (hashInput text prompt)).take 8)

/-- Go `makeCustomID` of `anthropic_request.go`: `fmt.Sprintf("r%d_%s", row, hash)`. -/
def makeCustomID (sha1Sum : Str → List Nat) (row : Int) (text prompt : Str) : Str :=
  let hash := hexEncodeToString ((sha1Sum (hashInput text prompt)).take 6)
  ['r'] ++ itoa row ++ ['_'] ++ hash

/-- A toy 20-byte digest used to run the definitions on concrete inputs: the
sum of the code points, the length, and eighteen zero bytes. -/
def toySum (s : Str) : List Nat :=
  ((s.map Char.toNat).sum % 256) :: (s.length % 256) :: List.replicate 18 0

/-! ## The `strings` functions used by the dispatchers -/

/-- Go `unicode.IsSpace`: the code points with the White_Space property. -/
def isSpace (c : Char) : Bool :=
  let n := c.toNat
  n == 9 || n == 10 || n == 11 || n == 12 || n == 13 || n == 32 || n == 0x85 || n == 0xA0 ||
  n == 0x1680 || (decide (0x2000 ≤ n) && decide (n ≤ 0x200A)) || n == 0x2028 || n == 0x2029 ||
  n == 0x202F || n == 0x205F || n == 0x3000

/-- Go `strings.TrimSpace`: leading and trailing white space removed. -/
def TrimSpace (s : Str) : Str := (s.dropWhile isSpace).rdropWhile isSpace

/-- The scan of `strings.Split` for a non-empty separator: `k` is the number of
characters of a separator occurrence still to be skipped, `acc` the current
piece in reverse. Occurrences are found left to right and do not overlap. -/
def splitGo (sep : Str) : Nat → Str → Str → List Str
  | _, acc, [] => [acc.reverse]
  | k + 1, acc, _ :: cs => splitGo sep k acc cs
  | 0, acc, c :: cs =>
      if sep.isPrefixOf (c :: cs) then acc.reverse :: splitGo sep (sep.length - 1) [] cs
      else splitGo sep 0 (c :: acc) cs

/-- Go `strings.Split(s, sep)`; with an empty separator the string is exploded
into its characters. -/
def Split (s sep : Str) : List Str :=
  if sep = [] then s.map (fun c => [c]) else splitGo sep 0 [] s

/-- Go `strings.Join(elems, sep)`. -/
def Join : List Str → Str → Str
  | [], _ => []
  | [a], _ => a
  | a :: b :: r, sep => a ++ sep ++ Join (b :: r) sep

/-! ## Answer parsing (`dispatcher_fused.go`) -/

/-- Go `splitFused`: trims the reply, returns nil when nothing is left, else
splits at the separator, trims every piece and skips the empty ones. -/
def splitFused (s sep : Str) : List Str :=
  let s := TrimSpace s
  if s = [] then []
  else
    (Split s sep).filterMap (fun x =>
      let x := TrimSpace x
      if x = [] then none else some x)

/-- Go `splitLines`: carriage returns removed, split at line feeds, every line
trimmed, empty lines skipped. -/
def splitLines (s : Str) : List Str :=
  let s := s.filter (fun c => decide (c ≠ Char.ofNat 13))
  (Split s [Char.ofNat 10]).filterMap (fun ln =>
    let ln := TrimSpace ln
    if ln = [] then none else some ln)

/-- The reference parse in the words of the specification: split the raw string
at every occurrence of the separator, trim each piece, drop the empty pieces. -/
def referenceParse (s sep : Str) : List Str :=
  ((Split s sep).map TrimSpace).filter (fun x => decide (x ≠ []))


/-! ## Upstream batch adapter (`anthropic_request.go`, `anthropic_batch.go`) -/

/-- Go `llmJob`. -/
structure llmJob where
  row : Int
  text : Str
  prompt : Str
deriving DecidableEq, Repr

/-- The fields of `anthropic.InnerRequests` that the code sets: the custom id,
the two system lines, the user message and the token limit. -/
structure InnerRequests where
  CustomId : Str
  system : List Str
  user : Str
  maxTokens : Int
deriving DecidableEq, Repr

/-- Go `buildAnthropicInnerRequest`. -/
def buildAnthropicInnerRequest (customID text prompt : Str) (maxTokens : Int) : InnerRequests :=
  { CustomId := customID
    system := ["you are a precise assistant".toList,
               "follow the instruction and respond with only the answer".toList]
    user := "TEXT:\n".toList ++ text ++ "\n\nINSTRUCTION:\n".toList ++ prompt ++
            "\n\nReturn only the answer text.".toList
    maxTokens := maxTokens }

/-- One sub-response of a finished upstream batch: its custom id, whether its
result type is `succeeded`, and the texts of its content blocks. -/
structure BatchResponse where
  CustomId : Str
  succeeded : Bool
  content : List Str
deriving DecidableEq, Repr

/-- What the remote batch service does with one submission, after create, poll
and retrieve: a failure (create error, poll error, terminal status, timeout,
cancelled context, retrieve error) or the list of sub-responses. -/
inductive BatchOutcome where
  | failed (err : GoError)
  | results (rs : List BatchResponse)
deriving DecidableEq, Repr

/-- The concatenation loop over content blocks (`if t != "" { out += t }`). -/
def concatBlocks (blocks : List Str) : Str :=
  blocks.foldl (fun out t => if t ≠ [] then out ++ t else out) []

/-- Go `AnthropicBatchClient.RunMessageBatch`; `remote` is the outcome of the
create / poll / retrieve exchange for the given requests. -/
def RunMessageBatch (remote : List InnerRequests → BatchOutcome) (reqs : List InnerRequests) :
    GoMap Str × Option GoError :=
  if reqs = [] then ([], none)
  else
    match remote reqs with
    | BatchOutcome.failed e => ([], some e)
    | BatchOutcome.results rs =>
        (rs.foldl (fun out br =>
            if br.succeeded = false then GoMap.set out br.CustomId []
            else GoMap.set out br.CustomId (concatBlocks br.content)) [], none)

/-! ## Batch dispatcher (`dispatcher.go`) -/

/-- Go `batchWaiter`; `done` is true once the channel is closed. -/
structure batchWaiter where
  done : Bool
  results : GoMap Str
  err : Option GoError
deriving DecidableEq, Repr

/-- The field of `AnthropicBatchClient` that the dispatcher reads. -/
structure AnthropicBatchClient where
  maxTokens : Int
deriving DecidableEq, Repr

/-- Go `LLMDispatcher`; durations are in nanoseconds. -/
structure LLMDispatcher where
  pending : List llmJob
  waiters : List batchWaiter
  flushScheduled : Bool
  client : Option AnthropicBatchClient
  flushDelay : Nat
  maxBatchSize : Nat
  pollEvery : Nat
  pollTimeout : Nat
deriving DecidableEq, Repr

/-- Go `NewLLMDispatcher`. -/
def NewLLMDispatcher (client : Option AnthropicBatchClient) : LLMDispatcher :=
  { pending := []
    waiters := []
    flushScheduled := false
    client := client
    flushDelay := 5 * 1000000
    maxBatchSize := 200
    pollEvery := 50 * 1000000
    pollTimeout := 120 * 1000000000 }

/-- The locked part of Go `LLMDispatcher.Submit`: the jobs and a fresh waiter are
appended and the flush timer is armed if none is. The second component is the
position of the caller's waiter. -/
def SubmitEnqueue (d : LLMDispatcher) (jobs : List llmJob) : LLMDispatcher × Nat :=
  ({ d with
      pending := d.pending ++ jobs
      waiters := d.waiters ++ [{ done := false, results := [], err := none }]
      flushScheduled := true },
   d.waiters.length)

/-- What one flush did: the dispatcher afterwards, the waiters it woke (in the
order of the waiter list) and the request lists of its upstream submissions. -/
structure FlushResult where
  d : LLMDispatcher
  woken : List batchWaiter
  sent : List (List InnerRequests)
deriving DecidableEq, Repr

/-- The closure `wakeAll` of `flush`. -/
def wakeAll (waiters : List batchWaiter) (results : GoMap Str) (err : Option GoError) :
    List batchWaiter :=
  waiters.map (fun _ => { done := true, results := results, err := err })

/-- The request list that `flush` builds for one chunk of jobs. -/
def buildReqs (sha1Sum : Str → List Nat) (maxTokens : Int) (chunk : List llmJob) :
    List InnerRequests :=
  chunk.map (fun j =>
    buildAnthropicInnerRequest (makeCustomID sha1Sum j.row j.text j.prompt) j.text j.prompt maxTokens)

/-- The loop `for start := 0; start < len(jobs); start += maxBatchSize` of
`flush`. The state is `(allResults, firstErr, submissions so far)`; `remote k`
is the outcome of the `k`-th submission. `none` means the fuel ran out. -/
def flushLoop (sha1Sum : Str → List Nat) (remote : Nat → List InnerRequests → BatchOutcome)
    (maxTokens : Int) (maxBatchSize : Nat) (jobs : List llmJob) :
    Nat → Nat → GoMap Str × Option GoError × List (List InnerRequests) →
    Option (GoMap Str × Option GoError × List (List InnerRequests))
  | 0, _, _ => none
  | fuel + 1, start, (allResults, firstErr, sent) =>
      if start < jobs.length then
        let e := if start + maxBatchSize > jobs.length then jobs.length else start + maxBatchSize
        let chunk := (jobs.drop start).take (e - start)
        let reqs := buildReqs sha1Sum maxTokens chunk
        let (res, err) := RunMessageBatch (remote sent.length) reqs
        let firstErr := if err ≠ none ∧ firstErr = none then err else firstErr
        let allResults := res.foldl (fun m kv => GoMap.set m kv.1 kv.2) allResults
        flushLoop sha1Sum remote maxTokens maxBatchSize jobs fuel (start + maxBatchSize)
          (allResults, firstErr, sent ++ [reqs])
      else some (allResults, firstErr, sent)

/-- Go `LLMDispatcher.flush`. The result is `none` when the chunk loop does not
end, which happens only for `maxBatchSize = 0`. -/
def flush (sha1Sum : Str → List Nat) (remote : Nat → List InnerRequests → BatchOutcome)
    (d : LLMDispatcher) : Option FlushResult :=
  let jobs := d.pending
  let waiters := d.waiters
  let d1 := { d with flushScheduled := false, pending := [], waiters := [] }
  if waiters.length = 0 then some { d := d1, woken := [], sent := [] }
  else if jobs.length = 0 then some { d := d1, woken := wakeAll waiters [] none, sent := [] }
  else
    match d.client with
    | none => some { d := d1, woken := wakeAll waiters [] (some "anthropic client is nil".toList),
                     sent := [] }
    | some client =>
        match flushLoop sha1Sum remote client.maxTokens d.maxBatchSize jobs (jobs.length + 1) 0
                ([], none, []) with
        | none => none
        | some (allResults, firstErr, sent) =>
            some { d := d1, woken := wakeAll waiters allResults firstErr, sent := sent }

/-- Go `LLMDispatcher.Submit` for a caller whose context does not expire, run
together with the flush that its timer triggers: the pair the caller receives
and the upstream submissions of that flush. When the flush never ends the
caller's context fires instead and `Submit` returns `ctx.Err()`. -/
def Submit (sha1Sum : Str → List Nat) (remote : Nat → List InnerRequests → BatchOutcome)
    (d : LLMDispatcher) (jobs : List llmJob) :
    (GoMap Str × Option GoError) × List (List InnerRequests) :=
  let (d1, idx) := SubmitEnqueue d jobs
  match flush sha1Sum remote d1 with
  | none => (([], some "context deadline exceeded".toList), [])
  | some r =>
      match r.woken.get? idx with
      | some w => ((w.results, w.err), r.sent)
      | none => (([], some "context deadline exceeded".toList), r.sent)

/-! ## Vectorised front-end (`arrow_standalone.go`, `ai_llm.go`) -/

/-- Row `i` of a chunk: the `i`-th entries of the four parallel input slices
(`texts`, `textValid`, `prompts`, `promptValid`), which have one common length. -/
structure Row where
  text : Str
  textValid : Bool
  prompt : Str
  promptValid : Bool
deriving DecidableEq, Repr

/-- A call that the front-end makes on a dispatcher, with the row index of the
job for the per-row calls. -/
inductive Call where
  | getResult (i : Nat) (text prompt : Str)
  | run (i : Nat) (text prompt : Str)
  | submit (jobs : List llmJob)
deriving DecidableEq, Repr

/-- The three process-wide handles `fusedDispatcher`, `singleClient` and
`dispatcher`; `none` is the nil pointer. A handle is given by its behaviour:
what `GetResult` / `Run` returns to the worker that serves row `i`, and what
`Submit` returns for a job list. -/
structure Handles where
  fusedDispatcher : Option (Nat → Str → Str → Str × Option GoError)
  singleClient : Option (Nat → Str → Str → Str × Option GoError)
  dispatcher : Option (List llmJob → GoMap Str × Option GoError)

/-- The output of one chunk (`out`, `outValid`) and the dispatcher calls made. -/
structure Output where
  out : List Str
  outValid : List Bool
  calls : List Call
deriving DecidableEq, Repr

/-- The body of a worker of `aiLLMBatch` for one job. -/
def workerStep (respond : Nat → Str → Str → Str × Option GoError)
    (mk : Nat → Str → Str → Call) (o : Output) (i : Nat) (text prompt : Str) : Output :=
  let (ans, err) := respond i text prompt
  let o := { o with calls := o.calls ++ [mk i text prompt] }
  if err ≠ none ∨ ans = [] then { o with outValid := o.outValid.set i false }
  else { o with out := o.out.set i ans, outValid := o.outValid.set i true }

/-- The producer loop of `aiLLMBatch` in fused and single mode together with the
workers that serve its jobs (each job is served once, by some worker; the rows
are served here in row order). -/
def poolLoop (respond : Nat → Str → Str → Str × Option GoError)
    (mk : Nat → Str → Str → Call) (rows : List (Nat × Row)) (o : Output) : Output :=
  rows.foldl (fun o ir =>
    if !ir.2.textValid || !ir.2.promptValid then { o with outValid := o.outValid.set ir.1 false }
    else workerStep respond mk o ir.1 ir.2.text ir.2.prompt) o

/-- Go `rowRef`. -/
structure rowRef where
  i : Nat
  cid : Str
deriving DecidableEq, Repr

/-- Go `tp`. -/
structure tp where
  text : Str
  prompt : Str
deriving DecidableEq, Repr

/-- The state of the batch-mode scan: `outValid`, `refs` and `uniq`. -/
structure Scan where
  outValid : List Bool
  refs : List rowRef
  uniq : GoMap tp
deriving DecidableEq, Repr

/-- One iteration of the batch-mode scan over the rows. -/
def scanStep (sha1Sum : Str → List Nat) (s : Scan) (ir : Nat × Row) : Scan :=
  if !ir.2.textValid || !ir.2.promptValid then { s with outValid := s.outValid.set ir.1 false }
  else
    let cid := customID sha1Sum ir.2.text ir.2.prompt
    { s with
      refs := s.refs ++ [{ i := ir.1, cid := cid }]
      uniq := if (GoMap.get s.uniq cid).isSome then s.uniq
              else GoMap.set s.uniq cid { text := ir.2.text, prompt := ir.2.prompt } }

/-- The batch-mode scan of a chunk. -/
def scanRows (sha1Sum : Str → List Nat) (rows : List Row) (outValid : List Bool) : Scan :=
  rows.enum.foldl (scanStep sha1Sum) { outValid := outValid, refs := [], uniq := [] }

/-- The job list built from `uniq` (the Go loop ranges over the map in an
unspecified order; the insertion order is used here). -/
def jobsOf (uniq : GoMap tp) : List llmJob :=
  uniq.map (fun e => { row := 0, text := e.2.text, prompt := e.2.prompt })

/-- The job list that batch mode passes to `Submit` for a chunk. -/
def batchJobs (sha1Sum : Str → List Nat) (rows : List Row) : List llmJob :=
  jobsOf (scanRows sha1Sum rows (List.replicate rows.length false)).uniq

/-- Go `aiLLMBatch` (the number of workers `parallel` does not enter the result). -/
def aiLLMBatch (sha1Sum : Str → List Nat) (h : Handles) (rows : List Row) : Output :=
  let n := rows.length
  let o : Output := { out := List.replicate n [], outValid := List.replicate n false, calls := [] }
  if h.fusedDispatcher.isNone ∧ h.singleClient.isNone ∧ h.dispatcher.isNone then o
  else
    match h.fusedDispatcher with
    | some getResult => poolLoop getResult Call.getResult rows.enum o
    | none =>
      match h.singleClient with
      | some run => poolLoop run Call.run rows.enum o
      | none =>
        let s := scanRows sha1Sum rows o.outValid
        if s.refs.length = 0 then { o with outValid := s.outValid }
        else
          let jobs := jobsOf s.uniq
          let (resMap, err) :=
            match h.dispatcher with
            | some submit => submit jobs
            | none => ([], none)
          let o := { o with outValid := s.outValid, calls := [Call.submit jobs] }
          if err ≠ none then
            s.refs.foldl (fun o r => { o with outValid := o.outValid.set r.i false }) o
          else
            s.refs.foldl (fun o r =>
              let ans := getStr resMap r.cid
              if ans = [] then { o with outValid := o.outValid.set r.i false }
              else { o with out := o.out.set r.i ans, outValid := o.outValid.set r.i true }) o

/-- The body of a worker of `aiLLM` for one job: an answer is assigned to the
output vector, a failure clears the validity bit. -/
def workerStepDuck (respond : Nat → Str → Str → Str × Option GoError)
    (mk : Nat → Str → Str → Call) (o : Output) (i : Nat) (text prompt : Str) : Output :=
  let (ans, err) := respond i text prompt
  let o := { o with calls := o.calls ++ [mk i text prompt] }
  if err ≠ none ∨ ans = [] then { o with outValid := o.outValid.set i false }
  else { o with out := o.out.set i ans }

/-- The producer loop and workers of `aiLLM` in fused and single mode. -/
def poolLoopDuck (respond : Nat → Str → Str → Str × Option GoError)
    (mk : Nat → Str → Str → Call) (rows : List (Nat × Row)) (o : Output) : Output :=
  rows.foldl (fun o ir =>
    if !ir.2.textValid || !ir.2.promptValid then { o with outValid := o.outValid.set ir.1 false }
    else workerStepDuck respond mk o ir.1 ir.2.text ir.2.prompt) o

/-- Go `aiLLM`, the DuckDB callback. The output vector is modelled by its string
slots `out` and its validity mask `outValid`, which is all-valid on entry. -/
def aiLLM (sha1Sum : Str → List Nat) (h : Handles) (rows : List Row) : Output :=
  let n := rows.length
  let o : Output := { out := List.replicate n [], outValid := List.replicate n true, calls := [] }
  if n = 0 then o
  else if h.fusedDispatcher.isNone ∧ h.singleClient.isNone ∧ h.dispatcher.isNone then
    { o with outValid := List.replicate n false }
  else
    match h.fusedDispatcher with
    | some getResult => poolLoopDuck getResult Call.getResult rows.enum o
    | none =>
      match h.singleClient with
      | some run => poolLoopDuck run Call.run rows.enum o
      | none =>
        let s := scanRows sha1Sum rows o.outValid
        if s.refs.length = 0 then { o with outValid := s.outValid }
        else
          let jobs := jobsOf s.uniq
          let (resMap, err) :=
            match h.dispatcher with
            | some submit => submit jobs
            | none => ([], none)
          let o := { o with outValid := s.outValid, calls := [Call.submit jobs] }
          if err ≠ none then
            s.refs.foldl (fun o r => { o with outValid := o.outValid.set r.i false }) o
          else
            s.refs.foldl (fun o r =>
              match GoMap.get resMap r.cid with
              | none => { o with outValid := o.outValid.set r.i false }
              | some ans =>
                  if ans = [] then { o with outValid := o.outValid.set r.i false }
                  else { o with out := o.out.set r.i ans }) o

/-- Batch mode with a real dispatcher behind the handle: a fresh
`LLMDispatcher` with the given client, whose flush talks to `remote`. -/
def batchHandles (sha1Sum : Str → List Nat) (remote : Nat → List InnerRequests → BatchOutcome)
    (client : Option AnthropicBatchClient) : Handles :=
  { fusedDispatcher := none
    singleClient := none
    dispatcher := some (fun jobs => (Submit sha1Sum remote (NewLLMDispatcher client) jobs).1) }

/-- A remote batch service that answers every sub-request it is given: each
request succeeds with the single content block `answer req`. -/
def echoRemote (answer : InnerRequests → Str) : Nat → List InnerRequests → BatchOutcome :=
  fun _ reqs => BatchOutcome.results
    (reqs.map (fun r => { CustomId := r.CustomId, succeeded := true, content := [answer r] }))

/-! ## Concrete inputs -/

/-- An eligible row with the given text and prompt. -/
def okRow (text prompt : String) : Row :=
  { text := text.toList, textValid := true, prompt := prompt.toList, promptValid := true }

/-- The chunk of the dedup scenario: `("cat","plural")`, `("cat","plural")`,
`("dog","plural")`. -/
def dedupChunk : List Row := [okRow "cat" "plural", okRow "cat" "plural", okRow "dog" "plural"]

/-- A row is eligible iff both validity flags are true. -/
def eligible (r : Row) : Bool := r.textValid && r.promptValid

/-- The fingerprint of a row. -/
def rowCid (sha1Sum : Str → List Nat) (r : Row) : Str := customID sha1Sum r.text r.prompt

/-- What the front-end does to the output slot of one row: nothing, clear the
validity flag, or write an answer and set the flag. -/
inductive RowAct where
  | skip
  | invalid
  | answer (a : Str)
deriving DecidableEq, Repr

/-- The effect of a row action on `(out, outValid)` at index `i`. -/
def applyAct (s : List Str × List Bool) (i : Nat) : RowAct → List Str × List Bool
  | RowAct.skip => s
  | RowAct.invalid => (s.1, s.2.set i false)
  | RowAct.answer a => (s.1.set i a, s.2.set i true)

/-- The string a row action leaves in a fresh output slot. -/
def actOut : RowAct → Str
  | RowAct.answer a => a
  | _ => []

/-- The validity flag a row action leaves in a fresh output slot. -/
def actValid : RowAct → Bool
  | RowAct.answer _ => true
  | _ => false

/-- What the selected dispatcher returns for row `i` of a chunk: the result of
`GetResult` or `Run` for the row, or, in batch mode, the entry of the map that
`Submit` returned under the row's fingerprint, with the error of `Submit`. -/
def dispatcherAnswer (sha1Sum : Str → List Nat) (h : Handles) (rows : List Row)
    (i : Nat) (r : Row) : Str × Option GoError :=
  match h.fusedDispatcher with
  | some getResult => getResult i r.text r.prompt
  | none =>
    match h.singleClient with
    | some run => run i r.text r.prompt
    | none =>
      match h.dispatcher with
      | some submit => (getStr (submit (batchJobs sha1Sum rows)).1 (rowCid sha1Sum r),
                        (submit (batchJobs sha1Sum rows)).2)
      | none => ([], none)

/-- The row action of `aiLLMBatch` for row `i`: an ineligible row is marked
invalid, an eligible row gets the dispatcher's answer if it came without error
and is not empty, and is marked invalid otherwise. -/
def rowAct (sha1Sum : Str → List Nat) (h : Handles) (rows : List Row) (ir : Nat × Row) : RowAct :=
  if eligible ir.2 = true then
    if (dispatcherAnswer sha1Sum h rows ir.1 ir.2).2 ≠ none ∨
        (dispatcherAnswer sha1Sum h rows ir.1 ir.2).1 = [] then RowAct.invalid
    else RowAct.answer (dispatcherAnswer sha1Sum h rows ir.1 ir.2).1
  else RowAct.invalid

/-- The dispatcher calls of `aiLLMBatch` for a chunk, in closed form: one
`GetResult` or `Run` per eligible row, or one `Submit` with the deduplicated
jobs when some row is eligible, or none when no handle is set. -/
def frontCalls (sha1Sum : Str → List Nat) (h : Handles) (rows : List Row) : List Call :=
  match h.fusedDispatcher with
  | some _ => (rows.enum.filter (fun ir => eligible ir.2)).map
      (fun ir => Call.getResult ir.1 ir.2.text ir.2.prompt)
  | none =>
    match h.singleClient with
    | some _ => (rows.enum.filter (fun ir => eligible ir.2)).map
        (fun ir => Call.run ir.1 ir.2.text ir.2.prompt)
    | none =>
      match h.dispatcher with
      | some _ => if rows.filter eligible = [] then [] else [Call.submit (batchJobs sha1Sum rows)]
      | none => []

/-- A mixed chunk: a null text, a null prompt and one eligible row. -/
def mixedChunk : List Row :=
  [{ text := [], textValid := false, prompt := "p".toList, promptValid := true },
   { text := "t".toList, textValid := true, prompt := [], promptValid := false },
   okRow "t" "p"]

/-- Single mode with a client that answers every call with `"ok"`. -/
def singleOk : Handles :=
  { fusedDispatcher := none
    singleClient := some (fun _ _ _ => ("ok".toList, none))
    dispatcher := none }

/-- The pieces `c :: p, ps` for the pieces `p, ps`. -/
def consHead (c : Char) : List Str → List Str
  | [] => [[c]]
  | p :: ps => (c :: p) :: ps

/-- The pieces with `c` appended to the last one. -/
def snocLast (c : Char) : List Str → List Str
  | [] => [[c]]
  | [p] => [p ++ [c]]
  | p :: q :: ps => p :: snocLast c (q :: ps)

/-- A separator neither begins nor ends with white space. -/
def sepEdgesNonSpace (sep : Str) : Prop :=
  (∀ c ∈ sep.head?, isSpace c = false) ∧ (∀ c ∈ sep.getLast?, isSpace c = false)

/-- The loop of `splitFused` and `splitLines` over the pieces: trim each piece
and skip the empty ones. -/
def trimParts (L : List Str) : List Str :=
  L.filterMap (fun x =>
    let x := TrimSpace x
    if x = [] then none else some x)

/-! ## Upstream single call (`anthropic_single.go`) -/

/-- What the remote service does with one `CreateMessages` request: a failure
or the texts of the content blocks of the reply. -/
inductive MessagesOutcome where
  | failed (err : GoError)
  | content (blocks : List Str)
deriving DecidableEq, Repr

/-- Go `wrapAnthropicErr` for an error that is not an API error: `where: err`. -/
def wrapAnthropicErr (loc : Str) (err : GoError) : GoError := loc ++ ": ".toList ++ err

/-- Go `AnthropicSingleClient.Run`; `remote` is the reply of the service to the
user message. -/
def AnthropicSingleClient.Run (remote : Str → MessagesOutcome) (text prompt : Str) :
    Str × Option GoError :=
  let user := "TEXT:\n".toList ++ text ++ "\n\nINSTRUCTION:\n".toList ++ prompt ++
              "\n\nReturn only the answer text.".toList
  match remote user with
  | MessagesOutcome.failed err => ([], some (wrapAnthropicErr "CreateMessages".toList err))
  | MessagesOutcome.content blocks => (concatBlocks blocks, none)

/-- The environment of a fused dispatcher: the reply of the remote service to
the `k`-th upstream call of the dispatcher, and the result of the rate limiter's
`Wait` before it. -/
structure Env where
  createMessages : Nat → Str → MessagesOutcome
  limiterWait : Nat → Option GoError

/-! ## Fused dispatcher (`dispatcher_fused.go`) -/

/-- Go `fusedBatch`; `done` is true once the channel is closed. -/
structure fusedBatch where
  text : Str
  prompts : GoMap Str
  order : List Str
  frozen : Bool
  err : Option GoError
  done : Bool
deriving DecidableEq, Repr

/-- Go `fusedWorkItem`; the pointer `b` is the index of the batch in the heap. -/
structure fusedWorkItem where
  text : Str
  promptList : List Str
  fusedPrompt : Str
  b : Nat
deriving DecidableEq, Repr

/-- Go `FusedDispatcher`. The batch objects live in `heap` and a `*fusedBatch`
is an index into it. Durations are in nanoseconds; `client` tells whether the
client pointer is non-nil and `limiter` whether a limiter is installed. Two
fields are not in the Go struct: `calling` holds the work of the goroutines
that have frozen a batch and not yet completed it (a `flushText` during its
upstream call, or the worker after it took items from `workCh`), and
`upstream` logs the prompt argument of every `client.Run` call, in order. -/
structure FusedDispatcher where
  heap : List fusedBatch
  batches : GoMap Nat
  inflight : GoMap Nat
  cache : GoMap (GoMap Str)
  client : Bool
  sep : Str
  fuseDelay : Nat
  fuseGrace : Nat
  maxWaitCtx : Nat
  limiter : Bool
  debug : Bool
  multiEnabled : Bool
  multiMaxTexts : Nat
  multiBatchWait : Nat
  workCh : List fusedWorkItem
  calling : List fusedWorkItem
  upstream : List Str
deriving DecidableEq, Repr

/-- The environment variables read by `NewFusedDispatcher`, after `envInt`:
`none` is an unset or unparsable variable. -/
structure FusedEnv where
  debug : Bool
  multi : Bool
  fuseDelayMs : Option Int
  fuseGraceMs : Option Int
  maxTexts : Option Int
  batchMs : Option Int
  rps : Option Int
deriving DecidableEq, Repr

/-- An override of a duration by a non-negative number of milliseconds. -/
def msOverride (v : Option Int) (dflt : Nat) : Nat :=
  match v with
  | some ms => if ms ≥ 0 then ms.toNat * 1000000 else dflt
  | none => dflt

/-- Go `NewFusedDispatcher`. -/
def NewFusedDispatcher (e : FusedEnv) (client : Bool) (sep : Str) : FusedDispatcher :=
  { heap := []
    batches := []
    inflight := []
    cache := []
    client := client
    sep := sep
    fuseDelay := msOverride e.fuseDelayMs (10 * 1000000)
    fuseGrace := msOverride e.fuseGraceMs 0
    maxWaitCtx := 30 * 1000000000
    limiter := (match e.rps with
      | some rps => decide (rps > 0)
      | none => false)
    debug := e.debug
    multiEnabled := e.multi
    multiMaxTexts := (match e.maxTexts with
      | some n => if n > 0 then n.toNat else 16
      | none => 16)
    multiBatchWait := msOverride e.batchMs (5 * 1000000)
    workCh := []
    calling := []
    upstream := [] }

/-- The environment with no variable set. -/
def noEnv : FusedEnv :=
  { debug := false, multi := false, fuseDelayMs := none, fuseGraceMs := none,
    maxTexts := none, batchMs := none, rps := none }

/-- The batch object behind a pointer. -/
def getBatch (heap : List fusedBatch) (b : Nat) : fusedBatch :=
  heap.getD b { text := [], prompts := [], order := [], frozen := false, err := none,
                done := false }

/-- An in-place update of the batch object behind a pointer. -/
def updBatch (heap : List fusedBatch) (b : Nat) (f : fusedBatch → fusedBatch) :
    List fusedBatch :=
  match heap[b]? with
  | some x => heap.set b (f x)
  | none => heap

/-- What one pass through the loop of `GetResult` does before it blocks or
returns. -/
inductive GetStep where
  | hit (ans : Str)
  | waitIncluded (b : Nat)
  | waitOther (b : Nat)
  | waitRegistered (b : Nat)
  | waitFrozen (b : Nat)
deriving DecidableEq, Repr

/-- One pass through the loop of Go `FusedDispatcher.GetResult`, up to the point
where the caller returns (cache hit) or blocks on a `done` channel. The Boolean
tells whether a flush timer for the text was armed. -/
def GetResultEnter (d : FusedDispatcher) (text prompt : Str) :
    FusedDispatcher × GetStep × Bool :=
  let cached : Str :=
    match GoMap.get d.cache text with
    | some mp => getStr mp prompt
    | none => []
  if cached ≠ [] then (d, GetStep.hit cached, false)
  else
    match GoMap.get d.inflight text with
    | some inb =>
        if (GoMap.get (getBatch d.heap inb).prompts prompt).isSome
        then (d, GetStep.waitIncluded inb, false)
        else (d, GetStep.waitOther inb, false)
    | none =>
        let (d1, b, armed) : FusedDispatcher × Nat × Bool :=
          match GoMap.get d.batches text with
          | some b => (d, b, false)
          | none =>
              ({ d with
                  heap := d.heap ++ [{ text := text, prompts := [], order := [], frozen := false,
                                       err := none, done := false }]
                  batches := GoMap.set d.batches text d.heap.length },
               d.heap.length, true)
        if (getBatch d1.heap b).frozen = false then
          ({ d1 with heap := updBatch d1.heap b (fun x =>
              if (GoMap.get x.prompts prompt).isSome then x
              else { x with prompts := GoMap.set x.prompts prompt [],
                            order := x.order ++ [prompt] }) },
           GetStep.waitRegistered b, armed)
        else (d1, GetStep.waitFrozen b, armed)

/-- What a caller of `GetResult` reads from its batch after `done` is closed. -/
def GetResultRead (d : FusedDispatcher) (b : Nat) (prompt : Str) : Str × Option GoError :=
  (getStr (getBatch d.heap b).prompts prompt, (getBatch d.heap b).err)

/-- Go `setAll`. -/
def setAll (x : fusedBatch) (msg : Str) (debug : Bool) (err : Option GoError) : fusedBatch :=
  if debug then { x with prompts := GoMap.setAllVals x.prompts msg, err := none }
  else { x with err := err }

/-- The block `d.mu.Lock(); delete(d.inflight, text); d.mu.Unlock(); close(b.done)`
that ends every completion path. -/
def releaseBatch (d : FusedDispatcher) (text : Str) (b : Nat) : FusedDispatcher :=
  { d with
    inflight := GoMap.delete d.inflight text
    heap := updBatch d.heap b (fun x => { x with done := true }) }

/-- The failure block of `flushText`, `finishSingle` and `runMultiBatch`:
`setAll`, then release. -/
def failBatch (d : FusedDispatcher) (text : Str) (b : Nat) (msg : Str)
    (err : Option GoError) : FusedDispatcher :=
  releaseBatch { d with heap := updBatch d.heap b (fun x => setAll x msg d.debug err) } text b

/-- The mismatch block of `finishSingle` and `runMultiBatch`: with debug on the
diagnostic goes into every prompt slot and `err` is cleared, with debug off
`err` is set; then release. -/
def mismatchBatch (d : FusedDispatcher) (text : Str) (b : Nat) (diag : Str)
    (err : GoError) : FusedDispatcher :=
  releaseBatch { d with heap := updBatch d.heap b (fun x =>
    if d.debug then { x with prompts := GoMap.setAllVals x.prompts diag, err := none }
    else { x with err := some err }) } text b

/-- The loop `for p, a := range b.prompts { if a != "" { d.cache[text][p] = a } }`. -/
def cacheAnswers (inner : GoMap Str) (prompts : GoMap Str) : GoMap Str :=
  prompts.foldl (fun m e => if e.2 ≠ [] then GoMap.set m e.1 e.2 else m) inner

/-- The success block of `finishSingle` and `runMultiBatch`: the parts are
slotted into the prompts by index, `err` is cleared, the non-empty answers are
cached, then release. -/
def succeedBatch (d : FusedDispatcher) (text : Str) (b : Nat) (promptList parts : List Str) :
    FusedDispatcher :=
  let heap1 := updBatch d.heap b (fun x =>
    { x with
      prompts := (promptList.zip parts).foldl (fun m e => GoMap.set m e.1 e.2) x.prompts
      err := none })
  let inner := (GoMap.get d.cache text).getD []
  releaseBatch
    { d with
      heap := heap1
      cache := GoMap.set d.cache text (cacheAnswers inner (getBatch heap1 b).prompts) }
    text b

/-- Go `FusedDispatcher.finishSingle`. -/
def finishSingle (d : FusedDispatcher) (text : Str) (b : Nat) (promptList : List Str)
    (raw : Str) (err : Option GoError) : FusedDispatcher :=
  match err with
  | some e => failBatch d text b ("ERR:".toList ++ e) (some e)
  | none =>
    let parts := splitFused raw d.sep
    if parts.length ≠ promptList.length then
      mismatchBatch d text b
        ("PARSE_MISMATCH want=".toList ++ itoa promptList.length ++ " got=".toList ++
          itoa parts.length ++ " raw=".toList ++ raw)
        ("got ".toList ++ itoa parts.length ++ " parts, want ".toList ++ itoa promptList.length)
    else succeedBatch d text b promptList parts

/-- The upstream call `d.client.Run(reqCtx, "", prompt)`, with its entry in the
log. -/
def clientRun (env : Env) (d : FusedDispatcher) (prompt : Str) :
    (Str × Option GoError) × FusedDispatcher :=
  (AnthropicSingleClient.Run (env.createMessages d.upstream.length) [] prompt,
   { d with upstream := d.upstream ++ [prompt] })

/-- The user payload of Go `runSingleFusedRequest`. -/
def fusedPayload (text fusedPrompt sep : Str) : Str :=
  "Return machine-parseable output.".toList ++ "\n".toList ++
  "TEXT:".toList ++ text ++ "\nINSTRUCTIONS:".toList ++ fusedPrompt ++
  "\nReturn answers ONLY, in order, separated by \"".toList ++ sep ++ "\". No newlines.".toList

/-- Go `FusedDispatcher.runSingleFusedRequest`. -/
def runSingleFusedRequest (env : Env) (d : FusedDispatcher) (text fusedPrompt : Str) :
    (Str × Option GoError) × FusedDispatcher :=
  match (if d.limiter then env.limiterWait d.upstream.length else none) with
  | some err => (([], some err), d)
  | none => clientRun env d (fusedPayload text fusedPrompt d.sep)

/-- What `flushText` has done when it reaches its upstream call or returns. -/
inductive FlushStep where
  | noBatch
  | finished
  | queued (item : fusedWorkItem)
  | call (item : fusedWorkItem)
deriving DecidableEq, Repr

/-- Go `FusedDispatcher.flushText` up to its upstream call: the batch moves from
`batches` to `inflight`; without a client it fails at once; else it is frozen
and its prompts are listed in insertion order; an empty list releases it; in
multi mode the work item goes to `workCh`; otherwise the caller goes on to
`runSingleFusedRequest` and `finishSingle` with the item. -/
def flushTextBegin (d : FusedDispatcher) (text : Str) : FusedDispatcher × FlushStep :=
  match GoMap.get d.batches text with
  | none => ({ d with batches := GoMap.delete d.batches text }, FlushStep.noBatch)
  | some b =>
    let d1 := { d with batches := GoMap.delete d.batches text,
                       inflight := GoMap.set d.inflight text b }
    if d1.client = false then
      (failBatch d1 text b "ERR:client_nil".toList (some "single client is nil".toList),
       FlushStep.finished)
    else
      let d2 := { d1 with heap := updBatch d1.heap b (fun x => { x with frozen := true }) }
      let x := getBatch d2.heap b
      let promptList := x.order.filter (fun p => (GoMap.get x.prompts p).isSome)
      if promptList.length = 0 then (releaseBatch d2 text b, FlushStep.finished)
      else
        let item : fusedWorkItem :=
          { text := text, promptList := promptList, fusedPrompt := Join promptList d2.sep,
            b := b }
        if d2.multiEnabled then ({ d2 with workCh := d2.workCh ++ [item] }, FlushStep.queued item)
        else ({ d2 with calling := d2.calling ++ [item] }, FlushStep.call item)

/-- The rest of `flushText` for an item that reached the upstream call. -/
def flushTextCall (env : Env) (d : FusedDispatcher) (item : fusedWorkItem) : FusedDispatcher :=
  let (r, d1) := runSingleFusedRequest env d item.text item.fusedPrompt
  finishSingle { d1 with calling := d1.calling.erase item } item.text item.b item.promptList
    r.1 r.2

/-- Go `FusedDispatcher.flushText` in non-multi mode, run to its end. -/
def flushText (env : Env) (d : FusedDispatcher) (text : Str) : FusedDispatcher :=
  match flushTextBegin d text with
  | (d1, FlushStep.call item) => flushTextCall env d1 item
  | (d1, _) => d1

/-- Go `fmt.Sprint(err)`. -/
def sprintErr : Option GoError → Str
  | some e => e
  | none => "<nil>".toList

/-- The prompt that Go `runMultiBatch` builds for a list of work items. -/
def multiPayload (sep : Str) (wantN : Nat) (items : List fusedWorkItem) : Str :=
  "Return machine-parseable output.\n".toList ++
  "For each item below, output EXACTLY ONE line.\n".toList ++
  "Each line must contain exactly ".toList ++ itoa wantN ++
  " answers separated by '".toList ++ sep ++
  "'. No extra text. No blank lines.\n\n".toList ++
  items.enum.flatMap (fun e =>
    "ITEM ".toList ++ itoa e.1 ++ "\nTEXT:".toList ++ e.2.text ++
    "\nINSTRUCTIONS:".toList ++ e.2.fusedPrompt ++ "\n\n".toList)

/-- The body of the last loop of `runMultiBatch` for one item and its line. -/
def finishLine (d : FusedDispatcher) (it : fusedWorkItem) (line : Str) : FusedDispatcher :=
  let parts := splitFused line d.sep
  if parts.length ≠ it.promptList.length then
    mismatchBatch d it.text it.b
      ("got=".toList ++ itoa parts.length ++ " raw=".toList ++ line)
      ("mgot ".toList ++ itoa parts.length ++ ", want ".toList ++ itoa it.promptList.length)
  else succeedBatch d it.text it.b it.promptList parts

/-- Go `FusedDispatcher.runMultiBatch`. -/
def runMultiBatch (env : Env) (d : FusedDispatcher) (items : List fusedWorkItem) :
    FusedDispatcher :=
  match items with
  | [] => d
  | first :: _ =>
    let wantN := first.promptList.length
    if items.any (fun it => decide (it.promptList.length ≠ wantN)) then
      items.foldl (fun d x =>
        let (r, d1) := runSingleFusedRequest env d x.text x.fusedPrompt
        finishSingle d1 x.text x.b x.promptList r.1 r.2) d
    else
      let (r, d1) := clientRun env d (multiPayload d.sep wantN items)
      if r.2 ≠ none ∨ TrimSpace r.1 = [] then
        items.foldl (fun d it =>
          failBatch d it.text it.b ("ERR:".toList ++ sprintErr r.2) r.2) d1
      else
        let lines := splitLines r.1
        if lines.length ≠ items.length then
          items.foldl (fun d it =>
            mismatchBatch d it.text it.b
              ("lines=".toList ++ itoa lines.length ++ " raw=".toList ++ r.1)
              ("got ".toList ++ itoa lines.length ++ " lines, want ".toList ++
                itoa items.length)) d1
        else
          (items.zip lines).foldl (fun d e => finishLine d e.1 e.2) d1

/-- One round of Go `multiWorker` that collects `k` items (at least one, at most
`multiMaxTexts` when that is positive) from `workCh` and runs them. -/
def multiWorkerRound (env : Env) (d : FusedDispatcher) (k : Nat) : FusedDispatcher :=
  let items := d.workCh.take k
  runMultiBatch env { d with workCh := d.workCh.drop k } items

/-- Go `FusedDispatcher.GetResult` for a caller that is alone on the dispatcher:
nobody else registers, flushes or completes while it waits. After a cache hit it
returns at once; after registering it waits until the flush timer of its text
fires and the flush (in multi mode, the next worker round, which takes all
queued items up to `multiMaxTexts`) completes its batch. `none` stands for a
caller that waits for an event which only another goroutine can produce. -/
def GetResultAlone (env : Env) (d : FusedDispatcher) (text prompt : Str) :
    Option ((Str × Option GoError) × FusedDispatcher) :=
  match GetResultEnter d text prompt with
  | (d1, GetStep.hit ans, _) => some ((ans, none), d1)
  | (d1, GetStep.waitRegistered b, _) =>
      let d2 :=
        if d1.multiEnabled then
          multiWorkerRound env (flushTextBegin d1 text).1 (max 1 d1.multiMaxTexts)
        else flushText env d1 text
      if (getBatch d2.heap b).done then some (GetResultRead d2 b prompt, d2) else none
  | _ => none

/-- An environment in which every upstream call gets the same reply. -/
def constEnv (reply : MessagesOutcome) : Env :=
  { createMessages := fun _ _ => reply, limiterWait := fun _ => none }

/-- A fresh fused dispatcher with a client, the production separator and no
environment variable set, except for the debug flag. -/
def freshFused (debug : Bool) : FusedDispatcher :=
  NewFusedDispatcher { noEnv with debug := debug } true ";".toList

/-- Three callers have registered the prompts `p1`, `p2`, `p3` for the text
`cat` on a fresh dispatcher (debug off). -/
def threePrompts : FusedDispatcher :=
  (GetResultEnter (GetResultEnter (GetResultEnter (freshFused false)
    "cat".toList "p1".toList).1 "cat".toList "p2".toList).1 "cat".toList "p3".toList).1

/-- The dispatcher `threePrompts` after the flush of `cat` has frozen the batch
and reached its upstream call. -/
def threeFrozen : FusedDispatcher := (flushTextBegin threePrompts "cat".toList).1

/-- Three prompts registered for `cat` on a fresh dispatcher with debug on, the
batch frozen and its upstream call reached. -/
def threeFrozenDebug : FusedDispatcher :=
  (flushTextBegin (GetResultEnter (GetResultEnter (GetResultEnter (freshFused true)
    "cat".toList "p1".toList).1 "cat".toList "p2".toList).1 "cat".toList "p3".toList).1
    "cat".toList).1

/-- What `finishLine` makes of the item's batch when debug is off. -/
def lineUpdate (sp : Str) (e : fusedWorkItem × Str) (x : fusedBatch) : fusedBatch :=
  if (splitFused e.2 sp).length ≠ e.1.promptList.length then
    { x with err := some ("mgot ".toList ++ itoa (splitFused e.2 sp).length ++
        ", want ".toList ++ itoa e.1.promptList.length), done := true }
  else
    { x with
      prompts := (e.1.promptList.zip (splitFused e.2 sp)).foldl
        (fun m e => GoMap.set m e.1 e.2) x.prompts
      err := none, done := true }

/-- The cache read `d.cache[text][prompt]`, with `none` for a missing text or a
missing prompt. -/
def cacheGet (cache : GoMap (GoMap Str)) (text prompt : Str) : Option Str :=
  match GoMap.get cache text with
  | some mp => GoMap.get mp prompt
  | none => none

/-- One atomic step of a fused dispatcher that is used by any number of
goroutines. The steps are the locked sections of the Go code: one pass of a
`GetResult` caller up to its return or its wait; a flush timer firing, up to the
upstream call of `flushText`; the worker taking `k` items from `workCh`; an
upstream call being sent by a goroutine that holds work; and the completion of
a piece of held work by one of the three completion blocks of `finishSingle` and
`runMultiBatch` (failure, parse mismatch, success with as many non-empty parts
as the item has prompts). Replies, errors and timing are arbitrary. -/
inductive FusedStep : FusedDispatcher → FusedDispatcher → Prop where
  | enter (d : FusedDispatcher) (text prompt : Str) :
      FusedStep d (GetResultEnter d text prompt).1
  | flush (d : FusedDispatcher) (text : Str) :
      FusedStep d (flushTextBegin d text).1
  | take (d : FusedDispatcher) (k : Nat) :
      FusedStep d { d with workCh := d.workCh.drop k, calling := d.calling ++ d.workCh.take k }
  | call (d : FusedDispatcher) (payload : Str) :
      FusedStep d { d with upstream := d.upstream ++ [payload] }
  | fail (d : FusedDispatcher) (it : fusedWorkItem) (msg : Str) (err : Option GoError) :
      it ∈ d.calling →
      FusedStep d (failBatch { d with calling := d.calling.erase it } it.text it.b msg err)
  | mismatch (d : FusedDispatcher) (it : fusedWorkItem) (diag : Str) (err : GoError) :
      it ∈ d.calling →
      FusedStep d (mismatchBatch { d with calling := d.calling.erase it } it.text it.b diag err)
  | succeed (d : FusedDispatcher) (it : fusedWorkItem) (parts : List Str) :
      it ∈ d.calling → parts.length = it.promptList.length → (∀ a ∈ parts, a ≠ []) →
      FusedStep d
        (succeedBatch { d with calling := d.calling.erase it } it.text it.b it.promptList parts)

/-- The states that a fused dispatcher can reach from `d`. -/
def FusedReach (d d2 : FusedDispatcher) : Prop := Relation.ReflTransGen FusedStep d d2

/-- The invariant of the fused dispatcher. A batch listed in `batches` or
`inflight` is a valid, not yet completed batch of that text, and no text is in
both tables; every batch that is not completed is listed under its own text; the
answer slots of such a batch are empty, its prompts are distinct and none of
them is in the cache of its text; every piece of held or queued work belongs to
the in-flight batch of its text and lists prompts of that batch, and no two
pieces share a text; with debug off every non-empty answer of a completed batch
is in the cache; and the cache holds no empty answer. -/
structure FusedInv (d : FusedDispatcher) : Prop where
  batches_wf : ∀ t b, GoMap.get d.batches t = some b →
    b < d.heap.length ∧ (getBatch d.heap b).text = t ∧ (getBatch d.heap b).done = false
      ∧ GoMap.get d.inflight t = none
  inflight_wf : ∀ t b, GoMap.get d.inflight t = some b →
    b < d.heap.length ∧ (getBatch d.heap b).text = t ∧ (getBatch d.heap b).done = false
  live_reg : ∀ b, b < d.heap.length → (getBatch d.heap b).done = false →
    GoMap.get d.batches (getBatch d.heap b).text = some b
      ∨ GoMap.get d.inflight (getBatch d.heap b).text = some b
  live_slots : ∀ b, b < d.heap.length → (getBatch d.heap b).done = false →
    (GoMap.keys (getBatch d.heap b).prompts).Nodup
      ∧ ∀ p ∈ GoMap.keys (getBatch d.heap b).prompts,
          GoMap.get (getBatch d.heap b).prompts p = some []
            ∧ cacheGet d.cache (getBatch d.heap b).text p = none
  items_wf : ∀ it ∈ d.calling ++ d.workCh,
    GoMap.get d.inflight it.text = some it.b
      ∧ ∀ p ∈ it.promptList, p ∈ GoMap.keys (getBatch d.heap it.b).prompts
  items_nodup : ((d.calling ++ d.workCh).map (fun it => it.text)).Nodup
  done_cached : d.debug = false → ∀ b, b < d.heap.length → (getBatch d.heap b).done = true →
    ∀ p, getStr (getBatch d.heap b).prompts p ≠ [] →
      cacheGet d.cache (getBatch d.heap b).text p = some (getStr (getBatch d.heap b).prompts p)
  cache_nonempty : ∀ t p a, cacheGet d.cache t p = some a → a ≠ []

/-- The registration of a prompt in a batch, as in `GetResult`: a new prompt
gets an empty answer slot and is appended to `order`. -/
def registerPrompt (prompt : Str) (x : fusedBatch) : fusedBatch :=
  if (GoMap.get x.prompts prompt).isSome then x
  else { x with prompts := GoMap.set x.prompts prompt [], order := x.order ++ [prompt] }

/-- A fresh collecting batch, as allocated by `GetResult`. -/
def newBatch (text : Str) : fusedBatch :=
  { text := text, prompts := [], order := [], frozen := false, err := none, done := false }

/-- An environment whose first upstream reply is `x;y` and whose later replies
are `z`. -/
def envTwoReplies : Env :=
  { createMessages := fun k _ =>
      if k = 0 then MessagesOutcome.content ["x;y".toList]
      else MessagesOutcome.content ["z".toList]
    limiterWait := fun _ => none }

/-- Two calls `GetResult(text, prompt)` one after the other by a caller that is
alone on the dispatcher: the result of the first, the result of the second and
the number of upstream calls made up to then. -/
def twoCalls (env : Env) (d : FusedDispatcher) (text prompt : Str) :
    Option ((Str × Option GoError) × (Str × Option GoError) × Nat) :=
  match GetResultAlone env d text prompt with
  | none => none
  | some (r1, d1) =>
    match GetResultAlone env d1 text prompt with
    | none => none
    | some (r2, d2) => some (r1, r2, d2.upstream.length)

/-- The body of the fallback loop of `runMultiBatch` for one item. -/
def fallbackItem (env : Env) (d : FusedDispatcher) (x : fusedWorkItem) : FusedDispatcher :=
  finishSingle (runSingleFusedRequest env d x.text x.fusedPrompt).2 x.text x.b x.promptList
    (runSingleFusedRequest env d x.text x.fusedPrompt).1.1
    (runSingleFusedRequest env d x.text x.fusedPrompt).1.2

/-- The dispatcher after a caller that is alone asked for `("cat","p1")` on a
fresh dispatcher (debug off) and the upstream replied `x`. -/
def answeredOnce : FusedDispatcher :=
  match GetResultAlone (constEnv (MessagesOutcome.content ["x".toList])) (freshFused false)
      "cat".toList "p1".toList with
  | some (_, d) => d
  | none => freshFused false

/-- The cache holds no empty answer. -/
def cacheNonempty (cache : GoMap (GoMap Str)) : Prop :=
  ∀ t p a, cacheGet cache t p = some a → a ≠ []

/-- The number `ceil(a / b)` for a positive `b`. -/
def ceilDiv (a b : Nat) : Nat := (a + b - 1) / b

/-- The chunks of at most `n` elements into which a list is cut from the left;
the first argument bounds the number of chunks. -/
def chunksOf {α : Type} (n : Nat) : Nat → List α → List (List α)
  | 0, _ => []
  | _ + 1, [] => []
  | f + 1, a :: l => (a :: l).take n :: chunksOf n f ((a :: l).drop n)

/-- The `maxBatchSize`-sized chunks of a job list, the last one possibly
shorter. -/
def jobChunks (maxBatchSize : Nat) (jobs : List llmJob) : List (List llmJob) :=
  chunksOf maxBatchSize jobs.length jobs

/-- The body of the chunk loop of `flush` for one chunk, on the state
`(allResults, firstErr, submissions so far)`. -/
def flushStep (sha1Sum : Str → List Nat) (remote : Nat → List InnerRequests → BatchOutcome)
    (maxTokens : Int) (st : GoMap Str × Option GoError × List (List InnerRequests))
    (chunk : List llmJob) : GoMap Str × Option GoError × List (List InnerRequests) :=
  let reqs := buildReqs sha1Sum maxTokens chunk
  let r := RunMessageBatch (remote st.2.2.length) reqs
  (r.1.foldl (fun m kv => GoMap.set m kv.1 kv.2) st.1,
   (if r.2 ≠ none ∧ st.2.1 = none then r.2 else st.2.1),
   st.2.2 ++ [reqs])

/-- What `RunMessageBatch` returns for each chunk of a list, the first chunk
being submission number `k` of the flush. -/
def chunkOutcomes (sha1Sum : Str → List Nat) (remote : Nat → List InnerRequests → BatchOutcome)
    (maxTokens : Int) : Nat → List (List llmJob) → List (GoMap Str × Option GoError)
  | _, [] => []
  | k, c :: cs =>
      RunMessageBatch (remote k) (buildReqs sha1Sum maxTokens c) ::
        chunkOutcomes sha1Sum remote maxTokens (k + 1) cs

/-- The union of a list of maps, a later map overwriting equal keys. -/
def unionMaps (ms : List (GoMap Str)) : GoMap Str :=
  ms.foldl (fun acc m => m.foldl (fun a kv => GoMap.set a kv.1 kv.2) acc) []

/-- The first error in a list of results, `none` when there is none. -/
def firstError (es : List (Option GoError)) : Option GoError :=
  (es.filterMap id).head?

/-- The number of distinct (text, prompt) pairs of a job list. -/
def uniquePairs (jobs : List llmJob) : Nat :=
  ((jobs.map (fun j => (j.text, j.prompt))).dedup).length

/-- The pair `(results, err)` that a flush hands to its waiters, case by case:
no pending jobs, an empty map and no error; pending jobs and a nil client, a nil
map and the error `anthropic client is nil`; else the union of the result maps
of the chunks of the pending list and the first error among them. -/
def flushPair (sha1Sum : Str → List Nat) (remote : Nat → List InnerRequests → BatchOutcome)
    (d : LLMDispatcher) : GoMap Str × Option GoError :=
  if d.pending = [] then ([], none)
  else
    match d.client with
    | none => ([], some "anthropic client is nil".toList)
    | some c =>
        let outs := chunkOutcomes sha1Sum remote c.maxTokens 0
          (jobChunks d.maxBatchSize d.pending)
        (unionMaps (outs.map Prod.fst), firstError (outs.map Prod.snd))

/-- Two callers have submitted one job each to a fresh batch dispatcher with a
client, within one flush window. -/
def twoWaiters : LLMDispatcher :=
  (SubmitEnqueue (SubmitEnqueue (NewLLMDispatcher (some { maxTokens := 256 }))
    [{ row := 0, text := "cat".toList, prompt := "plural".toList }]).1
    [{ row := 0, text := "dog".toList, prompt := "plural".toList }]).1

/-- A batch service that answers every request of a submission with `ok`. -/
def okRemote (_ : Nat) (reqs : List InnerRequests) : BatchOutcome :=
  BatchOutcome.results
    (reqs.map (fun q => { CustomId := q.CustomId, succeeded := true, content := ["ok".toList] }))

/-- Two callers have submitted the same job `("cat","plural")` to a fresh batch
dispatcher with a client, within one flush window. -/
def twoSamePair : LLMDispatcher :=
  (SubmitEnqueue (SubmitEnqueue (NewLLMDispatcher (some { maxTokens := 256 }))
    [{ row := 0, text := "cat".toList, prompt := "plural".toList }]).1
    [{ row := 0, text := "cat".toList, prompt := "plural".toList }]).1

/-! ## Initialisation (`arrow_init.go`, `extension.go`) -/

/-- The fields of Go `AnthropicSingleClient` that its constructor sets to
constants; the timeout is in nanoseconds. -/
structure AnthropicSingleClient where
  maxTokens : Int
  timeout : Nat
deriving DecidableEq, Repr

/-- The process environment that initialisation reads: the values that
`os.Getenv` returns for `QUACK_LLM_MODE` and `ANTHROPIC_API_KEY` (the empty
string for an unset variable) and the variables read by `NewFusedDispatcher`. -/
structure ProcessEnv where
  QUACK_LLM_MODE : Str
  ANTHROPIC_API_KEY : Str
  fused : FusedEnv
deriving DecidableEq, Repr

/-- Go `NewAnthropicSingleClientFromEnv`: the client pointer and the error. -/
def NewAnthropicSingleClientFromEnv (env : ProcessEnv) :
    Option AnthropicSingleClient × Option GoError :=
  if env.ANTHROPIC_API_KEY = [] then (none, some "ANTHROPIC_API_KEY is not set".toList)
  else (some { maxTokens := 256, timeout := 20 * 1000000000 }, none)

/-- Go `NewAnthropicBatchClientFromEnv`: the client pointer and the error. -/
def NewAnthropicBatchClientFromEnv (env : ProcessEnv) :
    Option AnthropicBatchClient × Option GoError :=
  if env.ANTHROPIC_API_KEY = [] then (none, some "ANTHROPIC_API_KEY is not set".toList)
  else (some { maxTokens := 256 }, none)

/-- The three package-level handles `dispatcher`, `singleClient` and
`fusedDispatcher`; `none` is the nil pointer. -/
structure Globals where
  dispatcher : Option LLMDispatcher
  singleClient : Option AnthropicSingleClient
  fusedDispatcher : Option FusedDispatcher
deriving DecidableEq, Repr

/-- How Go `init` ends: with a panic, or normally with the handles set. -/
inductive InitOutcome where
  | panic (msg : Str)
  | done (g : Globals)
deriving DecidableEq, Repr

/-- Go `init` of `arrow_init.go`. -/
def init (env : ProcessEnv) : InitOutcome :=
  let mode := env.QUACK_LLM_MODE
  let g : Globals := { dispatcher := none, singleClient := none, fusedDispatcher := none }
  if mode = "single".toList then
    match NewAnthropicSingleClientFromEnv env with
    | (_, some err) => InitOutcome.panic ("Failed to init single client: ".toList ++ err)
    | (c, none) => InitOutcome.done { g with singleClient := c }
  else if mode = "fused".toList then
    match NewAnthropicSingleClientFromEnv env with
    | (_, some err) =>
        InitOutcome.panic ("Failed to init single client (for fused mode): ".toList ++ err)
    | (c, none) =>
        InitOutcome.done
          { g with fusedDispatcher := some (NewFusedDispatcher env.fused c.isSome ";".toList) }
  else
    match NewAnthropicBatchClientFromEnv env with
    | (_, some err) => InitOutcome.panic ("Failed to init batch client: ".toList ++ err)
    | (c, none) => InitOutcome.done { g with dispatcher := some (NewLLMDispatcher c) }

/-- What Go `initExtension` leaves behind: its Boolean result, the extension
error it has set, and the handles. -/
structure ExtensionInit where
  ok : Bool
  error : Option Str
  globals : Globals
deriving DecidableEq, Repr

/-- Go `initExtension` of `extension.go`; `registerErr` is the result of
`duckdbext.RegisterScalarFunction`. -/
def initExtension (env : ProcessEnv) (registerErr : Option GoError) : ExtensionInit :=
  let mode := env.QUACK_LLM_MODE
  let g : Globals := { dispatcher := none, singleClient := none, fusedDispatcher := none }
  let selected : Globals × Option Str :=
    if mode = "single".toList then
      match NewAnthropicSingleClientFromEnv env with
      | (_, some err) => (g, some ("Failed to init Anthropic single client: ".toList ++ err))
      | (c, none) => ({ g with singleClient := c }, none)
    else if mode = "fused".toList then
      match NewAnthropicSingleClientFromEnv env with
      | (_, some err) =>
          (g, some ("Failed to init Anthropic single client (for fused mode): ".toList ++ err))
      | (c, none) =>
          ({ g with fusedDispatcher := some (NewFusedDispatcher env.fused c.isSome ";".toList) },
           none)
    else
      match NewAnthropicBatchClientFromEnv env with
      | (_, some err) => (g, some ("Failed to init Anthropic batch client: ".toList ++ err))
      | (c, none) => ({ g with dispatcher := some (NewLLMDispatcher c) }, none)
  match selected with
  | (g1, some msg) => { ok := false, error := some msg, globals := g1 }
  | (g1, none) =>
    match registerErr with
    | some err =>
        { ok := false, error := some ("Failed to register ai_llm: ".toList ++ err), globals := g1 }
    | none => { ok := true, error := none, globals := g1 }

/-- A process environment with the API key `k`, the given mode and no other
variable set. -/
def envWithMode (mode : Str) : ProcessEnv :=
  { QUACK_LLM_MODE := mode, ANTHROPIC_API_KEY := "k".toList, fused := noEnv }

/-- The handles of batch mode: the batch dispatcher and nothing else. -/
def batchGlobals : Globals :=
  { dispatcher := some (NewLLMDispatcher (some { maxTokens := 256 }))
    singleClient := none
    fusedDispatcher := none }

/-! ## The retry helper (`llm_api.go`) -/

/-- The value of an integer as an `int64`, with two's-complement wrap-around. -/
def wrap64 (z : Int) : Int := (z + 2 ^ 63) % 2 ^ 64 - 2 ^ 63

/-- Go `x << n` on an `int64` (here a `time.Duration`, in nanoseconds) for a
non-negative shift count. -/
def shl64 (x : Int) (n : Nat) : Int := wrap64 (x * 2 ^ n)

/-- The argument of `time.Sleep` after the failed attempt `attempt`:
`backoff << attempt`, replaced by 500 ms when it is greater. -/
def sleepTime (backoff : Int) (attempt : Nat) : Int :=
  let s := shl64 backoff attempt
  if s > 500 * 1000000 then 500 * 1000000 else s

/-- What a call of `callBundledWithRetry` did: the map and the error it
returned, the number of attempts it made and the arguments of its `time.Sleep`
calls, in order. -/
structure RetryResult where
  res : GoMap Str
  err : Option GoError
  attempts : Nat
  sleeps : List Int
deriving DecidableEq, Repr

/-- The loop `for attempt := 0; attempt <= retries; attempt++` of
`callBundledWithRetry`; `api k` is what `callBundledLLMAPI` returns in attempt
`k`. `none` means the fuel ran out. -/
def retryLoop (api : Nat → GoMap Str × Option GoError) (retries backoff : Int) :
    Nat → Nat → Option GoError → List Int → Option RetryResult
  | 0, _, _, _ => none
  | fuel + 1, attempt, lastErr, sleeps =>
      if (attempt : Int) ≤ retries then
        let (res, err) := api attempt
        if err = none then
          some { res := res, err := none, attempts := attempt + 1, sleeps := sleeps }
        else
          let sleeps :=
            if (attempt : Int) < retries then sleeps ++ [sleepTime backoff attempt] else sleeps
          retryLoop api retries backoff fuel (attempt + 1) err sleeps
      else some { res := [], err := lastErr, attempts := attempt, sleeps := sleeps }

/-- Go `callBundledWithRetry`. The loop condition is evaluated at most
`retries + 2` times. -/
def callBundledWithRetry (api : Nat → GoMap Str × Option GoError) (retries backoff : Int) :
    Option RetryResult :=
  retryLoop api retries backoff ((retries + 1).toNat + 1) 0 none []

/-- What the last loop of `runMultiBatch` makes of the batch of an item, given
the item's line: with the wrong number of parts the mismatch policy (debug on:
the diagnostic in every slot and no error; debug off: the error), else the parts
slotted by index and no error; the batch is completed in both cases. -/
def lineResult (dbg : Bool) (sp : Str) (e : fusedWorkItem × Str) (x : fusedBatch) : fusedBatch :=
  if (splitFused e.2 sp).length ≠ e.1.promptList.length then
    if dbg then
      { x with
        prompts := GoMap.setAllVals x.prompts
          ("got=".toList ++ itoa (splitFused e.2 sp).length ++ " raw=".toList ++ e.2)
        err := none, done := true }
    else
      { x with
        err := some ("mgot ".toList ++ itoa (splitFused e.2 sp).length ++ ", want ".toList ++
          itoa e.1.promptList.length)
        done := true }
  else
    { x with
      prompts := (e.1.promptList.zip (splitFused e.2 sp)).foldl
        (fun m e => GoMap.set m e.1 e.2) x.prompts
      err := none, done := true }

/-- What the last loop of `runMultiBatch` makes of the cache of an item's text,
given the item's line, the item's batch `x` and the cache `c` of the text
before: unchanged with the wrong number of parts, else every prompt of the batch
with a non-empty answer gets that answer. -/
def lineCache (sp : Str) (e : fusedWorkItem × Str) (x : fusedBatch) (c : Str → Option Str)
    (p : Str) : Option Str :=
  if (splitFused e.2 sp).length ≠ e.1.promptList.length then c p
  else
    match GoMap.get ((e.1.promptList.zip (splitFused e.2 sp)).foldl
        (fun m e => GoMap.set m e.1 e.2) x.prompts) p with
    | some a => if a ≠ [] then some a else c p
    | none => c p

/-- Work items as `flushText` makes them, seen on the state `d`: the batches
exist and are pairwise different, the texts are pairwise different, every item
lists each of its prompts once, and no prompt map has a key twice. -/
structure ItemsWf (d : FusedDispatcher) (items : List fusedWorkItem) : Prop where
  ptr_lt : ∀ it ∈ items, it.b < d.heap.length
  ptr_nodup : (items.map (fun it => it.b)).Nodup
  text_nodup : (items.map (fun it => it.text)).Nodup
  prompts_nodup : ∀ it ∈ items, it.promptList.Nodup
  keys_nodup : ∀ it ∈ items, (GoMap.keys (getBatch d.heap it.b).prompts).Nodup

/-- An item has failed between the states `d` and `d2`, by the policy of answer
parsing: its batch is completed, the cache of its text is as before and no
answer was slotted in; with debug off the prompt map is as before and `err` is
set, with debug on every slot holds one and the same non-empty diagnostic and
the error is cleared. -/
def itemFailed (d d2 : FusedDispatcher) (it : fusedWorkItem) : Prop :=
  (getBatch d2.heap it.b).done = true
  ∧ (∀ p, cacheGet d2.cache it.text p = cacheGet d.cache it.text p)
  ∧ (d.debug = false → (getBatch d2.heap it.b).prompts = (getBatch d.heap it.b).prompts
      ∧ (getBatch d2.heap it.b).err ≠ none)
  ∧ (d.debug = true → (getBatch d2.heap it.b).err = none
      ∧ ∃ diag, diag ≠ []
        ∧ (getBatch d2.heap it.b).prompts = GoMap.setAllVals (getBatch d.heap it.b).prompts diag)

/-- What the mismatch block makes of a batch: with debug on the diagnostic in
every slot and no error, with debug off the error; the batch is completed. -/
def mismatchResult (dbg : Bool) (diag : Str) (err : GoError) (x : fusedBatch) : fusedBatch :=
  if dbg then { x with prompts := GoMap.setAllVals x.prompts diag, err := none, done := true }
  else { x with err := some err, done := true }

/-- A fresh fused dispatcher in multi mode, with a client and the production
separator. -/
def multiFresh : FusedDispatcher :=
  NewFusedDispatcher { noEnv with multi := true } true ";".toList

/-- The prompts `p1` and `p2` have been registered for each of the texts `cat`
and `dog` on `multiFresh`, and both texts have been flushed: two work items are
queued for the worker. -/
def twoQueued : FusedDispatcher :=
  (flushTextBegin (flushTextBegin
    (GetResultEnter (GetResultEnter (GetResultEnter (GetResultEnter multiFresh
      "cat".toList "p1".toList).1 "cat".toList "p2".toList).1
      "dog".toList "p1".toList).1 "dog".toList "p2".toList).1
    "cat".toList).1 "dog".toList).1

/-- The work item of the text `cat` in `twoQueued`. -/
def catItem : fusedWorkItem :=
  { text := "cat".toList, promptList := ["p1".toList, "p2".toList],
    fusedPrompt := "p1;p2".toList, b := 0 }

/-- The work item of the text `dog` in `twoQueued`. -/
def dogItem : fusedWorkItem :=
  { text := "dog".toList, promptList := ["p1".toList, "p2".toList],
    fusedPrompt := "p1;p2".toList, b := 1 }

/-- An upstream that replies with the two lines `a;b` and `c;d`. -/
def envLines : Env := constEnv (MessagesOutcome.content ["a;b\nc;d".toList])

/-- The `order` list of a batch names each prompt once, and only prompts that
are keys of the prompt map. -/
def orderOk (x : fusedBatch) : Prop :=
  x.order.Nodup ∧ ∀ p ∈ x.order, (GoMap.get x.prompts p).isSome = true

/-- The second invariant of the fused dispatcher: every batch has a proper
`order` list, and every piece of held or queued work lists each of its prompts
once. -/
structure OrderInv (d : FusedDispatcher) : Prop where
  batches_ok : ∀ b, orderOk (getBatch d.heap b)
  items_ok : ∀ it ∈ d.calling ++ d.workCh, it.promptList.Nodup

/-- An upstream that replies to every call, without error, with the blank text
of a space, a line feed and a space. -/
def envBlank : Env := constEnv (MessagesOutcome.content [" \n ".toList])

/-! ## Lemmas on maps -/

theorem GoMap.get_eq_none_iff {V : Type} (m : GoMap V) (k : Str) :
    GoMap.get m k = none ↔ k ∉ GoMap.keys m := by
  induction m with
  | nil => simp only [GoMap.get, GoMap.keys, List.map_nil, List.not_mem_nil, not_false_eq_true]
  | cons e r ih =>
    obtain ⟨k', v⟩ := e
    by_cases h : k' = k
    · simp only [GoMap.get, GoMap.keys, h, if_true, List.map_cons, List.mem_cons, true_or,
        not_true_eq_false, reduceCtorEq]
    · have h2 : ¬ k = k' := fun e => h e.symm
      simp only [GoMap.get, GoMap.keys, h, if_false, List.map_cons, List.mem_cons, h2, false_or]
      exact ih

theorem GoMap.set_of_get_none {V : Type} (m : GoMap V) (k : Str) (v : V)
    (h : GoMap.get m k = none) : GoMap.set m k v = m ++ [(k, v)] := by
  induction m with
  | nil => rfl
  | cons e r ih =>
    obtain ⟨k', v'⟩ := e
    by_cases hk : k' = k
    · simp [GoMap.get, hk] at h
    · simp only [GoMap.get, hk, if_false] at h
      simp [GoMap.set, hk, ih h]

theorem GoMap.get_set_self {V : Type} (m : GoMap V) (k : Str) (v : V) :
    GoMap.get (GoMap.set m k v) k = some v := by
  induction m with
  | nil => simp [GoMap.set, GoMap.get]
  | cons e r ih =>
    obtain ⟨k', v'⟩ := e
    by_cases hk : k' = k
    · simp [GoMap.set, GoMap.get, hk]
    · simp [GoMap.set, GoMap.get, hk, ih]

theorem GoMap.get_set_ne {V : Type} (m : GoMap V) (k k2 : Str) (v : V) (h : k ≠ k2) :
    GoMap.get (GoMap.set m k v) k2 = GoMap.get m k2 := by
  induction m with
  | nil => simp [GoMap.set, GoMap.get, h]
  | cons e r ih =>
    obtain ⟨k', v'⟩ := e
    by_cases hk : k' = k
    · subst hk
      simp [GoMap.set, GoMap.get, h]
    · by_cases hk2 : k' = k2
      · subst hk2
        simp [GoMap.set, GoMap.get, hk]
      · simp [GoMap.set, GoMap.get, hk, hk2, ih]

theorem GoMap.get_set {V : Type} (m : GoMap V) (k k2 : Str) (v : V) :
    GoMap.get (GoMap.set m k v) k2 = if k = k2 then some v else GoMap.get m k2 := by
  by_cases h : k = k2
  · subst h; simp [GoMap.get_set_self]
  · simp [h, GoMap.get_set_ne m k k2 v h]

theorem GoMap.get_delete_self {V : Type} (m : GoMap V) (k : Str) :
    GoMap.get (GoMap.delete m k) k = none := by
  induction m with
  | nil => rfl
  | cons e r ih =>
    obtain ⟨k', v'⟩ := e
    by_cases hk : k' = k
    · have : GoMap.delete ((k', v') :: r) k = GoMap.delete r k := by
        simp only [GoMap.delete, List.filter, hk, ne_eq, not_true_eq_false, decide_False]
      rw [this, ih]
    · have : GoMap.delete ((k', v') :: r) k = (k', v') :: GoMap.delete r k := by
        simp only [GoMap.delete, List.filter, hk, ne_eq, not_false_eq_true, decide_True]
      rw [this]
      simp only [GoMap.get, hk, if_false]
      exact ih

theorem GoMap.get_delete_ne {V : Type} (m : GoMap V) (k k2 : Str) (h : k ≠ k2) :
    GoMap.get (GoMap.delete m k) k2 = GoMap.get m k2 := by
  induction m with
  | nil => simp [GoMap.delete, GoMap.get]
  | cons e r ih =>
    obtain ⟨k', v'⟩ := e
    by_cases hk : k' = k
    · subst hk
      have : GoMap.delete ((k', v') :: r) k' = GoMap.delete r k' := by
        simp [GoMap.delete, List.filter]
      rw [this, ih]
      simp [GoMap.get, h]
    · have : GoMap.delete ((k', v') :: r) k = (k', v') :: GoMap.delete r k := by
        simp [GoMap.delete, List.filter, hk]
      rw [this]
      by_cases hk2 : k' = k2
      · simp [GoMap.get, hk2]
      · simp [GoMap.get, hk2, ih]

theorem GoMap.get_setAllVals {V : Type} (m : GoMap V) (v : V) (k : Str) :
    GoMap.get (GoMap.setAllVals m v) k = (GoMap.get m k).map (fun _ => v) := by
  induction m with
  | nil => simp [GoMap.setAllVals, GoMap.get]
  | cons e r ih =>
    obtain ⟨k', v'⟩ := e
    by_cases hk : k' = k
    · simp [GoMap.setAllVals, GoMap.get, hk]
    · have ih2 : GoMap.get (List.map (fun e => (e.1, v)) r) k
          = Option.map (fun _ => v) (GoMap.get r k) := ih
      simp [GoMap.setAllVals, GoMap.get, hk, ih2]

theorem GoMap.mem_of_get_eq_some {V : Type} (m : GoMap V) (k : Str) (v : V)
    (h : GoMap.get m k = some v) : (k, v) ∈ m := by
  induction m with
  | nil => simp [GoMap.get] at h
  | cons e r ih =>
    obtain ⟨k', v'⟩ := e
    by_cases hk : k' = k
    · simp [GoMap.get, hk] at h
      simp [hk, h]
    · simp only [GoMap.get, hk, if_false] at h
      exact List.mem_cons_of_mem _ (ih h)

/-! ## Fingerprints -/

theorem hexDigit_ne_r (n : Nat) : hexDigit n ≠ 'r' := by
  unfold hexDigit hextable
  by_cases h : n < 16
  · interval_cases n <;> decide
  · have : 16 ≤ n := Nat.le_of_not_lt h
    rw [List.getD_eq_default _ _ (by simpa using this)]
    decide

theorem hexEncodeToString_head (bs : List Nat) : (hexEncodeToString bs).head? ≠ some 'r' := by
  cases bs with
  | nil => simp [hexEncodeToString]
  | cons b r =>
    simp only [hexEncodeToString, List.flatMap_cons, List.cons_append, List.head?_cons]
    intro h
    exact hexDigit_ne_r _ (Option.some.inj h)

theorem makeCustomID_ne_customID (sha1Sum : Str → List Nat) (row : Int)
    (text prompt text2 prompt2 : Str) :
    makeCustomID sha1Sum row text prompt ≠ customID sha1Sum text2 prompt2 := by
  intro h
  have h1 : (makeCustomID sha1Sum row text prompt).head? = some 'r' := by
    simp [makeCustomID]
  rw [h] at h1
  exact hexEncodeToString_head _ h1

/-! ## Batch mode: the answer map and the row lookup use different keys -/

/-- C1 (the code at the failing input). For every digest function: the chunk
with the single eligible row `("cat","plural")` is submitted, the upstream batch
answers the sub-request that `flush` built from it with `"cats"`, `Submit`
returns that answer without error under the key `makeCustomID 0 "cat" "plural"`,
and both front-ends look up `customID "cat" "plural"`, find nothing and mark
the row invalid. -/
theorem batch_answer_never_reaches_row (sha1Sum : Str → List Nat) :
    (Submit sha1Sum (echoRemote (fun _ => "cats".toList)) (NewLLMDispatcher (some ⟨256⟩))
        (batchJobs sha1Sum [okRow "cat" "plural"])).1
      = ([(makeCustomID sha1Sum 0 "cat".toList "plural".toList, "cats".toList)], none)
    ∧ (aiLLMBatch sha1Sum
        (batchHandles sha1Sum (echoRemote (fun _ => "cats".toList)) (some ⟨256⟩))
        [okRow "cat" "plural"]).outValid = [false]
    ∧ (aiLLMBatch sha1Sum
        (batchHandles sha1Sum (echoRemote (fun _ => "cats".toList)) (some ⟨256⟩))
        [okRow "cat" "plural"]).out = [[]]
    ∧ (aiLLM sha1Sum
        (batchHandles sha1Sum (echoRemote (fun _ => "cats".toList)) (some ⟨256⟩))
        [okRow "cat" "plural"]).outValid = [false] := by
  have hne := makeCustomID_ne_customID sha1Sum 0 "cat".toList "plural".toList
    "cat".toList "plural".toList
  have hjobs : batchJobs sha1Sum [okRow "cat" "plural"]
      = [{ row := 0, text := "cat".toList, prompt := "plural".toList }] := by
    simp [batchJobs, jobsOf, scanRows, scanStep, okRow, GoMap.get, GoMap.set, List.enum,
      List.enumFrom]
  have hsub : (Submit sha1Sum (echoRemote (fun _ => "cats".toList)) (NewLLMDispatcher (some ⟨256⟩))
        [{ row := 0, text := "cat".toList, prompt := "plural".toList }]).1
      = ([(makeCustomID sha1Sum 0 "cat".toList "plural".toList, "cats".toList)], none) := by
    simp [Submit, SubmitEnqueue, NewLLMDispatcher, flush, flushLoop, wakeAll, buildReqs,
      RunMessageBatch, echoRemote, concatBlocks, GoMap.set, buildAnthropicInnerRequest]
  have hs := hsub
  simp only [String.toList] at hs hne
  have hget : getStr [(makeCustomID sha1Sum 0 ['c', 'a', 't'] ['p', 'l', 'u', 'r', 'a', 'l'],
      ['c', 'a', 't', 's'])] (customID sha1Sum ['c', 'a', 't'] ['p', 'l', 'u', 'r', 'a', 'l'])
      = [] := by
    simp [getStr, GoMap.get, hne]
  have hget2 : GoMap.get [(makeCustomID sha1Sum 0 ['c', 'a', 't'] ['p', 'l', 'u', 'r', 'a', 'l'],
      ['c', 'a', 't', 's'])] (customID sha1Sum ['c', 'a', 't'] ['p', 'l', 'u', 'r', 'a', 'l'])
      = none := by
    simp [GoMap.get, hne]
  refine ⟨by rw [hjobs, hsub], ?_, ?_, ?_⟩
  · simp [aiLLMBatch, batchHandles, scanRows, scanStep, okRow, GoMap.get, GoMap.set, List.enum,
      List.enumFrom, jobsOf, hs, hget]
  · simp [aiLLMBatch, batchHandles, scanRows, scanStep, okRow, GoMap.get, GoMap.set, List.enum,
      List.enumFrom, jobsOf, hs, hget]
  · simp [aiLLM, batchHandles, scanRows, scanStep, okRow, GoMap.get, GoMap.set, List.enum,
      List.enumFrom, jobsOf, hs, hget2, buildAnthropicInnerRequest, hne]

/-! ## Batch mode: the scan and the job list -/

theorem scanStep_ineligible (sha1Sum : Str → List Nat) (s : Scan) (ir : Nat × Row)
    (h : eligible ir.2 = false) :
    scanStep sha1Sum s ir = { s with outValid := s.outValid.set ir.1 false } := by
  have h2 : (!ir.2.textValid || !ir.2.promptValid) = true := by
    simp only [eligible] at h
    cases h1 : ir.2.textValid <;> cases h3 : ir.2.promptValid <;> simp_all
  simp only [scanStep, h2, if_true]

theorem scanStep_eligible (sha1Sum : Str → List Nat) (s : Scan) (ir : Nat × Row)
    (h : eligible ir.2 = true) :
    scanStep sha1Sum s ir =
      { s with
        refs := s.refs ++ [{ i := ir.1, cid := rowCid sha1Sum ir.2 }]
        uniq := if (GoMap.get s.uniq (rowCid sha1Sum ir.2)).isSome then s.uniq
                else GoMap.set s.uniq (rowCid sha1Sum ir.2)
                  { text := ir.2.text, prompt := ir.2.prompt } } := by
  have h2 : (!ir.2.textValid || !ir.2.promptValid) = false := by
    simp only [eligible] at h
    cases h1 : ir.2.textValid <;> cases h3 : ir.2.promptValid <;> simp_all
  simp only [scanStep, h2, rowCid]
  rfl

theorem scanStep_uniq (sha1Sum : Str → List Nat) (s : Scan) (ir : Nat × Row) :
    (scanStep sha1Sum s ir).uniq =
      if eligible ir.2 = true ∧ GoMap.get s.uniq (rowCid sha1Sum ir.2) = none
      then s.uniq ++ [(rowCid sha1Sum ir.2, { text := ir.2.text, prompt := ir.2.prompt })]
      else s.uniq := by
  cases h : eligible ir.2
  · rw [scanStep_ineligible _ _ _ h]; simp
  · rw [scanStep_eligible _ _ _ h]
    cases hg : GoMap.get s.uniq (rowCid sha1Sum ir.2)
    · simp [GoMap.set_of_get_none _ _ _ hg]
    · simp

/-- The invariant of the batch-mode scan: the keys of `uniq` stay distinct, every
entry is either old or was written by the first eligible row with its
fingerprint, and the keys are the old keys plus the eligible fingerprints. -/
theorem scan_uniq_inv (sha1Sum : Str → List Nat) (l : List (Nat × Row)) :
    ∀ s : Scan, (GoMap.keys s.uniq).Nodup →
      (GoMap.keys (l.foldl (scanStep sha1Sum) s).uniq).Nodup ∧
      (∀ k v, (k, v) ∈ (l.foldl (scanStep sha1Sum) s).uniq →
        (k, v) ∈ s.uniq ∨
        (k ∉ GoMap.keys s.uniq ∧ ∃ l1 ir l2, l = l1 ++ ir :: l2 ∧ eligible ir.2 = true ∧
          rowCid sha1Sum ir.2 = k ∧ v = { text := ir.2.text, prompt := ir.2.prompt } ∧
          ∀ ir2 ∈ l1, eligible ir2.2 = true → rowCid sha1Sum ir2.2 ≠ k)) ∧
      (∀ k, k ∈ GoMap.keys (l.foldl (scanStep sha1Sum) s).uniq ↔
        (k ∈ GoMap.keys s.uniq ∨ ∃ ir ∈ l, eligible ir.2 = true ∧ rowCid sha1Sum ir.2 = k)) := by
  induction l with
  | nil =>
    intro s hs
    refine ⟨hs, fun k v h => Or.inl h, fun k => ?_⟩
    simp
  | cons ir l ih =>
    intro s hs
    simp only [List.foldl_cons]
    by_cases hc : eligible ir.2 = true ∧ GoMap.get s.uniq (rowCid sha1Sum ir.2) = none
    · have hu : (scanStep sha1Sum s ir).uniq
          = s.uniq ++ [(rowCid sha1Sum ir.2, { text := ir.2.text, prompt := ir.2.prompt })] := by
        rw [scanStep_uniq, if_pos hc]
      have hnot : rowCid sha1Sum ir.2 ∉ GoMap.keys s.uniq :=
        (GoMap.get_eq_none_iff _ _).1 hc.2
      have hkeys : GoMap.keys (scanStep sha1Sum s ir).uniq
          = GoMap.keys s.uniq ++ [rowCid sha1Sum ir.2] := by
        rw [hu]; simp only [GoMap.keys, List.map_append, List.map_cons, List.map_nil]
      have hs1 : (GoMap.keys (scanStep sha1Sum s ir).uniq).Nodup := by
        rw [hkeys]
        refine List.Nodup.append hs (List.nodup_singleton _) ?_
        intro a ha hb
        rw [List.mem_singleton] at hb
        exact hnot (hb ▸ ha)
      obtain ⟨i1, i2, i3⟩ := ih (scanStep sha1Sum s ir) hs1
      refine ⟨i1, ?_, ?_⟩
      · intro k v hkv
        rcases i2 k v hkv with h | ⟨hk, l1, ir2, l2, hl, he, hcid, hv, hfirst⟩
        · rw [hu, List.mem_append, List.mem_singleton] at h
          rcases h with h | h
          · exact Or.inl h
          · right
            have hk : k = rowCid sha1Sum ir.2 := (Prod.mk.inj h).1
            have hv : v = { text := ir.2.text, prompt := ir.2.prompt } := (Prod.mk.inj h).2
            refine ⟨hk ▸ hnot, [], ir, l, rfl, hc.1, hk.symm, hv, ?_⟩
            intro ir2 h2
            exact absurd h2 (List.not_mem_nil _)
        · right
          rw [hkeys, List.mem_append, List.mem_singleton, not_or] at hk
          refine ⟨hk.1, ir :: l1, ir2, l2, by rw [hl]; rfl, he, hcid, hv, ?_⟩
          intro ir3 h3 he3
          rcases List.mem_cons.1 h3 with h3 | h3
          · subst h3
            exact fun e => hk.2 e.symm
          · exact hfirst ir3 h3 he3
      · intro k
        rw [i3 k, hkeys, List.mem_append, List.mem_singleton]
        constructor
        · rintro ((h | h) | ⟨ir2, h2, he, hcid⟩)
          · exact Or.inl h
          · exact Or.inr ⟨ir, List.mem_cons_self _ _, hc.1, h.symm⟩
          · exact Or.inr ⟨ir2, List.mem_cons_of_mem _ h2, he, hcid⟩
        · rintro (h | ⟨ir2, h2, he, hcid⟩)
          · exact Or.inl (Or.inl h)
          · rcases List.mem_cons.1 h2 with h2 | h2
            · subst h2
              exact Or.inl (Or.inr hcid.symm)
            · exact Or.inr ⟨ir2, h2, he, hcid⟩
    · have hu : (scanStep sha1Sum s ir).uniq = s.uniq := by
        rw [scanStep_uniq, if_neg hc]
      have hs1 : (GoMap.keys (scanStep sha1Sum s ir).uniq).Nodup := by rw [hu]; exact hs
      obtain ⟨i1, i2, i3⟩ := ih (scanStep sha1Sum s ir) hs1
      rw [hu] at i2 i3
      refine ⟨i1, ?_, ?_⟩
      · intro k v hkv
        rcases i2 k v hkv with h | ⟨hk, l1, ir2, l2, hl, he, hcid, hv, hfirst⟩
        · exact Or.inl h
        · right
          refine ⟨hk, ir :: l1, ir2, l2, by rw [hl]; rfl, he, hcid, hv, ?_⟩
          intro ir3 h3 he3
          rcases List.mem_cons.1 h3 with h3 | h3
          · subst h3
            intro e
            have hg : GoMap.get s.uniq (rowCid sha1Sum ir3.2) ≠ none := fun hn => hc ⟨he3, hn⟩
            rw [Ne, GoMap.get_eq_none_iff, not_not, e] at hg
            exact hk hg
          · exact hfirst ir3 h3 he3
      · intro k
        rw [i3 k]
        constructor
        · rintro (h | ⟨ir2, h2, he, hcid⟩)
          · exact Or.inl h
          · exact Or.inr ⟨ir2, List.mem_cons_of_mem _ h2, he, hcid⟩
        · rintro (h | ⟨ir2, h2, he, hcid⟩)
          · exact Or.inl h
          · rcases List.mem_cons.1 h2 with h2 | h2
            · subst h2
              have hg : GoMap.get s.uniq (rowCid sha1Sum ir2.2) ≠ none := fun hn => hc ⟨he, hn⟩
              rw [Ne, GoMap.get_eq_none_iff, not_not, hcid] at hg
              exact Or.inl hg
            · exact Or.inr ⟨ir2, h2, he, hcid⟩

theorem scan_refs (sha1Sum : Str → List Nat) (l : List (Nat × Row)) :
    ∀ s : Scan, (l.foldl (scanStep sha1Sum) s).refs =
      s.refs ++ (l.filter (fun ir => eligible ir.2)).map
        (fun ir => { i := ir.1, cid := rowCid sha1Sum ir.2 }) := by
  induction l with
  | nil => intro s; simp
  | cons ir l ih =>
    intro s
    simp only [List.foldl_cons]
    rw [ih]
    cases h : eligible ir.2
    · rw [scanStep_ineligible _ _ _ h]
      simp [List.filter, h]
    · rw [scanStep_eligible _ _ _ h]
      simp [List.filter, h]

theorem foldl_calls_eq {α : Type} (f : Output → α → Output)
    (hf : ∀ o a, (f o a).calls = o.calls) (l : List α) :
    ∀ o, (l.foldl f o).calls = o.calls := by
  induction l with
  | nil => intro o; rfl
  | cons a l ih => intro o; simp only [List.foldl_cons]; rw [ih, hf]

theorem batchJobs_entry (sha1Sum : Str → List Nat) (rows : List Row) (k : Str) (v : tp)
    (h : (k, v) ∈ (scanRows sha1Sum rows (List.replicate rows.length false)).uniq) :
    ∃ pre r post, rows = pre ++ r :: post ∧ eligible r = true ∧ rowCid sha1Sum r = k ∧
      v = { text := r.text, prompt := r.prompt } ∧
      ∀ r2 ∈ pre, eligible r2 = true → rowCid sha1Sum r2 ≠ k := by
  have hinv := scan_uniq_inv sha1Sum rows.enum
    { outValid := List.replicate rows.length false, refs := [], uniq := [] } List.nodup_nil
  rcases hinv.2.1 k v h with h0 | ⟨_, l1, ir, l2, hl, he, hcid, hv, hfirst⟩
  · exact absurd h0 (List.not_mem_nil _)
  · refine ⟨l1.map Prod.snd, ir.2, l2.map Prod.snd, ?_, he, hcid, hv, ?_⟩
    · have := congrArg (List.map Prod.snd) hl
      rw [List.enum_map_snd] at this
      rw [this]; simp
    · intro r2 h2 he2
      obtain ⟨ir2, hm, rfl⟩ := List.mem_map.1 h2
      exact hfirst ir2 hm he2

theorem batchJobs_cids (sha1Sum : Str → List Nat) (rows : List Row) :
    (batchJobs sha1Sum rows).map (fun j => customID sha1Sum j.text j.prompt)
      = GoMap.keys (scanRows sha1Sum rows (List.replicate rows.length false)).uniq := by
  simp only [batchJobs, jobsOf, GoMap.keys, List.map_map]
  apply List.map_congr_left
  intro e he
  obtain ⟨pre, r, post, _, _, hcid, hv, _⟩ := batchJobs_entry sha1Sum rows e.1 e.2 he
  simp only [Function.comp, hv]
  exact hcid

theorem aiLLMBatch_batch_calls (sha1Sum : Str → List Nat)
    (submit : List llmJob → GoMap Str × Option GoError) (rows : List Row) :
    (aiLLMBatch sha1Sum { fusedDispatcher := none, singleClient := none, dispatcher := some submit }
        rows).calls
      = if rows.filter eligible = [] then [] else [Call.submit (batchJobs sha1Sum rows)] := by
  have hrefs := scan_refs sha1Sum rows.enum
    { outValid := List.replicate rows.length false, refs := [], uniq := [] }
  have hlen : (scanRows sha1Sum rows (List.replicate rows.length false)).refs.length
      = (rows.filter eligible).length := by
    unfold scanRows
    rw [hrefs]
    simp only [List.nil_append, List.length_map]
    have : (rows.enum.filter (fun ir => eligible ir.2)).map Prod.snd = rows.filter eligible := by
      have h1 : (fun ir : Nat × Row => eligible ir.2) = eligible ∘ Prod.snd := rfl
      rw [h1, ← List.filter_map, List.enum_map_snd]
    rw [← this, List.length_map]
  simp only [aiLLMBatch, Option.isNone_none, Option.isNone_some, and_false, if_false,
    Bool.false_eq_true]
  by_cases h0 : rows.filter eligible = []
  · rw [if_pos h0, if_pos (by rw [hlen, h0]; rfl)]
  · rw [if_neg h0, if_neg (by rw [hlen]; exact fun h => h0 (List.length_eq_zero.1 h))]
    split
    · rw [foldl_calls_eq]
      · rfl
      · intro o a; rfl
    · rw [foldl_calls_eq]
      · rfl
      · intro o a
        dsimp only
        split <;> rfl

theorem scan_refs_length (sha1Sum : Str → List Nat) (rows : List Row) (ov : List Bool) :
    (scanRows sha1Sum rows ov).refs.length = (rows.filter eligible).length := by
  have hrefs := scan_refs sha1Sum rows.enum { outValid := ov, refs := [], uniq := [] }
  unfold scanRows
  rw [hrefs]
  simp only [List.nil_append, List.length_map]
  have : (rows.enum.filter (fun ir => eligible ir.2)).map Prod.snd = rows.filter eligible := by
    have h1 : (fun ir : Nat × Row => eligible ir.2) = eligible ∘ Prod.snd := rfl
    rw [h1, ← List.filter_map, List.enum_map_snd]
  rw [← this, List.length_map]

theorem scan_uniq_indep (sha1Sum : Str → List Nat) (l : List (Nat × Row)) :
    ∀ s t : Scan, s.uniq = t.uniq →
      (l.foldl (scanStep sha1Sum) s).uniq = (l.foldl (scanStep sha1Sum) t).uniq := by
  induction l with
  | nil => intro s t h; exact h
  | cons ir l ih =>
    intro s t h
    simp only [List.foldl_cons]
    apply ih
    rw [scanStep_uniq, scanStep_uniq, h]

theorem aiLLM_batch_calls (sha1Sum : Str → List Nat)
    (submit : List llmJob → GoMap Str × Option GoError) (rows : List Row) :
    (aiLLM sha1Sum { fusedDispatcher := none, singleClient := none, dispatcher := some submit }
        rows).calls
      = if rows.filter eligible = [] then [] else [Call.submit (batchJobs sha1Sum rows)] := by
  have hlen := scan_refs_length sha1Sum rows (List.replicate rows.length true)
  have huniq : (scanRows sha1Sum rows (List.replicate rows.length true)).uniq
      = (scanRows sha1Sum rows (List.replicate rows.length false)).uniq :=
    scan_uniq_indep sha1Sum rows.enum _ _ rfl
  simp only [aiLLM, Option.isNone_none, Option.isNone_some, and_false, if_false,
    Bool.false_eq_true]
  by_cases hn : rows.length = 0
  · have : rows = [] := List.length_eq_zero.1 hn
    subst this
    rfl
  rw [if_neg hn]
  by_cases h0 : rows.filter eligible = []
  · rw [if_pos h0, if_pos (by rw [hlen, h0]; rfl)]
  · rw [if_neg h0, if_neg (by rw [hlen]; exact fun h => h0 (List.length_eq_zero.1 h))]
    unfold batchJobs
    rw [← huniq]
    split
    · rw [foldl_calls_eq]
      · intro o a; rfl
    · rw [foldl_calls_eq]
      · intro o a
        dsimp only
        split
        · rfl
        · split <;> rfl

/-- C2. Batch-mode deduplication. For every digest function and every chunk, the
job list `batchJobs` is the list that `aiLLMBatch` and `aiLLM` pass to `Submit`
(their only dispatcher call, made iff some row is eligible); the fingerprints of
its jobs are pairwise distinct and are exactly the fingerprints of the eligible
rows, so its length is the number of distinct fingerprints; every job carries
the text and prompt of the first eligible row with its fingerprint; and for the
chunk `("cat","plural")`, `("cat","plural")`, `("dog","plural")`, whose two
distinct pairs have distinct fingerprints, exactly two jobs are submitted. -/
theorem batchJobs_dedup (sha1Sum : Str → List Nat) (rows : List Row) :
    (∀ submit,
      (aiLLMBatch sha1Sum
          { fusedDispatcher := none, singleClient := none, dispatcher := some submit } rows).calls
        = (if rows.filter eligible = [] then [] else [Call.submit (batchJobs sha1Sum rows)])
      ∧ (aiLLM sha1Sum
          { fusedDispatcher := none, singleClient := none, dispatcher := some submit } rows).calls
        = (if rows.filter eligible = [] then [] else [Call.submit (batchJobs sha1Sum rows)]))
    ∧ ((batchJobs sha1Sum rows).map (fun j => customID sha1Sum j.text j.prompt)).Nodup
    ∧ (∀ fp, fp ∈ (batchJobs sha1Sum rows).map (fun j => customID sha1Sum j.text j.prompt)
        ↔ ∃ r ∈ rows, eligible r = true ∧ customID sha1Sum r.text r.prompt = fp)
    ∧ (batchJobs sha1Sum rows).length
        = (((rows.filter eligible).map (fun r => customID sha1Sum r.text r.prompt)).dedup).length
    ∧ (∀ j ∈ batchJobs sha1Sum rows, ∃ pre r post, rows = pre ++ r :: post ∧
        eligible r = true ∧ j.text = r.text ∧ j.prompt = r.prompt ∧
        ∀ r2 ∈ pre, eligible r2 = true →
          customID sha1Sum r2.text r2.prompt ≠ customID sha1Sum r.text r.prompt)
    ∧ (customID sha1Sum "cat".toList "plural".toList ≠ customID sha1Sum "dog".toList "plural".toList
        → (batchJobs sha1Sum dedupChunk).length = 2) := by
  have hinv := scan_uniq_inv sha1Sum rows.enum
    { outValid := List.replicate rows.length false, refs := [], uniq := [] } List.nodup_nil
  have hnodup : ((batchJobs sha1Sum rows).map (fun j => customID sha1Sum j.text j.prompt)).Nodup := by
    rw [batchJobs_cids]; exact hinv.1
  have hmem : ∀ fp, fp ∈ (batchJobs sha1Sum rows).map (fun j => customID sha1Sum j.text j.prompt)
        ↔ ∃ r ∈ rows, eligible r = true ∧ customID sha1Sum r.text r.prompt = fp := by
    intro fp
    rw [batchJobs_cids]
    unfold scanRows
    rw [hinv.2.2 fp]
    constructor
    · rintro (h | ⟨ir, hir, he, hcid⟩)
      · exact absurd h (List.not_mem_nil _)
      · refine ⟨ir.2, ?_, he, hcid⟩
        have := List.mem_map_of_mem Prod.snd hir
        rwa [List.enum_map_snd] at this
    · rintro ⟨r, hr, he, hcid⟩
      right
      rw [← List.enum_map_snd rows] at hr
      obtain ⟨ir, hir, rfl⟩ := List.mem_map.1 hr
      exact ⟨ir, hir, he, hcid⟩
  refine ⟨fun submit => ⟨aiLLMBatch_batch_calls _ _ _, aiLLM_batch_calls _ _ _⟩, hnodup, hmem,
    ?_, ?_, ?_⟩
  · rw [← List.length_map (batchJobs sha1Sum rows) (fun j => customID sha1Sum j.text j.prompt)]
    apply List.Perm.length_eq
    rw [List.perm_ext_iff_of_nodup hnodup (List.nodup_dedup _)]
    intro fp
    rw [hmem fp, List.mem_dedup, List.mem_map]
    constructor
    · rintro ⟨r, hr, he, hcid⟩
      exact ⟨r, List.mem_filter.2 ⟨hr, he⟩, hcid⟩
    · rintro ⟨r, hr, hcid⟩
      exact ⟨r, (List.mem_filter.1 hr).1, (List.mem_filter.1 hr).2, hcid⟩
  · intro j hj
    simp only [batchJobs, jobsOf, List.mem_map] at hj
    obtain ⟨e, he, rfl⟩ := hj
    obtain ⟨pre, r, post, hrows, hel, hcid, hv, hfirst⟩ :=
      batchJobs_entry sha1Sum rows e.1 e.2 he
    refine ⟨pre, r, post, hrows, hel, by rw [hv], by rw [hv], ?_⟩
    intro r2 h2 he2
    have := hfirst r2 h2 he2
    rw [← hcid] at this
    exact this
  · intro hne
    have hne2 : ¬ rowCid sha1Sum (okRow "dog" "plural") = rowCid sha1Sum (okRow "cat" "plural") :=
      fun e => hne e.symm
    simp [batchJobs, jobsOf, scanRows, dedupChunk, List.enum, List.enumFrom, scanStep_uniq,
      eligible, okRow, GoMap.get, rowCid] at hne2 ⊢
    rw [if_neg (fun e => hne2 e.symm)]
    rfl

/-- C2, at work: with the toy digest the dedup chunk yields two jobs. -/
theorem batchJobs_dedup_witness : (batchJobs toySum dedupChunk).length = 2 :=
  (batchJobs_dedup toySum dedupChunk).2.2.2.2.2 (by decide)

/-! ## The front-end loops in closed form -/

/-- A loop that applies one row action per row to fresh output slices writes,
row by row, the string and the flag of that row's action. -/
theorem actLoop_closed (act : Nat × Row → RowAct) (rows : List Row) :
    ∀ N, rows.length ≤ N →
      rows.enum.foldl (fun s ir => applyAct s ir.1 (act ir))
          (List.replicate N ([] : Str), List.replicate N false)
        = (rows.enum.map (fun ir => actOut (act ir)) ++ List.replicate (N - rows.length) [],
           rows.enum.map (fun ir => actValid (act ir)) ++ List.replicate (N - rows.length) false) := by
  induction rows using List.reverseRecOn with
  | nil => intro N _; simp
  | append_singleton pre r ih =>
    intro N hN
    rw [List.length_append, List.length_singleton] at hN
    obtain ⟨m, hm⟩ : ∃ m, N - pre.length = m + 1 := ⟨N - pre.length - 1, by omega⟩
    have hm2 : N - (pre ++ [r]).length = m := by
      rw [List.length_append, List.length_singleton]; omega
    rw [List.enum_append, List.foldl_append, ih N (by omega), hm, hm2]
    simp only [List.enumFrom_singleton, List.foldl_cons, List.foldl_nil, List.map_append,
      List.map_cons, List.map_nil, List.replicate_succ, List.append_assoc, List.singleton_append]
    have hl1 : (pre.enum.map (fun ir => actOut (act ir))).length = pre.length := by
      rw [List.length_map, List.enum_length]
    have hl2 : (pre.enum.map (fun ir => actValid (act ir))).length = pre.length := by
      rw [List.length_map, List.enum_length]
    cases hact : act (pre.length, r) with
    | skip => rfl
    | invalid =>
      simp only [applyAct, List.set_append, hl2, lt_self_iff_false, if_false,
        Nat.sub_self, List.set_cons_zero]
      rfl
    | answer a =>
      simp only [applyAct, List.set_append, hl1, hl2, lt_self_iff_false,
        if_false, Nat.sub_self, List.set_cons_zero]
      rfl

theorem not_eligible_iff (r : Row) :
    (!r.textValid || !r.promptValid) = !eligible r := by
  cases h1 : r.textValid <;> cases h2 : r.promptValid <;> simp [eligible, h1, h2]

/-- The producer loop with its workers, as a loop of row actions, and the calls
it makes: one per eligible row, in row order. -/
theorem poolLoop_state (respond : Nat → Str → Str → Str × Option GoError)
    (mk : Nat → Str → Str → Call) (l : List (Nat × Row)) :
    ∀ o : Output,
      ((poolLoop respond mk l o).out, (poolLoop respond mk l o).outValid)
        = l.foldl (fun s ir => applyAct s ir.1
            (if eligible ir.2 = true then
              if (respond ir.1 ir.2.text ir.2.prompt).2 ≠ none ∨
                  (respond ir.1 ir.2.text ir.2.prompt).1 = [] then RowAct.invalid
              else RowAct.answer (respond ir.1 ir.2.text ir.2.prompt).1
             else RowAct.invalid)) (o.out, o.outValid)
      ∧ (poolLoop respond mk l o).calls
        = o.calls ++ (l.filter (fun ir => eligible ir.2)).map
            (fun ir => mk ir.1 ir.2.text ir.2.prompt) := by
  induction l with
  | nil => intro o; simp [poolLoop]
  | cons ir l ih =>
    intro o
    have hstep : poolLoop respond mk (ir :: l) o
        = poolLoop respond mk l
            (if !ir.2.textValid || !ir.2.promptValid then
              { o with outValid := o.outValid.set ir.1 false }
             else workerStep respond mk o ir.1 ir.2.text ir.2.prompt) := rfl
    rw [hstep, not_eligible_iff]
    cases he : eligible ir.2
    · obtain ⟨h1, h2⟩ := ih { o with outValid := o.outValid.set ir.1 false }
      simp only [Bool.not_false, if_true, List.foldl_cons, Bool.false_eq_true, if_false, he]
      refine ⟨h1, ?_⟩
      rw [h2]
      simp [List.filter, he]
    · obtain ⟨h1, h2⟩ := ih (workerStep respond mk o ir.1 ir.2.text ir.2.prompt)
      simp only [Bool.not_true, Bool.false_eq_true, if_false, List.foldl_cons, if_true, he]
      rw [h1, h2]
      constructor
      · congr 1
        unfold workerStep
        by_cases hc : (respond ir.1 ir.2.text ir.2.prompt).2 ≠ none ∨
            (respond ir.1 ir.2.text ir.2.prompt).1 = []
        · simp only [hc, if_true, applyAct]
        · simp only [hc, if_false, applyAct]
      · have : (workerStep respond mk o ir.1 ir.2.text ir.2.prompt).calls
            = o.calls ++ [mk ir.1 ir.2.text ir.2.prompt] := by
          unfold workerStep
          dsimp only
          split <;> rfl
        rw [this]
        simp [List.filter, he]

theorem set_replicate_self {α : Type} (N i : Nat) (a : α) :
    (List.replicate N a).set i a = List.replicate N a := by
  apply List.ext_getElem?
  intro j
  rw [List.getElem?_set]
  by_cases h : i = j
  · subst h
    simp [List.getElem?_replicate]
  · simp [h]

theorem scan_outValid_false (sha1Sum : Str → List Nat) (N : Nat) (l : List (Nat × Row)) :
    ∀ s : Scan, s.outValid = List.replicate N false →
      (l.foldl (scanStep sha1Sum) s).outValid = List.replicate N false := by
  induction l with
  | nil => intro s h; exact h
  | cons ir l ih =>
    intro s h
    simp only [List.foldl_cons]
    apply ih
    cases he : eligible ir.2
    · rw [scanStep_ineligible _ _ _ he]
      simp only [h, set_replicate_self]
    · rw [scanStep_eligible _ _ _ he]
      exact h

theorem foldl_filter_map {α β γ : Type} (p : α → Bool) (g : α → β) (f : γ → β → γ)
    (l : List α) :
    ∀ c : γ, ((l.filter p).map g).foldl f c = l.foldl (fun c a => if p a = true then f c (g a) else c) c := by
  induction l with
  | nil => intro c; rfl
  | cons a l ih =>
    intro c
    cases h : p a
    · simp only [List.filter, h, List.foldl_cons, Bool.false_eq_true, if_false]
      exact ih c
    · simp only [List.filter, h, List.map_cons, List.foldl_cons, if_true]
      exact ih _

theorem foldl_output_state {α : Type} (f : Output → α → Output)
    (g : List Str × List Bool → α → List Str × List Bool)
    (hf : ∀ o a, ((f o a).out, (f o a).outValid) = g (o.out, o.outValid) a) (l : List α) :
    ∀ o, ((l.foldl f o).out, (l.foldl f o).outValid) = l.foldl g (o.out, o.outValid) := by
  induction l with
  | nil => intro o; rfl
  | cons a l ih =>
    intro o
    simp only [List.foldl_cons]
    rw [ih, hf]

/-- The batch-mode branch of `aiLLMBatch` as a loop of row actions. -/
theorem aiLLMBatch_batch_state (sha1Sum : Str → List Nat)
    (h : Handles) (hf : h.fusedDispatcher = none) (hs : h.singleClient = none)
    (submit : List llmJob → GoMap Str × Option GoError) (hd : h.dispatcher = some submit)
    (rows : List Row) :
    ((aiLLMBatch sha1Sum h rows).out, (aiLLMBatch sha1Sum h rows).outValid)
      = rows.enum.foldl (fun s ir => applyAct s ir.1
          (if eligible ir.2 = true then
            if (submit (batchJobs sha1Sum rows)).2 ≠ none then RowAct.invalid
            else if getStr (submit (batchJobs sha1Sum rows)).1 (rowCid sha1Sum ir.2) = []
              then RowAct.invalid
            else RowAct.answer (getStr (submit (batchJobs sha1Sum rows)).1 (rowCid sha1Sum ir.2))
           else RowAct.skip))
          (List.replicate rows.length ([] : Str), List.replicate rows.length false) := by
  have hov : (scanRows sha1Sum rows (List.replicate rows.length false)).outValid
      = List.replicate rows.length false :=
    scan_outValid_false sha1Sum rows.length rows.enum _ rfl
  have hrefs : (scanRows sha1Sum rows (List.replicate rows.length false)).refs
      = (rows.enum.filter (fun ir => eligible ir.2)).map
          (fun ir => ({ i := ir.1, cid := rowCid sha1Sum ir.2 } : rowRef)) := by
    unfold scanRows
    rw [scan_refs]
    rfl
  have hjobs : jobsOf (scanRows sha1Sum rows (List.replicate rows.length false)).uniq
      = batchJobs sha1Sum rows := rfl
  simp only [aiLLMBatch, hf, hs, hd, Option.isNone_none, Option.isNone_some, and_false, if_false,
    Bool.false_eq_true, hov, hjobs]
  have hfun : ∀ (act : rowRef → RowAct),
      (fun (c : List Str × List Bool) (a : Nat × Row) =>
        if eligible a.2 = true then applyAct c ({ i := a.1, cid := rowCid sha1Sum a.2 } : rowRef).i
          (act { i := a.1, cid := rowCid sha1Sum a.2 }) else c)
      = (fun s ir => applyAct s ir.1
          (if eligible ir.2 = true then act { i := ir.1, cid := rowCid sha1Sum ir.2 }
           else RowAct.skip)) := by
    intro act
    funext s ir
    by_cases he : eligible ir.2 = true
    · simp only [he, if_true]
    · simp only [he, if_false]; rfl
  have hkey : ∀ (act : rowRef → RowAct),
      ((rows.enum.filter (fun ir => eligible ir.2)).map
          (fun ir => ({ i := ir.1, cid := rowCid sha1Sum ir.2 } : rowRef))).foldl
        (fun (s : List Str × List Bool) (r : rowRef) => applyAct s r.i (act r))
        (List.replicate rows.length ([] : Str), List.replicate rows.length false)
      = rows.enum.foldl (fun s ir => applyAct s ir.1
          (if eligible ir.2 = true then act { i := ir.1, cid := rowCid sha1Sum ir.2 }
           else RowAct.skip))
          (List.replicate rows.length ([] : Str), List.replicate rows.length false) := by
    intro act
    rw [foldl_filter_map, hfun act]
  by_cases h0 : (scanRows sha1Sum rows (List.replicate rows.length false)).refs.length = 0
  · rw [if_pos h0]
    have hnil := List.length_eq_zero.1 h0
    rw [hrefs] at hnil
    have hk := hkey (fun r =>
        if (submit (batchJobs sha1Sum rows)).2 ≠ none then RowAct.invalid
        else if getStr (submit (batchJobs sha1Sum rows)).1 r.cid = [] then RowAct.invalid
        else RowAct.answer (getStr (submit (batchJobs sha1Sum rows)).1 r.cid))
    rw [hnil] at hk
    exact hk
  · rw [if_neg h0]
    rw [hrefs]
    by_cases herr : (submit (batchJobs sha1Sum rows)).2 ≠ none
    · rw [if_pos herr]
      rw [foldl_output_state _
        (fun (s : List Str × List Bool) (r : rowRef) => applyAct s r.i RowAct.invalid)
        (fun o a => rfl)]
      have hk := hkey (fun _ => RowAct.invalid)
      refine hk.trans ?_
      apply congrArg (fun f => List.foldl f _ rows.enum)
      funext s ir
      rw [if_pos herr]
    · rw [if_neg herr]
      rw [foldl_output_state _
        (fun (s : List Str × List Bool) (r : rowRef) => applyAct s r.i
          (if getStr (submit (batchJobs sha1Sum rows)).1 r.cid = [] then RowAct.invalid
           else RowAct.answer (getStr (submit (batchJobs sha1Sum rows)).1 r.cid)))
        (fun o a => by
          dsimp only
          split <;> rfl)]
      have hk := hkey (fun r =>
          if getStr (submit (batchJobs sha1Sum rows)).1 r.cid = [] then RowAct.invalid
          else RowAct.answer (getStr (submit (batchJobs sha1Sum rows)).1 r.cid))
      refine hk.trans ?_
      apply congrArg (fun f => List.foldl f _ rows.enum)
      funext s ir
      rw [if_neg herr]

theorem actOut_rowAct_none (sha1Sum : Str → List Nat) (h : Handles) (rows : List Row)
    (hf : h.fusedDispatcher = none) (hs : h.singleClient = none) (hd : h.dispatcher = none)
    (ir : Nat × Row) : rowAct sha1Sum h rows ir = RowAct.invalid := by
  unfold rowAct dispatcherAnswer
  rw [hf, hs, hd]
  simp

/-- Go `aiLLMBatch` in closed form: the output slices hold, row by row, the
string and the flag of the row's action, and the calls are `frontCalls`. -/
theorem aiLLMBatch_closed (sha1Sum : Str → List Nat) (h : Handles) (rows : List Row) :
    (aiLLMBatch sha1Sum h rows).out = rows.enum.map (fun ir => actOut (rowAct sha1Sum h rows ir))
    ∧ (aiLLMBatch sha1Sum h rows).outValid
        = rows.enum.map (fun ir => actValid (rowAct sha1Sum h rows ir))
    ∧ (aiLLMBatch sha1Sum h rows).calls = frontCalls sha1Sum h rows := by
  have hclosed := fun act => actLoop_closed act rows rows.length (le_refl _)
  simp only [Nat.sub_self, List.replicate_zero, List.append_nil] at hclosed
  cases hf : h.fusedDispatcher with
  | some g =>
    have hrun : aiLLMBatch sha1Sum h rows = poolLoop g Call.getResult rows.enum
        { out := List.replicate rows.length [], outValid := List.replicate rows.length false,
          calls := [] } := by
      simp only [aiLLMBatch, hf, Option.isNone_some, Bool.false_eq_true, false_and, if_false]
    obtain ⟨h1, h2⟩ := poolLoop_state g Call.getResult rows.enum
        { out := List.replicate rows.length [], outValid := List.replicate rows.length false,
          calls := [] }
    rw [← hrun] at h1 h2
    rw [hclosed] at h1
    have hact : (fun ir : Nat × Row => rowAct sha1Sum h rows ir) = fun ir =>
        (if eligible ir.2 = true then
          if (g ir.1 ir.2.text ir.2.prompt).2 ≠ none ∨ (g ir.1 ir.2.text ir.2.prompt).1 = []
            then RowAct.invalid
          else RowAct.answer (g ir.1 ir.2.text ir.2.prompt).1
         else RowAct.invalid) := by
      funext ir
      simp only [rowAct, dispatcherAnswer, hf]
    refine ⟨?_, ?_, ?_⟩
    · rw [(Prod.mk.inj h1).1]
      exact congrArg (fun f => rows.enum.map (fun ir => actOut (f ir))) hact.symm
    · rw [(Prod.mk.inj h1).2]
      exact congrArg (fun f => rows.enum.map (fun ir => actValid (f ir))) hact.symm
    · rw [h2]
      simp only [frontCalls, hf, List.nil_append]
  | none =>
    cases hs : h.singleClient with
    | some g =>
      have hrun : aiLLMBatch sha1Sum h rows = poolLoop g Call.run rows.enum
          { out := List.replicate rows.length [], outValid := List.replicate rows.length false,
            calls := [] } := by
        simp only [aiLLMBatch, hf, hs, Option.isNone_some, Bool.false_eq_true, false_and,
          and_false, if_false]
      obtain ⟨h1, h2⟩ := poolLoop_state g Call.run rows.enum
          { out := List.replicate rows.length [], outValid := List.replicate rows.length false,
            calls := [] }
      rw [← hrun] at h1 h2
      rw [hclosed] at h1
      have hact : (fun ir : Nat × Row => rowAct sha1Sum h rows ir) = fun ir =>
          (if eligible ir.2 = true then
            if (g ir.1 ir.2.text ir.2.prompt).2 ≠ none ∨ (g ir.1 ir.2.text ir.2.prompt).1 = []
              then RowAct.invalid
            else RowAct.answer (g ir.1 ir.2.text ir.2.prompt).1
           else RowAct.invalid) := by
        funext ir
        simp only [rowAct, dispatcherAnswer, hf, hs]
      refine ⟨?_, ?_, ?_⟩
      · rw [(Prod.mk.inj h1).1]
        exact congrArg (fun f => rows.enum.map (fun ir => actOut (f ir))) hact.symm
      · rw [(Prod.mk.inj h1).2]
        exact congrArg (fun f => rows.enum.map (fun ir => actValid (f ir))) hact.symm
      · rw [h2]
        simp only [frontCalls, hf, hs, List.nil_append]
    | none =>
      cases hd : h.dispatcher with
      | none =>
        have hrun : aiLLMBatch sha1Sum h rows =
            { out := List.replicate rows.length [], outValid := List.replicate rows.length false,
              calls := [] } := by
          simp only [aiLLMBatch, hf, hs, hd, Option.isNone_none, and_self, if_true]
        rw [hrun]
        refine ⟨?_, ?_, ?_⟩
        · symm
          rw [List.eq_replicate_iff]
          refine ⟨by rw [List.length_map, List.enum_length], ?_⟩
          intro b hb
          obtain ⟨ir, _, rfl⟩ := List.mem_map.1 hb
          rw [actOut_rowAct_none sha1Sum h rows hf hs hd]
          rfl
        · symm
          rw [List.eq_replicate_iff]
          refine ⟨by rw [List.length_map, List.enum_length], ?_⟩
          intro b hb
          obtain ⟨ir, _, rfl⟩ := List.mem_map.1 hb
          rw [actOut_rowAct_none sha1Sum h rows hf hs hd]
          rfl
        · simp only [frontCalls, hf, hs, hd]
      | some submit =>
        have h1 := aiLLMBatch_batch_state sha1Sum h hf hs submit hd rows
        rw [hclosed] at h1
        have hh : h = ⟨none, none, some submit⟩ := by
          cases h
          simp only at hf hs hd
          rw [hf, hs, hd]
        refine ⟨?_, ?_, ?_⟩
        · rw [(Prod.mk.inj h1).1]
          apply List.map_congr_left
          intro ir _
          simp only [rowAct, dispatcherAnswer, hf, hs, hd]
          by_cases he : eligible ir.2 = true
          · simp only [he, if_true]
            by_cases herr : (submit (batchJobs sha1Sum rows)).2 ≠ none
            · rw [if_pos herr, if_pos (Or.inl herr)]
            · rw [if_neg herr]
              by_cases hg : getStr (submit (batchJobs sha1Sum rows)).1 (rowCid sha1Sum ir.2) = []
              · rw [if_pos hg, if_pos (Or.inr hg)]
              · rw [if_neg hg, if_neg (fun hc => hc.elim herr hg)]
          · simp only [he, if_false]
            rfl
        · rw [(Prod.mk.inj h1).2]
          apply List.map_congr_left
          intro ir _
          simp only [rowAct, dispatcherAnswer, hf, hs, hd]
          by_cases he : eligible ir.2 = true
          · simp only [he, if_true]
            by_cases herr : (submit (batchJobs sha1Sum rows)).2 ≠ none
            · rw [if_pos herr, if_pos (Or.inl herr)]
            · rw [if_neg herr]
              by_cases hg : getStr (submit (batchJobs sha1Sum rows)).1 (rowCid sha1Sum ir.2) = []
              · rw [if_pos hg, if_pos (Or.inr hg)]
              · rw [if_neg hg, if_neg (fun hc => hc.elim herr hg)]
          · simp only [he, if_false]
            rfl
        · rw [hh, aiLLMBatch_batch_calls]
          simp only [frontCalls]

theorem getElem?_enum_map {β : Type} (rows : List Row) (f : Nat × Row → β) (i : Nat) :
    (rows.enum.map f)[i]? = (rows[i]?).map (fun r => f (i, r)) := by
  rw [List.getElem?_map, List.getElem?_enum]
  cases rows[i]? <;> rfl

/-! ## The front-end: validity and answers, ineligible rows -/

/-- C3. For `aiLLMBatch` in every mode (any combination of handles) and for
every behaviour of the dispatchers: both output slices have the length of the
chunk; at every row index the flag is set iff the output string is non-empty;
a set flag means that the row is eligible and that its string is the non-empty
answer which the selected dispatcher returned for that row without error; a
cleared flag means that the string is empty. -/
theorem aiLLMBatch_valid_iff_answer (sha1Sum : Str → List Nat) (h : Handles) (rows : List Row) :
    (aiLLMBatch sha1Sum h rows).out.length = rows.length
    ∧ (aiLLMBatch sha1Sum h rows).outValid.length = rows.length
    ∧ ∀ i r, rows[i]? = some r →
        ((aiLLMBatch sha1Sum h rows).outValid[i]? = some true
          ∨ (aiLLMBatch sha1Sum h rows).outValid[i]? = some false)
        ∧ ((aiLLMBatch sha1Sum h rows).outValid[i]? = some true →
            eligible r = true
            ∧ (dispatcherAnswer sha1Sum h rows i r).2 = none
            ∧ (dispatcherAnswer sha1Sum h rows i r).1 ≠ []
            ∧ (aiLLMBatch sha1Sum h rows).out[i]? = some (dispatcherAnswer sha1Sum h rows i r).1)
        ∧ ((aiLLMBatch sha1Sum h rows).outValid[i]? = some false →
            (aiLLMBatch sha1Sum h rows).out[i]? = some []) := by
  obtain ⟨ho, hv, _⟩ := aiLLMBatch_closed sha1Sum h rows
  refine ⟨by rw [ho, List.length_map, List.enum_length],
    by rw [hv, List.length_map, List.enum_length], ?_⟩
  intro i r hr
  rw [ho, hv, getElem?_enum_map, getElem?_enum_map, hr]
  simp only [Option.map_some', Option.some.injEq]
  unfold rowAct
  by_cases he : eligible r = true
  · by_cases hc : (dispatcherAnswer sha1Sum h rows i r).2 ≠ none ∨
        (dispatcherAnswer sha1Sum h rows i r).1 = []
    · simp only [he, if_true, hc, actValid, actOut]
      simp
    · simp only [he, if_true, hc, if_false, actValid, actOut]
      rw [not_or, not_not] at hc
      simp [hc.1, hc.2]
  · simp only [he, if_false, actValid, actOut]
    simp

/-- C3, at work: the third row of the mixed chunk in single mode is valid and
holds the client's answer. -/
theorem aiLLMBatch_valid_iff_answer_witness :
    mixedChunk[2]? = some (okRow "t" "p")
    ∧ (aiLLMBatch toySum singleOk mixedChunk).outValid[2]? = some true
    ∧ (aiLLMBatch toySum singleOk mixedChunk).out[2]? = some "ok".toList :=
  ⟨rfl, by decide,
    (((aiLLMBatch_valid_iff_answer toySum singleOk mixedChunk).2.2 2
      (okRow "t" "p") rfl).2.1 (by decide)).2.2.2⟩

theorem frontCalls_row (sha1Sum : Str → List Nat) (h : Handles) (rows : List Row)
    (i : Nat) (t p : Str)
    (hc : Call.getResult i t p ∈ frontCalls sha1Sum h rows ∨
          Call.run i t p ∈ frontCalls sha1Sum h rows) :
    ∃ r, rows[i]? = some r ∧ eligible r = true ∧ t = r.text ∧ p = r.prompt := by
  have key : ∀ (mk : Nat → Str → Str → Call),
      (∀ a b c a2 b2 c2, mk a b c = mk a2 b2 c2 → a = a2 ∧ b = b2 ∧ c = c2) →
      mk i t p ∈ (rows.enum.filter (fun ir => eligible ir.2)).map
          (fun ir => mk ir.1 ir.2.text ir.2.prompt) →
      ∃ r, rows[i]? = some r ∧ eligible r = true ∧ t = r.text ∧ p = r.prompt := by
    intro mk hinj hm
    obtain ⟨ir, hir, heq⟩ := List.mem_map.1 hm
    obtain ⟨hmem, hel⟩ := List.mem_filter.1 hir
    obtain ⟨h1, h2, h3⟩ := hinj _ _ _ _ _ _ heq
    refine ⟨ir.2, ?_, hel, h2.symm, h3.symm⟩
    rw [← h1]
    exact List.mem_enum_iff_getElem?.1 hmem
  unfold frontCalls at hc
  cases hf : h.fusedDispatcher with
  | some g =>
    rw [hf] at hc
    simp only at hc
    rcases hc with hc | hc
    · exact key Call.getResult (fun a b c a2 b2 c2 e => by cases e; exact ⟨rfl, rfl, rfl⟩) hc
    · obtain ⟨ir, _, heq⟩ := List.mem_map.1 hc
      cases heq
  | none =>
    rw [hf] at hc
    simp only at hc
    cases hs : h.singleClient with
    | some g =>
      rw [hs] at hc
      simp only at hc
      rcases hc with hc | hc
      · obtain ⟨ir, _, heq⟩ := List.mem_map.1 hc
        cases heq
      · exact key Call.run (fun a b c a2 b2 c2 e => by cases e; exact ⟨rfl, rfl, rfl⟩) hc
    | none =>
      rw [hs] at hc
      simp only at hc
      cases hd : h.dispatcher with
      | some g =>
        rw [hd] at hc
        simp only at hc
        split at hc
        · simp at hc
        · simp at hc
      | none =>
        rw [hd] at hc
        simp at hc

theorem frontCalls_submit (sha1Sum : Str → List Nat) (h : Handles) (rows : List Row)
    (jobs : List llmJob) (hc : Call.submit jobs ∈ frontCalls sha1Sum h rows) :
    jobs = batchJobs sha1Sum rows := by
  unfold frontCalls at hc
  cases hf : h.fusedDispatcher with
  | some g =>
    rw [hf] at hc
    simp only at hc
    obtain ⟨ir, _, heq⟩ := List.mem_map.1 hc
    cases heq
  | none =>
    rw [hf] at hc
    simp only at hc
    cases hs : h.singleClient with
    | some g =>
      rw [hs] at hc
      simp only at hc
      obtain ⟨ir, _, heq⟩ := List.mem_map.1 hc
      cases heq
    | none =>
      rw [hs] at hc
      simp only at hc
      cases hd : h.dispatcher with
      | some g =>
        rw [hd] at hc
        simp only at hc
        split at hc
        · simp at hc
        · simpa using hc
      | none =>
        rw [hd] at hc
        simp at hc

theorem frontCalls_none_eligible (sha1Sum : Str → List Nat) (h : Handles) (rows : List Row)
    (hall : ∀ r ∈ rows, eligible r = false) : frontCalls sha1Sum h rows = [] := by
  have h1 : rows.enum.filter (fun ir => eligible ir.2) = [] := by
    rw [List.filter_eq_nil_iff]
    intro ir hir
    have := List.mem_map_of_mem Prod.snd hir
    rw [List.enum_map_snd] at this
    rw [hall _ this]
    simp
  have h2 : rows.filter eligible = [] := by
    rw [List.filter_eq_nil_iff]
    intro r hr
    rw [hall _ hr]
    simp
  unfold frontCalls
  rw [h1, h2]
  cases h.fusedDispatcher <;> cases h.singleClient <;> cases h.dispatcher <;> rfl

/-- C4. For every chunk and every mode of `aiLLMBatch`: a row whose text or
prompt validity flag is false is marked invalid and no `GetResult` or `Run` call
is made for it; every job of a `Submit` call carries the text and prompt of an
eligible row; and when every row of the chunk is ineligible, all rows are
invalid and no dispatcher call is made at all. -/
theorem ineligible_rows_invalid_uncalled (sha1Sum : Str → List Nat) (h : Handles)
    (rows : List Row) :
    (∀ i r, rows[i]? = some r → eligible r = false →
        (aiLLMBatch sha1Sum h rows).outValid[i]? = some false
        ∧ ∀ t p, Call.getResult i t p ∉ (aiLLMBatch sha1Sum h rows).calls
               ∧ Call.run i t p ∉ (aiLLMBatch sha1Sum h rows).calls)
    ∧ (∀ jobs, Call.submit jobs ∈ (aiLLMBatch sha1Sum h rows).calls →
        ∀ j ∈ jobs, ∃ r ∈ rows, eligible r = true ∧ j.text = r.text ∧ j.prompt = r.prompt)
    ∧ ((∀ r ∈ rows, eligible r = false) →
        (aiLLMBatch sha1Sum h rows).calls = []
        ∧ (aiLLMBatch sha1Sum h rows).outValid = List.replicate rows.length false) := by
  obtain ⟨_, hv, hcalls⟩ := aiLLMBatch_closed sha1Sum h rows
  refine ⟨?_, ?_, ?_⟩
  · intro i r hr he
    refine ⟨?_, ?_⟩
    · rw [hv, getElem?_enum_map, hr]
      simp [rowAct, he, actValid]
    · intro t p
      rw [hcalls]
      constructor
      · intro hc
        obtain ⟨r2, hr2, he2, _⟩ := frontCalls_row sha1Sum h rows i t p (Or.inl hc)
        rw [hr] at hr2
        cases hr2
        rw [he] at he2
        cases he2
      · intro hc
        obtain ⟨r2, hr2, he2, _⟩ := frontCalls_row sha1Sum h rows i t p (Or.inr hc)
        rw [hr] at hr2
        cases hr2
        rw [he] at he2
        cases he2
  · intro jobs hj j hjm
    rw [hcalls] at hj
    have := frontCalls_submit sha1Sum h rows jobs hj
    subst this
    simp only [batchJobs, jobsOf, List.mem_map] at hjm
    obtain ⟨e, he, rfl⟩ := hjm
    obtain ⟨pre, r, post, hrows, hel, _, hval, _⟩ := batchJobs_entry sha1Sum rows e.1 e.2 he
    refine ⟨r, by rw [hrows]; simp, hel, by rw [hval], by rw [hval]⟩
  · intro hall
    refine ⟨by rw [hcalls]; exact frontCalls_none_eligible sha1Sum h rows hall, ?_⟩
    rw [hv, List.eq_replicate_iff]
    refine ⟨by rw [List.length_map, List.enum_length], ?_⟩
    intro b hb
    obtain ⟨ir, hir, rfl⟩ := List.mem_map.1 hb
    have := List.mem_map_of_mem Prod.snd hir
    rw [List.enum_map_snd] at this
    simp [rowAct, hall _ this, actValid]

/-- C4, at work: the first row of the mixed chunk (null text) in single mode. -/
theorem ineligible_rows_invalid_uncalled_witness :
    (aiLLMBatch toySum singleOk mixedChunk).outValid[0]? = some false
    ∧ Call.run 0 [] "p".toList ∉ (aiLLMBatch toySum singleOk mixedChunk).calls :=
  ⟨((ineligible_rows_invalid_uncalled toySum singleOk mixedChunk).1 0 _ rfl rfl).1,
   (((ineligible_rows_invalid_uncalled toySum singleOk mixedChunk).1 0 _ rfl rfl).2
      [] "p".toList).2⟩

/-! ## `strings.Split` and `strings.TrimSpace` -/

theorem splitGo_skip (sep : Str) (cs : Str) :
    ∀ (k : Nat) (acc : Str), splitGo sep k acc cs = splitGo sep 0 acc (cs.drop k) := by
  induction cs with
  | nil => intro k acc; cases k <;> simp [splitGo]
  | cons c cs ih =>
    intro k acc
    cases k with
    | zero => rfl
    | succ k => simp only [splitGo, List.drop_succ_cons]; exact ih k acc

theorem splitGo_acc (sep : Str) (c : Char) (s : Str) :
    ∀ acc : Str, splitGo sep 0 (acc ++ [c]) s = consHead c (splitGo sep 0 acc s) := by
  induction s with
  | nil => intro acc; simp [splitGo, consHead]
  | cons d s ih =>
    intro acc
    by_cases hp : sep.isPrefixOf (d :: s) = true
    · simp [splitGo, hp, consHead]
    · simp only [splitGo, hp, if_false, Bool.false_eq_true]
      exact ih (d :: acc)

theorem Split_nil (sep : Str) (hsep : sep ≠ []) : Split [] sep = [[]] := by
  simp [Split, hsep, splitGo]

theorem Split_cons_match (sep : Str) (hsep : sep ≠ []) (c : Char) (cs : Str)
    (h : sep <+: c :: cs) :
    Split (c :: cs) sep = [] :: Split ((c :: cs).drop sep.length) sep := by
  have hp : sep.isPrefixOf (c :: cs) = true := List.isPrefixOf_iff_prefix.2 h
  obtain ⟨x, t, rfl⟩ := List.exists_cons_of_ne_nil hsep
  simp only [Split, hsep, if_false, splitGo, hp, if_true, List.reverse_nil, List.length_cons,
    Nat.add_sub_cancel, List.drop_succ_cons]
  rw [splitGo_skip]

theorem Split_cons_nomatch (sep : Str) (hsep : sep ≠ []) (c : Char) (cs : Str)
    (h : ¬ sep <+: c :: cs) :
    Split (c :: cs) sep = consHead c (Split cs sep) := by
  have hp : ¬ sep.isPrefixOf (c :: cs) = true := fun e => h (List.isPrefixOf_iff_prefix.1 e)
  simp only [Split, hsep, if_false, splitGo, hp, Bool.false_eq_true]
  exact splitGo_acc sep c cs []

theorem Split_no_occurrence (sep : Str) (hsep : sep ≠ []) (s : Str) (h : ¬ sep <:+: s) :
    Split s sep = [s] := by
  induction s with
  | nil => exact Split_nil sep hsep
  | cons c cs ih =>
    rw [Split_cons_nomatch sep hsep c cs (fun hp => h hp.isInfix)]
    rw [ih (fun hi => h (hi.trans (List.suffix_cons c cs).isInfix))]
    rfl

theorem Split_ne_nil (sep : Str) (hsep : sep ≠ []) (s : Str) : Split s sep ≠ [] := by
  cases s with
  | nil => rw [Split_nil sep hsep]; simp
  | cons c cs =>
    by_cases h : sep <+: c :: cs
    · rw [Split_cons_match sep hsep c cs h]; simp
    · rw [Split_cons_nomatch sep hsep c cs h]
      cases Split cs sep <;> simp [consHead]

theorem snocLast_cons (c : Char) (p : Str) (L : List Str) (hL : L ≠ []) :
    snocLast c (p :: L) = p :: snocLast c L := by
  cases L with
  | nil => exact absurd rfl hL
  | cons q ps => rfl

theorem snocLast_consHead (c d : Char) (L : List Str) (hL : L ≠ []) :
    snocLast c (consHead d L) = consHead d (snocLast c L) := by
  cases L with
  | nil => exact absurd rfl hL
  | cons p ps =>
    cases ps with
    | nil => rfl
    | cons q qs => rfl

theorem not_prefix_concat (sep s : Str) (c : Char) (h1 : ¬ sep <+: s) (h2 : sep ≠ s ++ [c]) :
    ¬ sep <+: s ++ [c] :=
  fun h => (List.prefix_concat_iff.1 h).elim h2 h1

theorem Split_snoc (sep : Str) (hsep : sep ≠ []) (c : Char)
    (hlast : ∀ x ∈ sep.getLast?, x ≠ c) :
    ∀ (n : Nat) (s : Str), s.length ≤ n → Split (s ++ [c]) sep = snocLast c (Split s sep) := by
  have hne : ∀ s : Str, sep ≠ s ++ [c] := by
    intro s e
    apply hlast c _ rfl
    rw [e]; simp
  have hnil : Split ([] ++ [c]) sep = snocLast c (Split [] sep) := by
    have hp : ¬ sep <+: [c] :=
      not_prefix_concat sep [] c (fun h => hsep (List.prefix_nil.1 h)) (hne [])
    rw [List.nil_append, Split_nil sep hsep, Split_cons_nomatch sep hsep c [] hp,
      Split_nil sep hsep]
    rfl
  intro n
  induction n with
  | zero =>
    intro s hs
    have : s = [] := List.length_eq_zero.1 (Nat.le_zero.1 hs)
    subst this
    exact hnil
  | succ n ih =>
    intro s hs
    cases s with
    | nil => exact hnil
    | cons d s =>
      by_cases hp : sep <+: d :: s
      · have hp2 : sep <+: d :: (s ++ [c]) := hp.trans (List.prefix_append _ _)
        have hlen : sep.length ≤ (d :: s).length := hp.length_le
        have e := Split_cons_match sep hsep d (s ++ [c]) hp2
        rw [List.cons_append, e, Split_cons_match sep hsep d s hp]
        have hdrop : (d :: (s ++ [c])).drop sep.length = (d :: s).drop sep.length ++ [c] := by
          rw [← List.cons_append, List.drop_append_of_le_length hlen]
        rw [hdrop, ih ((d :: s).drop sep.length) (by
          rw [List.length_drop]
          obtain ⟨x, t, rfl⟩ := List.exists_cons_of_ne_nil hsep
          simp only [List.length_cons] at hs ⊢
          omega)]
        rw [snocLast_cons _ _ _ (Split_ne_nil sep hsep _)]
      · have hp2 : ¬ sep <+: d :: (s ++ [c]) :=
          not_prefix_concat sep (d :: s) c hp (hne (d :: s))
        rw [List.cons_append, Split_cons_nomatch sep hsep d (s ++ [c]) hp2,
          Split_cons_nomatch sep hsep d s hp, ih s (by simp only [List.length_cons] at hs; omega),
          snocLast_consHead _ _ _ (Split_ne_nil sep hsep _)]

theorem TrimSpace_cons_space (c : Char) (s : Str) (hc : isSpace c = true) :
    TrimSpace (c :: s) = TrimSpace s := by
  simp only [TrimSpace, List.dropWhile_cons, hc, if_true]

theorem TrimSpace_snoc_space (c : Char) (s : Str) (hc : isSpace c = true) :
    TrimSpace (s ++ [c]) = TrimSpace s := by
  unfold TrimSpace
  rw [List.dropWhile_append]
  by_cases he : (List.dropWhile isSpace s).isEmpty = true
  · rw [if_pos he]
    have h0 : List.dropWhile isSpace s = [] := List.isEmpty_iff.1 he
    rw [h0]
    simp [List.dropWhile, hc, List.rdropWhile]
  · rw [if_neg he]
    exact List.rdropWhile_concat_pos _ _ _ hc

theorem TrimSpace_nil : TrimSpace [] = [] := rfl

theorem TrimSpace_singleton_space (c : Char) (hc : isSpace c = true) : TrimSpace [c] = [] := by
  rw [TrimSpace_cons_space c [] hc]; rfl

theorem trimParts_eq (L : List Str) :
    trimParts L = (L.map TrimSpace).filter (fun x => decide (x ≠ [])) := by
  induction L with
  | nil => rfl
  | cons p ps ih =>
    by_cases h : TrimSpace p = []
    · simp only [trimParts, List.filterMap_cons, h, if_true, List.map_cons, List.filter, ne_eq,
        not_true_eq_false, decide_False]
      exact ih
    · simp only [trimParts, List.filterMap_cons, h, if_false, List.map_cons, List.filter, ne_eq,
        not_false_eq_true, decide_True]
      exact congrArg _ ih

theorem trimParts_cons (p : Str) (L : List Str) :
    trimParts (p :: L) = (if TrimSpace p = [] then [] else [TrimSpace p]) ++ trimParts L := by
  by_cases h : TrimSpace p = []
  · simp [trimParts, List.filterMap_cons, h]
  · simp [trimParts, List.filterMap_cons, h]

theorem trimParts_consHead (c : Char) (hc : isSpace c = true) (L : List Str) :
    trimParts (consHead c L) = trimParts L := by
  cases L with
  | nil =>
    simp only [consHead]
    rw [trimParts_cons, TrimSpace_singleton_space c hc]
    rfl
  | cons p ps =>
    simp only [consHead]
    rw [trimParts_cons, trimParts_cons, TrimSpace_cons_space c p hc]

theorem trimParts_snocLast (c : Char) (hc : isSpace c = true) (L : List Str) :
    trimParts (snocLast c L) = trimParts L := by
  induction L with
  | nil =>
    simp only [snocLast]
    rw [trimParts_cons, TrimSpace_singleton_space c hc]
    rfl
  | cons p ps ih =>
    cases ps with
    | nil =>
      simp only [snocLast]
      rw [trimParts_cons, trimParts_cons, TrimSpace_snoc_space c p hc]
    | cons q qs =>
      have : snocLast c (p :: q :: qs) = p :: snocLast c (q :: qs) := rfl
      rw [this, trimParts_cons, trimParts_cons, ih]

theorem rdropWhile_decomp (p : Char → Bool) (l : Str) :
    ∃ r, l = l.rdropWhile p ++ r ∧ ∀ x ∈ r, p x = true := by
  induction l using List.reverseRecOn with
  | nil => exact ⟨[], rfl, fun x hx => absurd hx (List.not_mem_nil _)⟩
  | append_singleton l x ih =>
    by_cases hx : p x = true
    · obtain ⟨r, hr, hall⟩ := ih
      refine ⟨r ++ [x], ?_, ?_⟩
      · rw [List.rdropWhile_concat_pos _ _ _ hx, ← List.append_assoc, ← hr]
      · intro y hy
        rcases List.mem_append.1 hy with h | h
        · exact hall y h
        · rw [List.mem_singleton.1 h]; exact hx
    · refine ⟨[], ?_, fun y hy => absurd hy (List.not_mem_nil _)⟩
      rw [List.rdropWhile_concat_neg _ _ _ hx, List.append_nil]

/-- A string is its trimmed form between two runs of white space. -/
theorem TrimSpace_decomp (s : Str) :
    ∃ l r, s = l ++ TrimSpace s ++ r ∧ (∀ x ∈ l, isSpace x = true) ∧ (∀ x ∈ r, isSpace x = true) := by
  obtain ⟨r, hr, hall⟩ := rdropWhile_decomp isSpace (s.dropWhile isSpace)
  refine ⟨s.takeWhile isSpace, r, ?_, fun x hx => List.mem_takeWhile_imp hx, hall⟩
  unfold TrimSpace
  rw [List.append_assoc, ← hr, List.takeWhile_append_dropWhile]

theorem Split_space_left (sep : Str) (hsep : sep ≠ [])
    (hhead : ∀ c ∈ sep.head?, isSpace c = false) (l : Str) (hl : ∀ x ∈ l, isSpace x = true)
    (m : Str) : trimParts (Split (l ++ m) sep) = trimParts (Split m sep) := by
  induction l with
  | nil => rfl
  | cons c l ih =>
    have hc : isSpace c = true := hl c (List.mem_cons_self _ _)
    have hp : ¬ sep <+: c :: (l ++ m) := by
      intro h
      obtain ⟨x, t, rfl⟩ := List.exists_cons_of_ne_nil hsep
      have hx : isSpace x = false := hhead x rfl
      have := (List.cons_prefix_cons.1 h).1
      rw [this, hc] at hx
      cases hx
    rw [List.cons_append, Split_cons_nomatch sep hsep c _ hp, trimParts_consHead c hc]
    exact ih (fun x hx => hl x (List.mem_cons_of_mem _ hx))

theorem Split_space_right (sep : Str) (hsep : sep ≠ [])
    (hlast : ∀ c ∈ sep.getLast?, isSpace c = false) (r : Str) (hr : ∀ x ∈ r, isSpace x = true)
    (m : Str) : trimParts (Split (m ++ r) sep) = trimParts (Split m sep) := by
  induction r using List.reverseRecOn with
  | nil => rw [List.append_nil]
  | append_singleton r c ih =>
    have hc : isSpace c = true := hr c (by simp)
    have hl : ∀ x ∈ sep.getLast?, x ≠ c := by
      intro x hx e
      have := hlast x hx
      rw [e, hc] at this
      cases this
    rw [← List.append_assoc, Split_snoc sep hsep c hl (m ++ r).length (m ++ r) (le_refl _),
      trimParts_snocLast c hc]
    exact ih (fun x hx => hr x (by simp [hx]))

theorem splitFused_unfold (s sep : Str) :
    splitFused s sep = if TrimSpace s = [] then [] else trimParts (Split (TrimSpace s) sep) := rfl

theorem TrimSpace_head (s : Str) : ∀ c ∈ (TrimSpace s).head?, isSpace c = false := by
  intro c hc
  have hpre : TrimSpace s <+: s.dropWhile isSpace := List.rdropWhile_prefix _ _
  obtain ⟨r, hr⟩ := hpre
  cases ht : TrimSpace s with
  | nil => rw [ht] at hc; cases hc
  | cons x t =>
    rw [ht] at hc hr
    cases hc
    have := List.head?_dropWhile_not isSpace s
    rw [← hr] at this
    simpa using this

theorem TrimSpace_last (s : Str) : ∀ c ∈ (TrimSpace s).getLast?, isSpace c = false := by
  intro c hc
  by_cases hne : TrimSpace s = []
  · rw [hne] at hc; cases hc
  · rw [List.getLast?_eq_getLast _ hne] at hc
    cases hc
    have := List.rdropWhile_last_not isSpace (s.dropWhile isSpace) hne
    simpa using this

theorem TrimSpace_idem (s : Str) : TrimSpace (TrimSpace s) = TrimSpace s := by
  have h1 : (TrimSpace s).dropWhile isSpace = TrimSpace s := by
    cases ht : TrimSpace s with
    | nil => rfl
    | cons x t =>
      have := TrimSpace_head s x (by rw [ht]; rfl)
      simp [List.dropWhile_cons, this]
  show ((TrimSpace s).dropWhile isSpace).rdropWhile isSpace = TrimSpace s
  rw [h1]
  exact List.rdropWhile_idempotent _ _

theorem mem_trimParts (L : List Str) (p : Str) (hp : p ∈ trimParts L) :
    ∃ x ∈ L, p = TrimSpace x ∧ TrimSpace x ≠ [] := by
  simp only [trimParts, List.mem_filterMap] at hp
  obtain ⟨x, hx, h⟩ := hp
  by_cases he : TrimSpace x = []
  · simp [he] at h
  · simp only [he, if_false, Option.some.injEq] at h
    exact ⟨x, hx, h.symm, he⟩

/-! ## Answer parsing: `splitFused` against the reference parse -/

/-- C6 (the claim as stated fails). With the separator `" ;"`, which begins with
a blank, the reply `" ;a"` is parsed by `splitFused` into the single part `";a"`
(the leading blank of the separator occurrence is trimmed away before the
split), while the reference parse yields the single part `"a"`. -/
theorem splitFused_ne_referenceParse :
    " ;".toList ≠ []
    ∧ splitFused " ;a".toList " ;".toList = [";a".toList]
    ∧ referenceParse " ;a".toList " ;".toList = ["a".toList] := by
  decide

/-- C6 (amended). For every raw string and every non-empty separator:
if the separator neither begins nor ends with white space (as the production
separator `";"`), `splitFused` equals the reference parse (split at every
occurrence, trim each piece, drop the empty pieces, keep the order); every
returned part is non-empty and has no leading or trailing white space; and a
reply that contains no separator and some non-white-space content yields
exactly one part, the trimmed reply. -/
theorem splitFused_eq_referenceParse (s sep : Str) (hsep : sep ≠ []) :
    (sepEdgesNonSpace sep → splitFused s sep = referenceParse s sep)
    ∧ (∀ p ∈ splitFused s sep,
        p ≠ [] ∧ (∀ c ∈ p.head?, isSpace c = false) ∧ (∀ c ∈ p.getLast?, isSpace c = false))
    ∧ (¬ sep <:+: s → TrimSpace s ≠ [] → splitFused s sep = [TrimSpace s]) := by
  refine ⟨?_, ?_, ?_⟩
  · rintro ⟨hhead, hlast⟩
    obtain ⟨l, r, hs, hl, hr⟩ := TrimSpace_decomp s
    have href : referenceParse s sep = trimParts (Split (TrimSpace s) sep) := by
      unfold referenceParse
      rw [← trimParts_eq]
      conv_lhs => rw [hs]
      rw [Split_space_right sep hsep hlast r hr, Split_space_left sep hsep hhead l hl]
    rw [href, splitFused_unfold]
    by_cases ht : TrimSpace s = []
    · rw [if_pos ht, ht, Split_nil sep hsep]
      rfl
    · rw [if_neg ht]
  · intro p hp
    rw [splitFused_unfold] at hp
    by_cases ht : TrimSpace s = []
    · rw [if_pos ht] at hp
      exact absurd hp (List.not_mem_nil _)
    · rw [if_neg ht] at hp
      obtain ⟨x, _, hpx, hne⟩ := mem_trimParts _ p hp
      rw [hpx]
      exact ⟨hne, TrimSpace_head x, TrimSpace_last x⟩
  · intro hno ht
    obtain ⟨l, r, hs, _, _⟩ := TrimSpace_decomp s
    have hno2 : ¬ sep <:+: TrimSpace s := by
      intro hi
      apply hno
      rw [hs]
      exact hi.trans ⟨l, r, rfl⟩
    rw [splitFused_unfold, if_neg ht, Split_no_occurrence sep hsep _ hno2, trimParts_cons,
      TrimSpace_idem, if_neg ht]
    rfl

/-- C6 (amended), at work: the production separator on a reply with blanks and
an empty piece. -/
theorem splitFused_eq_referenceParse_witness :
    ";".toList ≠ [] ∧ sepEdgesNonSpace ";".toList
    ∧ splitFused " a ; b;;c ".toList ";".toList = referenceParse " a ; b;;c ".toList ";".toList :=
  ⟨by decide, ⟨by decide, by decide⟩,
    (splitFused_eq_referenceParse " a ; b;;c ".toList ";".toList (by decide)).1
      ⟨by decide, by decide⟩⟩

/-! ## Fused dispatcher: heap and map lemmas -/

theorem length_updBatch (heap : List fusedBatch) (b : Nat) (f : fusedBatch → fusedBatch) :
    (updBatch heap b f).length = heap.length := by
  unfold updBatch
  cases heap[b]? <;> simp

theorem getBatch_updBatch_self (heap : List fusedBatch) (b : Nat) (f : fusedBatch → fusedBatch)
    (hb : b < heap.length) : getBatch (updBatch heap b f) b = f (getBatch heap b) := by
  unfold updBatch getBatch
  rw [List.getElem?_eq_getElem hb]
  simp [List.getD_eq_getElem?_getD, List.getElem?_set, hb]

theorem getBatch_updBatch_ne (heap : List fusedBatch) (b b2 : Nat) (f : fusedBatch → fusedBatch)
    (h : b2 ≠ b) : getBatch (updBatch heap b f) b2 = getBatch heap b2 := by
  unfold updBatch getBatch
  cases hx : heap[b]? with
  | none => rfl
  | some x =>
    simp only [List.getD_eq_getElem?_getD, List.getElem?_set]
    rw [if_neg (fun e => h e.symm)]

theorem GoMap.keys_set {V : Type} (m : GoMap V) (k : Str) (v : V) :
    GoMap.keys (GoMap.set m k v) = if k ∈ GoMap.keys m then GoMap.keys m else GoMap.keys m ++ [k] := by
  induction m with
  | nil => simp [GoMap.set, GoMap.keys]
  | cons e r ih =>
    obtain ⟨k', v'⟩ := e
    by_cases hk : k' = k
    · subst hk
      simp only [GoMap.set, GoMap.keys, if_true, List.map_cons, List.mem_cons, true_or]
    · have hk2 : ¬ k = k' := fun e => hk e.symm
      have ih2 : List.map Prod.fst (GoMap.set r k v)
          = if k ∈ List.map Prod.fst r then List.map Prod.fst r
            else List.map Prod.fst r ++ [k] := ih
      simp only [GoMap.set, GoMap.keys, hk, if_false, List.map_cons, List.mem_cons, hk2, false_or,
        ih2]
      split <;> rfl

theorem GoMap.nodup_keys_set {V : Type} (m : GoMap V) (k : Str) (v : V)
    (h : (GoMap.keys m).Nodup) : (GoMap.keys (GoMap.set m k v)).Nodup := by
  rw [GoMap.keys_set]
  split
  · exact h
  · rename_i hk
    refine List.Nodup.append h (List.nodup_singleton _) ?_
    intro a ha hb
    rw [List.mem_singleton] at hb
    exact hk (hb ▸ ha)

theorem GoMap.mem_keys_set {V : Type} (m : GoMap V) (k k2 : Str) (v : V) :
    k2 ∈ GoMap.keys (GoMap.set m k v) ↔ k2 = k ∨ k2 ∈ GoMap.keys m := by
  rw [GoMap.keys_set]
  split
  · rename_i hk
    constructor
    · exact fun h => Or.inr h
    · rintro (h | h)
      · rw [h]; exact hk
      · exact h
  · rw [List.mem_append, List.mem_singleton]
    exact or_comm

/-- The slotting loop `for i, p := range promptList { b.prompts[p] = parts[i] }`. -/
theorem zipSet_get (promptList : List Str) :
    ∀ (parts : List Str) (m : GoMap Str), promptList.Nodup →
      (∀ (i : Nat) (p a : Str), promptList[i]? = some p → parts[i]? = some a →
        GoMap.get ((promptList.zip parts).foldl (fun m e => GoMap.set m e.1 e.2) m) p = some a)
      ∧ (∀ p, p ∉ promptList →
        GoMap.get ((promptList.zip parts).foldl (fun m e => GoMap.set m e.1 e.2) m) p
          = GoMap.get m p) := by
  induction promptList with
  | nil =>
    intro parts m _
    refine ⟨?_, fun p _ => rfl⟩
    intro i p a h
    simp at h
  | cons q ps ih =>
    intro parts m hnd
    cases parts with
    | nil =>
      refine ⟨?_, fun p _ => rfl⟩
      intro i p a _ h
      simp at h
    | cons a0 as =>
      obtain ⟨hq, hps⟩ := List.nodup_cons.1 hnd
      obtain ⟨ih1, ih2⟩ := ih as (GoMap.set m q a0) hps
      simp only [List.zip_cons_cons, List.foldl_cons]
      refine ⟨?_, ?_⟩
      · intro i p a hp ha
        cases i with
        | zero =>
          simp only [List.getElem?_cons_zero, Option.some.injEq] at hp ha
          subst hp; subst ha
          rw [ih2 q hq, GoMap.get_set_self]
        | succ i =>
          simp only [List.getElem?_cons_succ] at hp ha
          exact ih1 i p a hp ha
      · intro p hp
        rw [List.mem_cons, not_or] at hp
        rw [ih2 p hp.2, GoMap.get_set_ne _ _ _ _ (fun e => hp.1 e.symm)]

theorem zipSet_keys (promptList : List Str) :
    ∀ (parts : List Str) (m : GoMap Str), (GoMap.keys m).Nodup →
      (GoMap.keys ((promptList.zip parts).foldl (fun m e => GoMap.set m e.1 e.2) m)).Nodup := by
  induction promptList with
  | nil => intro parts m h; exact h
  | cons q ps ih =>
    intro parts m h
    cases parts with
    | nil => exact h
    | cons a0 as =>
      simp only [List.zip_cons_cons, List.foldl_cons]
      exact ih as _ (GoMap.nodup_keys_set m q a0 h)

/-- The caching loop: a prompt with a non-empty answer gets that answer, every
other entry of the inner map is left as it is. -/
theorem cacheAnswers_get (prompts : GoMap Str) :
    ∀ (inner : GoMap Str) (p : Str), (GoMap.keys prompts).Nodup →
      GoMap.get (cacheAnswers inner prompts) p =
        match GoMap.get prompts p with
        | some a => if a ≠ [] then some a else GoMap.get inner p
        | none => GoMap.get inner p := by
  induction prompts with
  | nil => intro inner p _; rfl
  | cons e r ih =>
    intro inner p hnd
    obtain ⟨k, v⟩ := e
    have hnd2 : (GoMap.keys r).Nodup ∧ k ∉ GoMap.keys r := by
      simp only [GoMap.keys, List.map_cons, List.nodup_cons] at hnd
      exact ⟨hnd.2, hnd.1⟩
    have hstep : cacheAnswers inner ((k, v) :: r)
        = cacheAnswers (if v ≠ [] then GoMap.set inner k v else inner) r := rfl
    rw [hstep, ih _ p hnd2.1]
    by_cases hk : k = p
    · subst hk
      have hnone : GoMap.get r k = none := (GoMap.get_eq_none_iff r k).2 hnd2.2
      simp only [hnone, GoMap.get, if_true]
      by_cases hv : v = []
      · simp [hv]
      · simp [hv, GoMap.get_set_self]
    · simp only [GoMap.get, hk, if_false]
      cases hg : GoMap.get r p with
      | none =>
        by_cases hv : v = []
        · simp [hv]
        · simp [hv, GoMap.get_set_ne _ _ _ _ hk]
      | some a =>
        by_cases ha : a = []
        · by_cases hv : v = []
          · simp [ha, hv]
          · simp [ha, hv, GoMap.get_set_ne _ _ _ _ hk]
        · simp [ha]

theorem splitFused_mem_ne_nil (s sep p : Str) (hp : p ∈ splitFused s sep) : p ≠ [] := by
  rw [splitFused_unfold] at hp
  by_cases ht : TrimSpace s = []
  · rw [if_pos ht] at hp
    exact absurd hp (List.not_mem_nil _)
  · rw [if_neg ht] at hp
    obtain ⟨x, _, hpx, hne⟩ := mem_trimParts _ p hp
    rw [hpx]; exact hne

theorem succeedBatch_batch (d : FusedDispatcher) (text : Str) (b : Nat)
    (promptList parts : List Str) (hb : b < d.heap.length) :
    getBatch (succeedBatch d text b promptList parts).heap b =
      { getBatch d.heap b with
        prompts := (promptList.zip parts).foldl (fun m e => GoMap.set m e.1 e.2)
          (getBatch d.heap b).prompts
        err := none
        done := true } := by
  simp only [succeedBatch, releaseBatch]
  rw [getBatch_updBatch_self _ _ _ (by rw [length_updBatch]; exact hb),
    getBatch_updBatch_self _ _ _ hb]

theorem succeedBatch_cache (d : FusedDispatcher) (text : Str) (b : Nat)
    (promptList parts : List Str) (hb : b < d.heap.length) :
    (succeedBatch d text b promptList parts).cache =
      GoMap.set d.cache text (cacheAnswers ((GoMap.get d.cache text).getD [])
        ((promptList.zip parts).foldl (fun m e => GoMap.set m e.1 e.2)
          (getBatch d.heap b).prompts)) := by
  simp only [succeedBatch, releaseBatch]
  rw [getBatch_updBatch_self _ _ _ hb]

theorem finishSingle_success (d : FusedDispatcher) (text : Str) (b : Nat)
    (promptList : List Str) (raw : Str)
    (hlen : (splitFused raw d.sep).length = promptList.length) :
    finishSingle d text b promptList raw none
      = succeedBatch d text b promptList (splitFused raw d.sep) := by
  simp only [finishSingle, hlen, ne_eq, not_true_eq_false, if_false]

theorem flushTextBegin_call (d d1 : FusedDispatcher) (text : Str) (item : fusedWorkItem)
    (h : flushTextBegin d text = (d1, FlushStep.call item)) :
    ∃ b, GoMap.get d.batches text = some b ∧ item.b = b ∧ item.text = text
      ∧ item.promptList = ((getBatch d.heap b).order.filter
          (fun p => (GoMap.get (getBatch d.heap b).prompts p).isSome))
      ∧ item.fusedPrompt = Join item.promptList d.sep
      ∧ d1.upstream = d.upstream ∧ d1.sep = d.sep ∧ d1.limiter = d.limiter := by
  unfold flushTextBegin at h
  cases hg : GoMap.get d.batches text with
  | none => rw [hg] at h; simp at h
  | some b =>
    rw [hg] at h
    simp only at h
    split at h
    · simp at h
    · split at h
      · simp at h
      · split at h
        · simp at h
        · simp only [Prod.mk.injEq, FlushStep.call.injEq] at h
          obtain ⟨h1, h2⟩ := h
          subst h1; subst h2
          refine ⟨b, rfl, rfl, rfl, ?_, rfl, rfl, rfl, rfl⟩
          by_cases hb : b < d.heap.length
          · simp only [getBatch_updBatch_self _ _ _ hb]
          · have hnone : d.heap[b]? = none := List.getElem?_eq_none (Nat.le_of_not_lt hb)
            simp only [updBatch, hnone]

/-! ## Fused dispatcher: answer slotting, parse mismatch, completion -/

/-- C5. Fused answer slotting by index. For a list of pairwise distinct prompts
and a reply, returned without error, whose `splitFused` part count equals the
number of prompts, after `finishSingle` the batch's answer for the `i`-th prompt
is the `i`-th part, `cache[text]` holds that same part for it, the batch's `err`
is nil, the batch is done and the text is no longer in flight. And the fused
prompt that is sent is the prompts joined with the separator in insertion
order: whenever `flushText` reaches its upstream call, the prompt list is the
batch's `order` (insertion order) and the fused prompt is that list joined with
the separator; when the limiter, if one is installed, lets the request through,
`flushText` makes exactly one upstream call, `client.Run` with the prompt
`Return machine-parseable output.` / `TEXT:<text>` /
`INSTRUCTIONS:<prompts joined>` / `Return answers ONLY, in order, separated by
"<sep>". No newlines.`, the service receives that prompt inside the user message
of `Run`, and `finishSingle` gets the reply; when the limiter fails, nothing is
sent. -/
theorem finishSingle_slots_by_index (d : FusedDispatcher) (text : Str) (b : Nat)
    (promptList : List Str) (raw : Str)
    (hb : b < d.heap.length) (hnd : promptList.Nodup)
    (hkeys : (GoMap.keys (getBatch d.heap b).prompts).Nodup)
    (hlen : (splitFused raw d.sep).length = promptList.length) :
    (∀ (i : Nat) (p a : Str), promptList[i]? = some p → (splitFused raw d.sep)[i]? = some a →
        GoMap.get (getBatch (finishSingle d text b promptList raw none).heap b).prompts p = some a
        ∧ ∃ mp, GoMap.get (finishSingle d text b promptList raw none).cache text = some mp
            ∧ GoMap.get mp p = some a)
    ∧ (getBatch (finishSingle d text b promptList raw none).heap b).err = none
    ∧ (getBatch (finishSingle d text b promptList raw none).heap b).done = true
    ∧ GoMap.get (finishSingle d text b promptList raw none).inflight text = none
    ∧ (∀ (env : Env) (d0 d1 : FusedDispatcher) (t : Str) (item : fusedWorkItem),
        flushTextBegin d0 t = (d1, FlushStep.call item) →
          item.text = t
          ∧ item.promptList = (getBatch d0.heap item.b).order.filter
              (fun p => (GoMap.get (getBatch d0.heap item.b).prompts p).isSome)
          ∧ item.fusedPrompt = Join item.promptList d0.sep
          ∧ ((d0.limiter = true → env.limiterWait d0.upstream.length = none) →
              (flushText env d0 t).upstream
                = d0.upstream ++ ["Return machine-parseable output.".toList ++ "\n".toList ++
                    "TEXT:".toList ++ t ++ "\nINSTRUCTIONS:".toList ++
                    Join item.promptList d0.sep ++
                    "\nReturn answers ONLY, in order, separated by \"".toList ++ d0.sep ++
                    "\". No newlines.".toList]
              ∧ flushText env d0 t
                = finishSingle
                    { d1 with
                      upstream := d0.upstream ++ ["Return machine-parseable output.".toList ++
                        "\n".toList ++ "TEXT:".toList ++ t ++ "\nINSTRUCTIONS:".toList ++
                        Join item.promptList d0.sep ++
                        "\nReturn answers ONLY, in order, separated by \"".toList ++ d0.sep ++
                        "\". No newlines.".toList]
                      calling := d1.calling.erase item }
                    t item.b item.promptList
                    (match env.createMessages d0.upstream.length
                        ("TEXT:\n".toList ++ [] ++ "\n\nINSTRUCTION:\n".toList ++
                          ("Return machine-parseable output.".toList ++ "\n".toList ++
                            "TEXT:".toList ++ t ++ "\nINSTRUCTIONS:".toList ++
                            Join item.promptList d0.sep ++
                            "\nReturn answers ONLY, in order, separated by \"".toList ++ d0.sep ++
                            "\". No newlines.".toList) ++
                          "\n\nReturn only the answer text.".toList) with
                      | MessagesOutcome.failed _ => []
                      | MessagesOutcome.content blocks => concatBlocks blocks)
                    (match env.createMessages d0.upstream.length
                        ("TEXT:\n".toList ++ [] ++ "\n\nINSTRUCTION:\n".toList ++
                          ("Return machine-parseable output.".toList ++ "\n".toList ++
                            "TEXT:".toList ++ t ++ "\nINSTRUCTIONS:".toList ++
                            Join item.promptList d0.sep ++
                            "\nReturn answers ONLY, in order, separated by \"".toList ++ d0.sep ++
                            "\". No newlines.".toList) ++
                          "\n\nReturn only the answer text.".toList) with
                      | MessagesOutcome.failed e =>
                          some ("CreateMessages".toList ++ ": ".toList ++ e)
                      | MessagesOutcome.content _ => none))
          ∧ (∀ e, d0.limiter = true → env.limiterWait d0.upstream.length = some e →
              (flushText env d0 t).upstream = d0.upstream)) := by
  rw [finishSingle_success d text b promptList raw hlen]
  obtain ⟨hz1, _⟩ := zipSet_get promptList (splitFused raw d.sep) (getBatch d.heap b).prompts hnd
  refine ⟨?_, ?_, ?_, ?_, ?_⟩
  · intro i p a hp ha
    have hget := hz1 i p a hp ha
    refine ⟨by rw [succeedBatch_batch _ _ _ _ _ hb]; exact hget, ?_⟩
    rw [succeedBatch_cache _ _ _ _ _ hb, GoMap.get_set_self]
    refine ⟨_, rfl, ?_⟩
    rw [cacheAnswers_get _ _ _ (zipSet_keys _ _ _ hkeys), hget]
    have hane : a ≠ [] :=
      splitFused_mem_ne_nil raw d.sep a (List.mem_iff_getElem?.2 ⟨i, ha⟩)
    simp only [hane, ne_eq, not_false_eq_true, if_true]
  · rw [succeedBatch_batch _ _ _ _ _ hb]
  · rw [succeedBatch_batch _ _ _ _ _ hb]
  · simp only [succeedBatch, releaseBatch]
    exact GoMap.get_delete_self _ _
  · intro env d0 d1 t item hbegin
    obtain ⟨b0, hg, hib, hit, hpl, hfp, hup, hsep, hlim⟩ := flushTextBegin_call d0 d1 t item hbegin
    have hups : ∀ (x : FusedDispatcher) (tx : Str) (bx : Nat) (pl : List Str) (r : Str)
        (e : Option GoError), (finishSingle x tx bx pl r e).upstream = x.upstream := by
      intro x tx bx pl r e
      unfold finishSingle
      cases e with
      | some e => rfl
      | none =>
        dsimp only
        split <;> rfl
    refine ⟨hit, by rw [hib]; exact hpl, hfp, ?_, ?_⟩
    · intro hpass
      have hwait : (if d1.limiter = true then env.limiterWait d1.upstream.length else none)
          = none := by
        rw [hlim, hup]
        by_cases hl : d0.limiter = true
        · rw [if_pos hl]
          exact hpass hl
        · rw [if_neg hl]
      have hflush : flushText env d0 t
          = finishSingle
              { d1 with upstream := d1.upstream ++ [fusedPayload item.text item.fusedPrompt d1.sep], calling := d1.calling.erase item }
              item.text item.b item.promptList
              (AnthropicSingleClient.Run (env.createMessages d1.upstream.length) []
                (fusedPayload item.text item.fusedPrompt d1.sep)).1
              (AnthropicSingleClient.Run (env.createMessages d1.upstream.length) []
                (fusedPayload item.text item.fusedPrompt d1.sep)).2 := by
        simp only [flushText, hbegin, flushTextCall, runSingleFusedRequest, hwait, clientRun]
      rw [hflush, hups]
      simp only [hup, hit, hfp, hsep, fusedPayload, AnthropicSingleClient.Run, wrapAnthropicErr]
      refine ⟨trivial, ?_⟩
      cases env.createMessages d0.upstream.length
        ("TEXT:\n".toList ++ [] ++ "\n\nINSTRUCTION:\n".toList ++
          ("Return machine-parseable output.".toList ++ "\n".toList ++
            "TEXT:".toList ++ t ++ "\nINSTRUCTIONS:".toList ++
            Join item.promptList d0.sep ++
            "\nReturn answers ONLY, in order, separated by \"".toList ++ d0.sep ++
            "\". No newlines.".toList) ++
          "\n\nReturn only the answer text.".toList) <;> rfl
    · intro e hl hw
      have hwait : (if d1.limiter = true then env.limiterWait d1.upstream.length else none)
          = some e := by
        rw [hlim, hup, if_pos hl]
        exact hw
      simp only [flushText, hbegin, flushTextCall, runSingleFusedRequest, hwait]
      rw [hups]
      exact hup

/-- C5, at work: three prompts registered for `cat`; the flush sends one
request whose prompt carries `p1;p2;p3`, and with the reply `a; b ;c` the prompt
`p2` gets `b`. -/
theorem finishSingle_slots_by_index_witness :
    (flushText (constEnv (MessagesOutcome.content ["a; b ;c".toList])) threePrompts
        "cat".toList).upstream
      = [("Return machine-parseable output.\nTEXT:cat\nINSTRUCTIONS:p1;p2;p3\n" ++
          "Return answers ONLY, in order, separated by \";\". No newlines.").toList]
    ∧ GoMap.get (getBatch (finishSingle threeFrozen "cat".toList 0
        ["p1".toList, "p2".toList, "p3".toList] "a; b ;c".toList none).heap 0).prompts
      "p2".toList = some "b".toList :=
  ⟨(((finishSingle_slots_by_index threeFrozen "cat".toList 0
      ["p1".toList, "p2".toList, "p3".toList] "a; b ;c".toList
      (by decide) (by decide) (by decide) (by decide)).2.2.2.2
      (constEnv (MessagesOutcome.content ["a; b ;c".toList])) threePrompts threeFrozen
      "cat".toList
      { text := "cat".toList, promptList := ["p1".toList, "p2".toList, "p3".toList],
        fusedPrompt := "p1;p2;p3".toList, b := 0 }
      (by decide)).2.2.2.1 (by decide)).1,
   ((finishSingle_slots_by_index threeFrozen "cat".toList 0
      ["p1".toList, "p2".toList, "p3".toList] "a; b ;c".toList
      (by decide) (by decide) (by decide) (by decide)).1 1 "p2".toList "b".toList
      (by decide) (by decide)).1⟩

theorem mismatchBatch_batch (d : FusedDispatcher) (text : Str) (b : Nat) (diag : Str)
    (err : GoError) (hb : b < d.heap.length) :
    getBatch (mismatchBatch d text b diag err).heap b =
      (if d.debug then
        { getBatch d.heap b with
          prompts := GoMap.setAllVals (getBatch d.heap b).prompts diag, err := none, done := true }
       else { getBatch d.heap b with err := some err, done := true }) := by
  simp only [mismatchBatch, releaseBatch]
  rw [getBatch_updBatch_self _ _ _ (by rw [length_updBatch]; exact hb),
    getBatch_updBatch_self _ _ _ hb]
  split <;> rfl

theorem failBatch_batch (d : FusedDispatcher) (text : Str) (b : Nat) (msg : Str)
    (err : Option GoError) (hb : b < d.heap.length) :
    getBatch (failBatch d text b msg err).heap b =
      { setAll (getBatch d.heap b) msg d.debug err with done := true } := by
  simp only [failBatch, releaseBatch]
  rw [getBatch_updBatch_self _ _ _ (by rw [length_updBatch]; exact hb),
    getBatch_updBatch_self _ _ _ hb]

theorem finishSingle_mismatch (d : FusedDispatcher) (text : Str) (b : Nat)
    (promptList : List Str) (raw : Str)
    (hne : (splitFused raw d.sep).length ≠ promptList.length) :
    finishSingle d text b promptList raw none
      = mismatchBatch d text b
          ("PARSE_MISMATCH want=".toList ++ itoa promptList.length ++ " got=".toList ++
            itoa (splitFused raw d.sep).length ++ " raw=".toList ++ raw)
          ("got ".toList ++ itoa (splitFused raw d.sep).length ++ " parts, want ".toList ++
            itoa promptList.length) := by
  simp only [finishSingle, hne, ne_eq, not_false_eq_true, if_true]

/-- C7. Fused parse mismatch with debug off. For a prompt list of length `M` and
a reply, returned without error, whose `splitFused` part count `N` differs from
`M`, `finishSingle` sets the batch's `err` to the error `got N parts, want M`,
leaves the prompt map as it was (so answers that were empty stay empty), leaves
the cache as it was, removes the text from `inflight`, closes `done`, and every
waiter whose answer slot was empty reads the empty string with that error. -/
theorem finishSingle_mismatch_debug_off (d : FusedDispatcher) (text : Str) (b : Nat)
    (promptList : List Str) (raw : Str)
    (hb : b < d.heap.length) (hdebug : d.debug = false)
    (hne : (splitFused raw d.sep).length ≠ promptList.length) :
    (getBatch (finishSingle d text b promptList raw none).heap b).err
        = some ("got ".toList ++ itoa (splitFused raw d.sep).length ++ " parts, want ".toList ++
            itoa promptList.length)
    ∧ (getBatch (finishSingle d text b promptList raw none).heap b).prompts
        = (getBatch d.heap b).prompts
    ∧ (finishSingle d text b promptList raw none).cache = d.cache
    ∧ GoMap.get (finishSingle d text b promptList raw none).inflight text = none
    ∧ (getBatch (finishSingle d text b promptList raw none).heap b).done = true
    ∧ (∀ p, getStr (getBatch d.heap b).prompts p = [] →
        GetResultRead (finishSingle d text b promptList raw none) b p
          = ([], some ("got ".toList ++ itoa (splitFused raw d.sep).length ++
              " parts, want ".toList ++ itoa promptList.length))) := by
  rw [finishSingle_mismatch d text b promptList raw hne]
  have hbatch := mismatchBatch_batch d text b
    ("PARSE_MISMATCH want=".toList ++ itoa promptList.length ++ " got=".toList ++
      itoa (splitFused raw d.sep).length ++ " raw=".toList ++ raw)
    ("got ".toList ++ itoa (splitFused raw d.sep).length ++ " parts, want ".toList ++
      itoa promptList.length) hb
  rw [hdebug] at hbatch
  simp only [Bool.false_eq_true, if_false] at hbatch
  refine ⟨by rw [hbatch], by rw [hbatch], rfl, ?_, by rw [hbatch], ?_⟩
  · simp only [mismatchBatch, releaseBatch]
    exact GoMap.get_delete_self _ _
  · intro p hp
    unfold GetResultRead
    rw [hbatch]
    simp only [hp]

/-- C7, at work: three prompts and a reply with two parts. -/
theorem finishSingle_mismatch_debug_off_witness :
    (getBatch (finishSingle threeFrozen "cat".toList 0
        ["p1".toList, "p2".toList, "p3".toList] "a; b".toList none).heap 0).err
      = some "got 2 parts, want 3".toList :=
  (finishSingle_mismatch_debug_off threeFrozen "cat".toList 0
      ["p1".toList, "p2".toList, "p3".toList] "a; b".toList
      (by decide) (by decide) (by decide)).1

theorem heap_length_blocks (d : FusedDispatcher) (text : Str) (b : Nat) :
    (∀ msg err, (failBatch d text b msg err).heap.length = d.heap.length)
    ∧ (∀ diag err, (mismatchBatch d text b diag err).heap.length = d.heap.length)
    ∧ (∀ pl parts, (succeedBatch d text b pl parts).heap.length = d.heap.length) := by
  refine ⟨?_, ?_, ?_⟩
  · intro msg err
    simp only [failBatch, releaseBatch, length_updBatch]
  · intro diag err
    simp only [mismatchBatch, releaseBatch, length_updBatch]
  · intro pl parts
    simp only [succeedBatch, releaseBatch, length_updBatch]

theorem getBatch_blocks_ne (d : FusedDispatcher) (text : Str) (b b2 : Nat) (h : b2 ≠ b) :
    (∀ msg err, getBatch (failBatch d text b msg err).heap b2 = getBatch d.heap b2)
    ∧ (∀ diag err, getBatch (mismatchBatch d text b diag err).heap b2 = getBatch d.heap b2)
    ∧ (∀ pl parts, getBatch (succeedBatch d text b pl parts).heap b2 = getBatch d.heap b2) := by
  refine ⟨?_, ?_, ?_⟩
  · intro msg err
    simp only [failBatch, releaseBatch, getBatch_updBatch_ne _ _ _ _ h]
  · intro diag err
    simp only [mismatchBatch, releaseBatch, getBatch_updBatch_ne _ _ _ _ h]
  · intro pl parts
    simp only [succeedBatch, releaseBatch, getBatch_updBatch_ne _ _ _ _ h]

theorem config_blocks (d : FusedDispatcher) (text : Str) (b : Nat) :
    (∀ msg err, (failBatch d text b msg err).debug = d.debug
      ∧ (failBatch d text b msg err).sep = d.sep)
    ∧ (∀ diag err, (mismatchBatch d text b diag err).debug = d.debug
      ∧ (mismatchBatch d text b diag err).sep = d.sep)
    ∧ (∀ pl parts, (succeedBatch d text b pl parts).debug = d.debug
      ∧ (succeedBatch d text b pl parts).sep = d.sep) :=
  ⟨fun _ _ => ⟨rfl, rfl⟩, fun _ _ => ⟨rfl, rfl⟩, fun _ _ => ⟨rfl, rfl⟩⟩

/-- A loop whose body changes only the batch of its own item leaves, for every
item, the batch that the body makes of the item's initial batch. -/
theorem foldl_batch_local {α : Type} (step : FusedDispatcher → α → FusedDispatcher)
    (ptr : α → Nat) (dbg : Bool) (sp : Str) (upd : α → fusedBatch → fusedBatch)
    (hown : ∀ d a, d.debug = dbg → d.sep = sp → ptr a < d.heap.length →
      getBatch (step d a).heap (ptr a) = upd a (getBatch d.heap (ptr a)))
    (hother : ∀ d a b2, b2 ≠ ptr a → getBatch (step d a).heap b2 = getBatch d.heap b2)
    (hlen : ∀ d a, (step d a).heap.length = d.heap.length)
    (hcfg : ∀ d a, (step d a).debug = d.debug ∧ (step d a).sep = d.sep) :
    ∀ (l : List α) (d : FusedDispatcher), d.debug = dbg → d.sep = sp →
      (l.map ptr).Nodup → (∀ a ∈ l, ptr a < d.heap.length) →
      (∀ a ∈ l, getBatch (l.foldl step d).heap (ptr a) = upd a (getBatch d.heap (ptr a)))
      ∧ (∀ b2, b2 ∉ l.map ptr → getBatch (l.foldl step d).heap b2 = getBatch d.heap b2) := by
  intro l
  induction l with
  | nil =>
    intro d _ _ _ _
    exact ⟨fun a ha => absurd ha (List.not_mem_nil _), fun b2 _ => rfl⟩
  | cons x l ih =>
    intro d hd hs hnd hlt
    simp only [List.map_cons, List.nodup_cons] at hnd
    obtain ⟨ih1, ih2⟩ := ih (step d x) ((hcfg d x).1.trans hd) ((hcfg d x).2.trans hs) hnd.2
      (fun a ha => by rw [hlen]; exact hlt a (List.mem_cons_of_mem _ ha))
    simp only [List.foldl_cons]
    refine ⟨?_, ?_⟩
    · intro a ha
      rcases List.mem_cons.1 ha with h | h
      · subst h
        rw [ih2 (ptr a) hnd.1]
        exact hown d a hd hs (hlt a (List.mem_cons_self _ _))
      · rw [ih1 a h]
        have hne : ptr a ≠ ptr x := by
          intro e
          apply hnd.1
          rw [← e]
          exact List.mem_map_of_mem ptr h
        rw [hother d x (ptr a) hne]
    · intro b2 hb2
      simp only [List.map_cons, List.mem_cons, not_or] at hb2
      rw [ih2 b2 hb2.2, hother d x b2 hb2.1]

theorem finishSingle_done_err (d : FusedDispatcher) (hdebug : d.debug = false)
    (text : Str) (b : Nat) (promptList : List Str) (raw : Str) (err : Option GoError)
    (hb : b < d.heap.length) :
    (getBatch (finishSingle d text b promptList raw err).heap b).done = true
    ∧ ((getBatch (finishSingle d text b promptList raw err).heap b).err = none ↔
        (err = none ∧ (splitFused raw d.sep).length = promptList.length)) := by
  cases err with
  | some e =>
    have : finishSingle d text b promptList raw (some e)
        = failBatch d text b ("ERR:".toList ++ e) (some e) := rfl
    rw [this, failBatch_batch _ _ _ _ _ hb]
    simp [setAll, hdebug]
  | none =>
    by_cases hl : (splitFused raw d.sep).length = promptList.length
    · rw [finishSingle_success d text b promptList raw hl, succeedBatch_batch _ _ _ _ _ hb]
      simp [hl]
    · rw [finishSingle_mismatch d text b promptList raw hl, mismatchBatch_batch _ _ _ _ _ hb]
      simp [hdebug, hl]

theorem finishLine_local (sp : Str) :
    (∀ (d : FusedDispatcher) (e : fusedWorkItem × Str), d.debug = false → d.sep = sp →
      e.1.b < d.heap.length →
      getBatch (finishLine d e.1 e.2).heap e.1.b = lineUpdate sp e (getBatch d.heap e.1.b))
    ∧ (∀ (d : FusedDispatcher) (e : fusedWorkItem × Str) (b2 : Nat), b2 ≠ e.1.b →
      getBatch (finishLine d e.1 e.2).heap b2 = getBatch d.heap b2)
    ∧ (∀ (d : FusedDispatcher) (e : fusedWorkItem × Str),
      (finishLine d e.1 e.2).heap.length = d.heap.length)
    ∧ (∀ (d : FusedDispatcher) (e : fusedWorkItem × Str),
      (finishLine d e.1 e.2).debug = d.debug ∧ (finishLine d e.1 e.2).sep = d.sep) := by
  refine ⟨?_, ?_, ?_, ?_⟩
  · intro d e hdebug hsep hb
    subst hsep
    unfold finishLine lineUpdate
    by_cases hl : (splitFused e.2 d.sep).length ≠ e.1.promptList.length
    · simp only [hl, if_true, ne_eq, not_false_eq_true]
      rw [mismatchBatch_batch _ _ _ _ _ hb]
      simp [hdebug]
    · simp only [hl, if_false]
      rw [succeedBatch_batch _ _ _ _ _ hb]
  · intro d e b2 h
    unfold finishLine
    dsimp only
    split
    · exact (getBatch_blocks_ne d e.1.text e.1.b b2 h).2.1 _ _
    · exact (getBatch_blocks_ne d e.1.text e.1.b b2 h).2.2 _ _
  · intro d e
    unfold finishLine
    dsimp only
    split
    · exact (heap_length_blocks d e.1.text e.1.b).2.1 _ _
    · exact (heap_length_blocks d e.1.text e.1.b).2.2 _ _
  · intro d e
    unfold finishLine
    dsimp only
    split <;> exact ⟨rfl, rfl⟩

theorem runMultiBatch_same_length (env : Env) (d : FusedDispatcher) (first : fusedWorkItem)
    (rest : List fusedWorkItem)
    (hsame : ∀ it ∈ first :: rest, it.promptList.length = first.promptList.length)
    (r : Str × Option GoError) (d1 : FusedDispatcher)
    (hr : r = AnthropicSingleClient.Run (env.createMessages d.upstream.length) []
      (multiPayload d.sep first.promptList.length (first :: rest)))
    (hd1 : d1 = { d with upstream := d.upstream ++
      [multiPayload d.sep first.promptList.length (first :: rest)] }) :
    runMultiBatch env d (first :: rest) =
      (if r.2 ≠ none ∨ TrimSpace r.1 = [] then
        (first :: rest).foldl (fun x it =>
          failBatch x it.text it.b ("ERR:".toList ++ sprintErr r.2) r.2) d1
      else if (splitLines r.1).length ≠ (first :: rest).length then
        (first :: rest).foldl (fun x it =>
          mismatchBatch x it.text it.b
            ("lines=".toList ++ itoa (splitLines r.1).length ++ " raw=".toList ++ r.1)
            ("got ".toList ++ itoa (splitLines r.1).length ++ " lines, want ".toList ++
              itoa (first :: rest).length)) d1
      else
        ((first :: rest).zip (splitLines r.1)).foldl (fun x e => finishLine x e.1 e.2) d1) := by
  have hany : (first :: rest).any
      (fun it => decide (it.promptList.length ≠ first.promptList.length)) = false := by
    rw [List.any_eq_false]
    intro it hit
    simp [hsame it hit]
  subst hr
  subst hd1
  simp only [runMultiBatch, hany, clientRun, Bool.false_eq_true, if_false]

/-- With debug off, a round of `runMultiBatch` on items of one prompt-list length
whose reply is an error or is not blank: every item's batch is done, and its
`err` is nil exactly when the reply came without error, has as many lines as
there are items, and the item's line has as many parts as the item has
prompts. -/
theorem runMultiBatch_done_err (env : Env) (d : FusedDispatcher) (hdebug : d.debug = false)
    (first : fusedWorkItem) (rest : List fusedWorkItem)
    (hnd : ((first :: rest).map (fun it => it.b)).Nodup)
    (hlt : ∀ it ∈ first :: rest, it.b < d.heap.length)
    (hsame : ∀ it ∈ first :: rest, it.promptList.length = first.promptList.length)
    (r : Str × Option GoError)
    (hr : r = AnthropicSingleClient.Run (env.createMessages d.upstream.length) []
      (multiPayload d.sep first.promptList.length (first :: rest)))
    (hreply : r.2 ≠ none ∨ TrimSpace r.1 ≠ [])
    (i : Nat) (it : fusedWorkItem) (hi : (first :: rest)[i]? = some it) :
    (getBatch (runMultiBatch env d (first :: rest)).heap it.b).done = true
    ∧ ((getBatch (runMultiBatch env d (first :: rest)).heap it.b).err = none ↔
        (r.2 = none ∧ (splitLines r.1).length = (first :: rest).length
          ∧ ∃ line, (splitLines r.1)[i]? = some line
              ∧ (splitFused line d.sep).length = it.promptList.length)) := by
  have hmem : it ∈ first :: rest := List.mem_iff_getElem?.2 ⟨i, hi⟩
  obtain ⟨d1, hd1⟩ : ∃ d1 : FusedDispatcher, d1 = { d with upstream := d.upstream ++
      [multiPayload d.sep first.promptList.length (first :: rest)] } := ⟨_, rfl⟩
  have hdebug1 : d1.debug = false := by rw [hd1]; exact hdebug
  have hsep1 : d1.sep = d.sep := by rw [hd1]
  have hlt1 : ∀ it ∈ first :: rest, it.b < d1.heap.length := by rw [hd1]; exact hlt
  have hheap1 : d1.heap = d.heap := by rw [hd1]
  rw [runMultiBatch_same_length env d first rest hsame r d1 hr hd1]
  by_cases hc1 : r.2 ≠ none ∨ TrimSpace r.1 = []
  · rw [if_pos hc1]
    have herr : r.2 ≠ none := by
      rcases hc1 with h | h
      · exact h
      · rcases hreply with h2 | h2
        · exact h2
        · exact absurd h h2
    have hfold := (foldl_batch_local
      (fun x (a : fusedWorkItem) => failBatch x a.text a.b ("ERR:".toList ++ sprintErr r.2) r.2)
      (fun a => a.b) false d.sep
      (fun _ x => { x with err := r.2, done := true })
      (fun x a hx _ hb => by
        rw [failBatch_batch _ _ _ _ _ hb]
        simp [setAll, hx])
      (fun x a b2 h => (getBatch_blocks_ne x a.text a.b b2 h).1 _ _)
      (fun x a => (heap_length_blocks x a.text a.b).1 _ _)
      (fun x a => ⟨rfl, rfl⟩)
      (first :: rest) d1 hdebug1 hsep1 hnd hlt1).1 it hmem
    rw [hfold]
    refine ⟨rfl, ?_⟩
    constructor
    · intro h; exact absurd h herr
    · intro h; exact absurd h.1 herr
  · rw [if_neg hc1]
    rw [not_or, not_not] at hc1
    by_cases hc2 : (splitLines r.1).length ≠ (first :: rest).length
    · rw [if_pos hc2]
      have hfold := (foldl_batch_local
        (fun x (a : fusedWorkItem) => mismatchBatch x a.text a.b
          ("lines=".toList ++ itoa (splitLines r.1).length ++ " raw=".toList ++ r.1)
          ("got ".toList ++ itoa (splitLines r.1).length ++ " lines, want ".toList ++
            itoa (first :: rest).length))
        (fun a => a.b) false d.sep
        (fun _ x => { x with err := some ("got ".toList ++ itoa (splitLines r.1).length ++
            " lines, want ".toList ++ itoa (first :: rest).length), done := true })
        (fun x a hx _ hb => by
          rw [mismatchBatch_batch _ _ _ _ _ hb]
          simp [hx])
        (fun x a b2 h => (getBatch_blocks_ne x a.text a.b b2 h).2.1 _ _)
        (fun x a => (heap_length_blocks x a.text a.b).2.1 _ _)
        (fun x a => ⟨rfl, rfl⟩)
        (first :: rest) d1 hdebug1 hsep1 hnd hlt1).1 it hmem
      rw [hfold]
      refine ⟨rfl, ?_⟩
      constructor
      · intro h; cases h
      · intro h; exact absurd h.2.1 hc2
    · rw [if_neg hc2]
      rw [not_not] at hc2
      obtain ⟨h1, h2, h3, h4⟩ := finishLine_local d.sep
      have hilt : i < (splitLines r.1).length := by
        rw [hc2]
        exact (List.getElem?_eq_some_iff.1 hi).1
      obtain ⟨line, hline⟩ : ∃ line, (splitLines r.1)[i]? = some line :=
        ⟨_, List.getElem?_eq_getElem hilt⟩
      have hzi : ((first :: rest).zip (splitLines r.1))[i]? = some (it, line) := by
        rw [List.getElem?_zip_eq_some]
        exact ⟨hi, hline⟩
      have hzmem : (it, line) ∈ (first :: rest).zip (splitLines r.1) :=
        List.mem_iff_getElem?.2 ⟨i, hzi⟩
      have hmapfst : ((first :: rest).zip (splitLines r.1)).map (fun e => e.1.b)
          = (first :: rest).map (fun a => a.b) := by
        have : ((first :: rest).zip (splitLines r.1)).map Prod.fst = first :: rest :=
          List.map_fst_zip _ _ (by rw [hc2])
        conv_rhs => rw [← this]
        rw [List.map_map]
        rfl
      have hfold := (foldl_batch_local
        (fun x (e : fusedWorkItem × Str) => finishLine x e.1 e.2)
        (fun e => e.1.b) false d.sep (lineUpdate d.sep)
        (fun x e hx hs hb => h1 x e hx hs hb)
        (fun x e b2 h => h2 x e b2 h)
        (fun x e => h3 x e)
        (fun x e => h4 x e)
        ((first :: rest).zip (splitLines r.1)) d1 hdebug1 hsep1 (by rw [hmapfst]; exact hnd)
        (fun e he => hlt1 e.1 (List.of_mem_zip he).1)).1 (it, line) hzmem
      rw [hfold]
      unfold lineUpdate
      dsimp only
      by_cases hl : (splitFused line d.sep).length ≠ it.promptList.length
      · rw [if_pos hl]
        refine ⟨rfl, ?_⟩
        constructor
        · intro h; cases h
        · rintro ⟨_, _, line2, hl2, hcount⟩
          rw [hline] at hl2
          cases hl2
          exact absurd hcount hl
      · rw [if_neg hl]
        rw [not_not] at hl
        refine ⟨rfl, ?_⟩
        constructor
        · intro _; exact ⟨hc1.1, hc2, line, hline, hl⟩
        · intro _; rfl

theorem flushTextBegin_no_client (d : FusedDispatcher) (hdebug : d.debug = false)
    (text : Str) (b : Nat) (hg : GoMap.get d.batches text = some b) (hb : b < d.heap.length)
    (hc : d.client = false) :
    (getBatch (flushTextBegin d text).1.heap b).done = true
    ∧ (getBatch (flushTextBegin d text).1.heap b).err ≠ none := by
  have : (flushTextBegin d text).1
      = failBatch { d with batches := GoMap.delete d.batches text,
                           inflight := GoMap.set d.inflight text b } text b
          "ERR:client_nil".toList (some "single client is nil".toList) := by
    simp only [flushTextBegin, hg, hc, if_true]
  rw [this]
  generalize hd1 : ({ d with batches := GoMap.delete d.batches text,
                             inflight := GoMap.set d.inflight text b } : FusedDispatcher) = d1
  have hb1 : b < d1.heap.length := by rw [← hd1]; exact hb
  have hdebug1 : d1.debug = false := by rw [← hd1]; exact hdebug
  rw [failBatch_batch _ _ _ _ _ hb1]
  simp [setAll, hdebug1]

/-- C8 (the claim as stated fails). With debug on, three prompts are registered
for `cat`, the batch is frozen and the reply `a; b` has two parts: after
`finishSingle` the batch is done, the part count differs from the prompt count
and `err` is nil, so neither alternative holds. -/
theorem debug_done_without_err_or_match :
    (getBatch (finishSingle threeFrozenDebug "cat".toList 0
        ["p1".toList, "p2".toList, "p3".toList] "a; b".toList none).heap 0).done = true
    ∧ (getBatch (finishSingle threeFrozenDebug "cat".toList 0
        ["p1".toList, "p2".toList, "p3".toList] "a; b".toList none).heap 0).err = none
    ∧ (splitFused "a; b".toList threeFrozenDebug.sep).length = 2
    ∧ (GoMap.keys (getBatch threeFrozenDebug.heap 0).prompts).length = 3 := by
  decide

/-- C8 (amended). With debug off, every fused batch completed by `finishSingle`
(called by `flushText` and by the fallback of `runMultiBatch`), by `flushText`
without a client, or by a `runMultiBatch` round whose reply is an error or is
not blank, is done, and its `err` is nil exactly when the reply came without
error and parsed into as many parts as the batch has prompts (in a multi round:
as many lines as items, and as many parts in the item's line as the item has
prompts); so of "the part count equals the prompt count" and "`err` is non-nil"
exactly one holds for a parsed reply, and `err` is non-nil when no reply was
parsed. -/
theorem fused_done_parse_xor_err (env : Env) (d : FusedDispatcher) (hdebug : d.debug = false) :
    (∀ (text : Str) (b : Nat) (promptList : List Str) (raw : Str) (err : Option GoError),
      b < d.heap.length →
        (getBatch (finishSingle d text b promptList raw err).heap b).done = true
        ∧ ((getBatch (finishSingle d text b promptList raw err).heap b).err = none ↔
            (err = none ∧ (splitFused raw d.sep).length = promptList.length)))
    ∧ (∀ (text : Str) (b : Nat), GoMap.get d.batches text = some b → b < d.heap.length →
        d.client = false →
        (getBatch (flushTextBegin d text).1.heap b).done = true
        ∧ (getBatch (flushTextBegin d text).1.heap b).err ≠ none)
    ∧ (∀ (first : fusedWorkItem) (rest : List fusedWorkItem) (r : Str × Option GoError)
        (i : Nat) (it : fusedWorkItem),
        ((first :: rest).map (fun it => it.b)).Nodup →
        (∀ it ∈ first :: rest, it.b < d.heap.length) →
        (∀ it ∈ first :: rest, it.promptList.length = first.promptList.length) →
        r = AnthropicSingleClient.Run (env.createMessages d.upstream.length) []
          (multiPayload d.sep first.promptList.length (first :: rest)) →
        (r.2 ≠ none ∨ TrimSpace r.1 ≠ []) →
        (first :: rest)[i]? = some it →
          (getBatch (runMultiBatch env d (first :: rest)).heap it.b).done = true
          ∧ ((getBatch (runMultiBatch env d (first :: rest)).heap it.b).err = none ↔
              (r.2 = none ∧ (splitLines r.1).length = (first :: rest).length
                ∧ ∃ line, (splitLines r.1)[i]? = some line
                    ∧ (splitFused line d.sep).length = it.promptList.length))) :=
  ⟨fun text b promptList raw err hb =>
      finishSingle_done_err d hdebug text b promptList raw err hb,
   fun text b hg hb hc => flushTextBegin_no_client d hdebug text b hg hb hc,
   fun first rest r i it hnd hlt hsame hr hreply hi =>
      runMultiBatch_done_err env d hdebug first rest hnd hlt hsame r hr hreply i it hi⟩

/-- C8 (amended), at work: three prompts, debug off, a reply with two parts and
a reply with three. -/
theorem fused_done_parse_xor_err_witness :
    (getBatch (finishSingle threeFrozen "cat".toList 0
        ["p1".toList, "p2".toList, "p3".toList] "a; b".toList none).heap 0).err ≠ none
    ∧ (getBatch (finishSingle threeFrozen "cat".toList 0
        ["p1".toList, "p2".toList, "p3".toList] "a; b; c".toList none).heap 0).err = none :=
  ⟨fun h => absurd ((((fused_done_parse_xor_err (constEnv (MessagesOutcome.content []))
        threeFrozen (by decide)).1 "cat".toList 0 ["p1".toList, "p2".toList, "p3".toList]
        "a; b".toList none (by decide)).2.1 h).2) (by decide),
   ((fused_done_parse_xor_err (constEnv (MessagesOutcome.content []))
        threeFrozen (by decide)).1 "cat".toList 0 ["p1".toList, "p2".toList, "p3".toList]
        "a; b; c".toList none (by decide)).2.2 ⟨rfl, by decide⟩⟩

/-! ## Fused dispatcher: the invariant -/

theorem getBatch_append_lt (heap l : List fusedBatch) (b : Nat) (hb : b < heap.length) :
    getBatch (heap ++ l) b = getBatch heap b := by
  unfold getBatch
  simp only [List.getD_eq_getElem?_getD]
  rw [List.getElem?_append_left hb]

theorem getBatch_append_new (heap : List fusedBatch) (x : fusedBatch) :
    getBatch (heap ++ [x]) heap.length = x := by
  unfold getBatch
  simp [List.getD_eq_getElem?_getD]

theorem cacheGet_set (c : GoMap (GoMap Str)) (t t2 p : Str) (mp : GoMap Str) :
    cacheGet (GoMap.set c t mp) t2 p = if t = t2 then GoMap.get mp p else cacheGet c t2 p := by
  unfold cacheGet
  rw [GoMap.get_set]
  by_cases h : t = t2
  · simp [h]
  · simp [h]

theorem getStr_of_get {m : GoMap Str} {p a : Str} (h : GoMap.get m p = some a) :
    getStr m p = a := by
  simp [getStr, h]

theorem mem_keys_iff_get {V : Type} (m : GoMap V) (k : Str) :
    k ∈ GoMap.keys m ↔ ∃ v, GoMap.get m k = some v := by
  constructor
  · intro h
    cases hg : GoMap.get m k with
    | none => exact absurd h ((GoMap.get_eq_none_iff m k).1 hg)
    | some v => exact ⟨v, rfl⟩
  · rintro ⟨v, hv⟩
    by_contra hn
    rw [(GoMap.get_eq_none_iff m k).2 hn] at hv
    cases hv

/-- Completing a piece of held work keeps the invariant, whatever the completion
writes into its own batch, as long as the batch ends up done, the cache changes
only under the item's text, keeps its old entries, gains no empty answer and,
with debug off, gains every non-empty answer of the batch. -/
theorem FusedInv_complete (d d2 : FusedDispatcher) (it : fusedWorkItem)
    (hinv : FusedInv d) (hit : it ∈ d.calling)
    (hlen : d2.heap.length = d.heap.length)
    (hother : ∀ b2, b2 ≠ it.b → getBatch d2.heap b2 = getBatch d.heap b2)
    (hdone : (getBatch d2.heap it.b).done = true)
    (htext : (getBatch d2.heap it.b).text = it.text)
    (hbat : d2.batches = d.batches)
    (hinf : d2.inflight = GoMap.delete d.inflight it.text)
    (hwork : d2.workCh = d.workCh)
    (hcall : d2.calling = d.calling.erase it)
    (hdebug : d2.debug = d.debug)
    (hc1 : ∀ t2 p, t2 ≠ it.text → cacheGet d2.cache t2 p = cacheGet d.cache t2 p)
    (hc2 : ∀ p a, cacheGet d.cache it.text p = some a → cacheGet d2.cache it.text p = some a)
    (hc3 : ∀ p a, cacheGet d2.cache it.text p = some a → a ≠ [])
    (hc4 : d.debug = false → ∀ p, getStr (getBatch d2.heap it.b).prompts p ≠ [] →
      cacheGet d2.cache it.text p = some (getStr (getBatch d2.heap it.b).prompts p)) :
    FusedInv d2 := by
  have hitem := hinv.items_wf it (List.mem_append_left _ hit)
  obtain ⟨hblt, hbtext, hblive⟩ := hinv.inflight_wf it.text it.b hitem.1
  have hbatnone : GoMap.get d.batches it.text = none := by
    cases hg : GoMap.get d.batches it.text with
    | none => rfl
    | some b0 =>
      have := (hinv.batches_wf it.text b0 hg).2.2.2
      rw [hitem.1] at this
      cases this
  -- a batch other than the item's that is not done has another text
  have hlive_text : ∀ b2, b2 < d.heap.length → (getBatch d.heap b2).done = false → b2 ≠ it.b →
      (getBatch d.heap b2).text ≠ it.text := by
    intro b2 hb2 hl hne e
    rcases hinv.live_reg b2 hb2 hl with h | h
    · rw [e, hbatnone] at h; cases h
    · rw [e, hitem.1] at h
      exact hne (Option.some.inj h).symm
  refine ⟨?_, ?_, ?_, ?_, ?_, ?_, ?_, ?_⟩
  · intro t b hg
    rw [hbat] at hg
    obtain ⟨h1, h2, h3, h4⟩ := hinv.batches_wf t b hg
    have hne : b ≠ it.b := by
      intro e
      rw [e, hblive] at h3
      exact absurd (by rw [← h2, e, hbtext] : t = it.text) (by
        intro e2; rw [e2, hbatnone] at hg; cases hg)
    have htne : it.text ≠ t := by
      intro e; rw [← e, hbatnone] at hg; cases hg
    rw [hlen, hother b hne, hinf, GoMap.get_delete_ne _ _ _ htne]
    exact ⟨h1, h2, h3, h4⟩
  · intro t b hg
    rw [hinf] at hg
    have htne : it.text ≠ t := by
      intro e; rw [← e, GoMap.get_delete_self] at hg; cases hg
    rw [GoMap.get_delete_ne _ _ _ htne] at hg
    obtain ⟨h1, h2, h3⟩ := hinv.inflight_wf t b hg
    have hne : b ≠ it.b := by
      intro e
      rw [e, hbtext] at h2
      exact htne h2
    rw [hlen, hother b hne]
    exact ⟨h1, h2, h3⟩
  · intro b hb hl
    rw [hlen] at hb
    have hne : b ≠ it.b := by
      intro e; rw [e, hdone] at hl; cases hl
    rw [hother b hne] at hl ⊢
    have htne := hlive_text b hb hl hne
    rw [hbat, hinf, GoMap.get_delete_ne _ _ _ (fun e => htne e.symm)]
    exact hinv.live_reg b hb hl
  · intro b hb hl
    rw [hlen] at hb
    have hne : b ≠ it.b := by
      intro e; rw [e, hdone] at hl; cases hl
    rw [hother b hne] at hl ⊢
    have htne := hlive_text b hb hl hne
    obtain ⟨h1, h2⟩ := hinv.live_slots b hb hl
    refine ⟨h1, fun p hp => ⟨(h2 p hp).1, ?_⟩⟩
    rw [hc1 _ _ htne]
    exact (h2 p hp).2
  · intro it2 hit2
    rw [hcall, hwork] at hit2
    have hnd := hinv.items_nodup
    have hmem : it2 ∈ d.calling ++ d.workCh := by
      rcases List.mem_append.1 hit2 with h | h
      · exact List.mem_append_left _ (List.mem_of_mem_erase h)
      · exact List.mem_append_right _ h
    have hne2 : it2.text ≠ it.text := by
      -- the texts of the items are pairwise distinct and `it` has been removed
      have hsplit : ∃ l1 l2, d.calling = l1 ++ it :: l2 ∧ it ∉ l1 :=
        List.eq_append_cons_of_mem hit
      obtain ⟨l1, l2, hc, hnotin⟩ := hsplit
      have herase : d.calling.erase it = l1 ++ l2 := by
        rw [hc, List.erase_append_right _ hnotin, List.erase_cons_head]
      rw [hc, List.append_assoc, List.map_append, List.cons_append, List.map_cons] at hnd
      have hnd2 := List.nodup_middle.1 hnd
      have hnot : it.text ∉ (l1.map (fun x => x.text)) ++ ((l2 ++ d.workCh).map (fun x => x.text)) :=
        (List.nodup_cons.1 hnd2).1
      intro e
      apply hnot
      rw [← e]
      rw [herase] at hit2
      rcases List.mem_append.1 hit2 with h | h
      · rcases List.mem_append.1 h with h | h
        · exact List.mem_append_left _ (List.mem_map_of_mem _ h)
        · exact List.mem_append_right _ (List.mem_map_of_mem _ (List.mem_append_left _ h))
      · exact List.mem_append_right _ (List.mem_map_of_mem _ (List.mem_append_right _ h))
    obtain ⟨h1, h2⟩ := hinv.items_wf it2 hmem
    have hbne : it2.b ≠ it.b := by
      intro e
      have := (hinv.inflight_wf it2.text it2.b h1).2.1
      rw [e, hbtext] at this
      exact hne2 this.symm
    rw [hinf, GoMap.get_delete_ne _ _ _ (fun e => hne2 e.symm), hother _ hbne]
    exact ⟨h1, h2⟩
  · rw [hcall, hwork]
    have hsub : (d.calling.erase it ++ d.workCh).Sublist (d.calling ++ d.workCh) :=
      List.Sublist.append (List.erase_sublist _ _) (List.Sublist.refl _)
    exact List.Nodup.sublist (hsub.map _) hinv.items_nodup
  · intro hdb b hb hd2 p hp
    rw [hdebug] at hdb
    rw [hlen] at hb
    by_cases hbe : b = it.b
    · subst hbe
      rw [htext]
      exact hc4 hdb p hp
    · rw [hother b hbe] at hd2 hp ⊢
      have hold := hinv.done_cached hdb b hb hd2 p hp
      by_cases hte : (getBatch d.heap b).text = it.text
      · rw [hte] at hold ⊢
        exact hc2 _ _ hold
      · rw [hc1 _ _ hte]
        exact hold
  · intro t p a hg
    by_cases hte : t = it.text
    · subst hte
      exact hc3 p a hg
    · rw [hc1 _ _ hte] at hg
      exact hinv.cache_nonempty t p a hg

theorem zipSet_get_notin (promptList : List Str) :
    ∀ (parts : List Str) (m : GoMap Str) (p : Str), p ∉ promptList →
      GoMap.get ((promptList.zip parts).foldl (fun m e => GoMap.set m e.1 e.2) m) p
        = GoMap.get m p := by
  induction promptList with
  | nil => intro parts m p _; rfl
  | cons q ps ih =>
    intro parts m p hp
    cases parts with
    | nil => rfl
    | cons a0 as =>
      rw [List.mem_cons, not_or] at hp
      simp only [List.zip_cons_cons, List.foldl_cons]
      rw [ih as _ p hp.2, GoMap.get_set_ne _ _ _ _ (fun e => hp.1 e.symm)]

theorem live_slot_empty (d : FusedDispatcher) (hinv : FusedInv d) (b : Nat)
    (hb : b < d.heap.length) (hl : (getBatch d.heap b).done = false) (p : Str) :
    getStr (getBatch d.heap b).prompts p = [] := by
  cases hg : GoMap.get (getBatch d.heap b).prompts p with
  | none => simp [getStr, hg]
  | some v =>
    have hp : p ∈ GoMap.keys (getBatch d.heap b).prompts := (mem_keys_iff_get _ _).2 ⟨v, hg⟩
    have := ((hinv.live_slots b hb hl).2 p hp).1
    simp [getStr, this]

theorem FusedInv_fail (d : FusedDispatcher) (it : fusedWorkItem) (msg : Str)
    (err : Option GoError) (hinv : FusedInv d) (hit : it ∈ d.calling) :
    FusedInv (failBatch { d with calling := d.calling.erase it } it.text it.b msg err) := by
  have hitem := hinv.items_wf it (List.mem_append_left _ hit)
  obtain ⟨hblt, hbtext, hblive⟩ := hinv.inflight_wf it.text it.b hitem.1
  generalize hd0 : ({ d with calling := d.calling.erase it } : FusedDispatcher) = d0
  have hheap0 : d0.heap = d.heap := by rw [← hd0]
  have hb0 : it.b < d0.heap.length := by rw [hheap0]; exact hblt
  have hbatch := failBatch_batch d0 it.text it.b msg err hb0
  rw [hheap0] at hbatch
  have hdbg0 : d0.debug = d.debug := by rw [← hd0]
  refine FusedInv_complete d _ it hinv hit ?_ ?_ ?_ ?_ ?_ ?_ ?_ ?_ ?_ ?_ ?_ ?_ ?_
  · rw [(heap_length_blocks d0 it.text it.b).1, hheap0]
  · intro b2 h
    rw [(getBatch_blocks_ne d0 it.text it.b b2 h).1, hheap0]
  · rw [hbatch]
  · rw [hbatch]
    unfold setAll
    split <;> exact hbtext
  · rw [← hd0]; rfl
  · rw [← hd0]; rfl
  · rw [← hd0]; rfl
  · rw [← hd0]; rfl
  · rw [← hd0]; rfl
  · intro t2 p _
    rw [← hd0]; rfl
  · intro p a h
    rw [← hd0]; exact h
  · intro p a h
    rw [← hd0] at h
    exact hinv.cache_nonempty _ _ _ h
  · intro hdb p hp
    exfalso
    apply hp
    rw [hbatch]
    simp only [setAll, hdbg0, hdb, Bool.false_eq_true, if_false]
    exact live_slot_empty d hinv it.b hblt hblive p

theorem FusedInv_mismatch (d : FusedDispatcher) (it : fusedWorkItem) (diag : Str)
    (err : GoError) (hinv : FusedInv d) (hit : it ∈ d.calling) :
    FusedInv (mismatchBatch { d with calling := d.calling.erase it } it.text it.b diag err) := by
  have hitem := hinv.items_wf it (List.mem_append_left _ hit)
  obtain ⟨hblt, hbtext, hblive⟩ := hinv.inflight_wf it.text it.b hitem.1
  generalize hd0 : ({ d with calling := d.calling.erase it } : FusedDispatcher) = d0
  have hheap0 : d0.heap = d.heap := by rw [← hd0]
  have hb0 : it.b < d0.heap.length := by rw [hheap0]; exact hblt
  have hbatch := mismatchBatch_batch d0 it.text it.b diag err hb0
  rw [hheap0] at hbatch
  have hdbg0 : d0.debug = d.debug := by rw [← hd0]
  refine FusedInv_complete d _ it hinv hit ?_ ?_ ?_ ?_ ?_ ?_ ?_ ?_ ?_ ?_ ?_ ?_ ?_
  · rw [(heap_length_blocks d0 it.text it.b).2.1, hheap0]
  · intro b2 h
    rw [(getBatch_blocks_ne d0 it.text it.b b2 h).2.1, hheap0]
  · rw [hbatch]
    split <;> rfl
  · rw [hbatch]
    split <;> exact hbtext
  · rw [← hd0]; rfl
  · rw [← hd0]; rfl
  · rw [← hd0]; rfl
  · rw [← hd0]; rfl
  · rw [← hd0]; rfl
  · intro t2 p _
    rw [← hd0]; rfl
  · intro p a h
    rw [← hd0]; exact h
  · intro p a h
    rw [← hd0] at h
    exact hinv.cache_nonempty _ _ _ h
  · intro hdb p hp
    exfalso
    apply hp
    rw [hbatch]
    simp only [hdbg0, hdb, Bool.false_eq_true, if_false]
    exact live_slot_empty d hinv it.b hblt hblive p

theorem FusedInv_succeed (d : FusedDispatcher) (it : fusedWorkItem) (parts : List Str)
    (hinv : FusedInv d) (hit : it ∈ d.calling) :
    FusedInv (succeedBatch { d with calling := d.calling.erase it } it.text it.b
      it.promptList parts) := by
  have hitem := hinv.items_wf it (List.mem_append_left _ hit)
  obtain ⟨hblt, hbtext, hblive⟩ := hinv.inflight_wf it.text it.b hitem.1
  obtain ⟨hkeys, hslots⟩ := hinv.live_slots it.b hblt hblive
  generalize hd0 : ({ d with calling := d.calling.erase it } : FusedDispatcher) = d0
  have hheap0 : d0.heap = d.heap := by rw [← hd0]
  have hcache0 : d0.cache = d.cache := by rw [← hd0]
  have hb0 : it.b < d0.heap.length := by rw [hheap0]; exact hblt
  have hbatch := succeedBatch_batch d0 it.text it.b it.promptList parts hb0
  have hcache := succeedBatch_cache d0 it.text it.b it.promptList parts hb0
  rw [hheap0] at hbatch
  rw [hheap0, hcache0] at hcache
  have hkeys2 := zipSet_keys it.promptList parts (getBatch d.heap it.b).prompts hkeys
  -- the new answers: every value written into a slot is a non-empty part
  have hval : ∀ p v, GoMap.get ((it.promptList.zip parts).foldl
      (fun m e => GoMap.set m e.1 e.2) (getBatch d.heap it.b).prompts) p = some v →
      p ∈ GoMap.keys (getBatch d.heap it.b).prompts := by
    intro p v hv
    by_cases hp : p ∈ it.promptList
    · exact hitem.2 p hp
    · rw [zipSet_get_notin _ _ _ _ hp] at hv
      exact (mem_keys_iff_get _ _).2 ⟨v, hv⟩
  have hinner : ∀ p, GoMap.get ((GoMap.get d.cache it.text).getD []) p
      = cacheGet d.cache it.text p := by
    intro p
    unfold cacheGet
    cases GoMap.get d.cache it.text <;> rfl
  have hnew : ∀ p, cacheGet (succeedBatch d0 it.text it.b it.promptList parts).cache it.text p
      = match GoMap.get ((it.promptList.zip parts).foldl
          (fun m e => GoMap.set m e.1 e.2) (getBatch d.heap it.b).prompts) p with
        | some a => if a ≠ [] then some a else cacheGet d.cache it.text p
        | none => cacheGet d.cache it.text p := by
    intro p
    rw [hcache, cacheGet_set, if_pos rfl, cacheAnswers_get _ _ _ hkeys2, hinner]
  refine FusedInv_complete d _ it hinv hit ?_ ?_ ?_ ?_ ?_ ?_ ?_ ?_ ?_ ?_ ?_ ?_ ?_
  · rw [(heap_length_blocks d0 it.text it.b).2.2, hheap0]
  · intro b2 h
    rw [(getBatch_blocks_ne d0 it.text it.b b2 h).2.2, hheap0]
  · rw [hbatch]
  · rw [hbatch]
    exact hbtext
  · rw [← hd0]; rfl
  · rw [← hd0]; rfl
  · rw [← hd0]; rfl
  · rw [← hd0]; rfl
  · rw [← hd0]; rfl
  · intro t2 p ht
    rw [hcache, cacheGet_set, if_neg (fun e => ht e.symm)]
  · intro p a h
    rw [hnew]
    cases hg : GoMap.get ((it.promptList.zip parts).foldl
        (fun m e => GoMap.set m e.1 e.2) (getBatch d.heap it.b).prompts) p with
    | none => exact h
    | some v =>
      have := (hslots p (hval p v hg)).2
      rw [hbtext, h] at this
      cases this
  · intro p a h
    rw [hnew] at h
    cases hg : GoMap.get ((it.promptList.zip parts).foldl
        (fun m e => GoMap.set m e.1 e.2) (getBatch d.heap it.b).prompts) p with
    | none =>
      rw [hg] at h
      exact hinv.cache_nonempty _ _ _ h
    | some v =>
      rw [hg] at h
      by_cases hv : v = []
      · simp only [hv, ne_eq, not_true_eq_false, if_false] at h
        exact hinv.cache_nonempty _ _ _ h
      · simp only [hv, ne_eq, not_false_eq_true, if_true, Option.some.injEq] at h
        rw [← h]; exact hv
  · intro _ p hp
    rw [hnew]
    rw [hbatch] at hp ⊢
    simp only at hp ⊢
    cases hg : GoMap.get ((it.promptList.zip parts).foldl
        (fun m e => GoMap.set m e.1 e.2) (getBatch d.heap it.b).prompts) p with
    | none =>
      exfalso
      apply hp
      simp [getStr, hg]
    | some v =>
      have hv : v ≠ [] := by
        intro e
        apply hp
        simp [getStr, hg, e]
      simp [getStr, hg, hv]

/-- The invariant looks at the heap only through the text, the done flag and
the prompts of each batch, at the two tables only through their reads, and at
the held and queued work only as a collection. -/
theorem FusedInv_view (d d2 : FusedDispatcher) (hinv : FusedInv d)
    (hlen : d2.heap.length = d.heap.length)
    (hbv : ∀ b, (getBatch d2.heap b).text = (getBatch d.heap b).text
      ∧ (getBatch d2.heap b).done = (getBatch d.heap b).done
      ∧ (getBatch d2.heap b).prompts = (getBatch d.heap b).prompts)
    (hbat : ∀ t, GoMap.get d2.batches t = GoMap.get d.batches t)
    (hinf : ∀ t, GoMap.get d2.inflight t = GoMap.get d.inflight t)
    (hcache : d2.cache = d.cache)
    (hitems : (d2.calling ++ d2.workCh).Perm (d.calling ++ d.workCh))
    (hdebug : d2.debug = d.debug) : FusedInv d2 := by
  refine ⟨?_, ?_, ?_, ?_, ?_, ?_, ?_, ?_⟩
  · intro t b hg
    rw [hbat] at hg
    rw [hlen, (hbv b).1, (hbv b).2.1, hinf]
    exact hinv.batches_wf t b hg
  · intro t b hg
    rw [hinf] at hg
    rw [hlen, (hbv b).1, (hbv b).2.1]
    exact hinv.inflight_wf t b hg
  · intro b hb hl
    rw [hlen] at hb
    rw [(hbv b).2.1] at hl
    rw [(hbv b).1, hbat, hinf]
    exact hinv.live_reg b hb hl
  · intro b hb hl
    rw [hlen] at hb
    rw [(hbv b).2.1] at hl
    rw [(hbv b).1, (hbv b).2.2, hcache]
    exact hinv.live_slots b hb hl
  · intro it hit
    rw [hinf, (hbv it.b).2.2]
    exact hinv.items_wf it (hitems.mem_iff.1 hit)
  · exact ((hitems.map _).nodup_iff).2 hinv.items_nodup
  · intro hdb b hb hd p hp
    rw [hdebug] at hdb
    rw [hlen] at hb
    rw [(hbv b).2.1] at hd
    rw [(hbv b).2.2] at hp
    rw [(hbv b).1, (hbv b).2.2, hcache]
    exact hinv.done_cached hdb b hb hd p hp
  · intro t p a hg
    rw [hcache] at hg
    exact hinv.cache_nonempty t p a hg

theorem GoMap.get_delete_absent {V : Type} (m : GoMap V) (k : Str)
    (h : GoMap.get m k = none) (k2 : Str) :
    GoMap.get (GoMap.delete m k) k2 = GoMap.get m k2 := by
  by_cases hk : k = k2
  · subst hk
    rw [GoMap.get_delete_self, h]
  · exact GoMap.get_delete_ne m k k2 hk

/-- Adding a piece of work for a text whose batch is in flight and which has no
work yet keeps the invariant. -/
theorem FusedInv_add_item (d d2 : FusedDispatcher) (it : fusedWorkItem) (hinv : FusedInv d)
    (hheap : d2.heap = d.heap) (hbat : d2.batches = d.batches) (hinf : d2.inflight = d.inflight)
    (hcache : d2.cache = d.cache) (hdebug : d2.debug = d.debug)
    (hitems : (d2.calling ++ d2.workCh).Perm (it :: (d.calling ++ d.workCh)))
    (hwf : GoMap.get d.inflight it.text = some it.b)
    (hpl : ∀ p ∈ it.promptList, p ∈ GoMap.keys (getBatch d.heap it.b).prompts)
    (hnew : ∀ it2 ∈ d.calling ++ d.workCh, it2.text ≠ it.text) : FusedInv d2 := by
  refine ⟨?_, ?_, ?_, ?_, ?_, ?_, ?_, ?_⟩
  · intro t b hg
    rw [hbat] at hg
    rw [hheap, hinf]
    exact hinv.batches_wf t b hg
  · intro t b hg
    rw [hinf] at hg
    rw [hheap]
    exact hinv.inflight_wf t b hg
  · intro b hb hl
    rw [hheap] at hb hl ⊢
    rw [hbat, hinf]
    exact hinv.live_reg b hb hl
  · intro b hb hl
    rw [hheap] at hb hl ⊢
    rw [hcache]
    exact hinv.live_slots b hb hl
  · intro it2 hit2
    rw [hinf, hheap]
    rcases List.mem_cons.1 (hitems.mem_iff.1 hit2) with h | h
    · subst h
      exact ⟨hwf, hpl⟩
    · exact hinv.items_wf it2 h
  · rw [(hitems.map _).nodup_iff, List.map_cons, List.nodup_cons]
    refine ⟨?_, hinv.items_nodup⟩
    intro hm
    obtain ⟨it2, h2, e⟩ := List.mem_map.1 hm
    exact hnew it2 h2 e
  · intro hdb b hb hd p hp
    rw [hdebug] at hdb
    rw [hheap] at hb hd hp ⊢
    rw [hcache]
    exact hinv.done_cached hdb b hb hd p hp
  · intro t p a hg
    rw [hcache] at hg
    exact hinv.cache_nonempty t p a hg

/-- The first locked section of `flushText`: the collecting batch of the text
becomes the in-flight batch. -/
theorem FusedInv_move (d : FusedDispatcher) (hinv : FusedInv d) (t : Str) (b : Nat)
    (hg : GoMap.get d.batches t = some b) :
    FusedInv { d with batches := GoMap.delete d.batches t,
                      inflight := GoMap.set d.inflight t b } := by
  obtain ⟨hblt, hbtext, hblive, hinfnone⟩ := hinv.batches_wf t b hg
  refine ⟨?_, ?_, ?_, ?_, ?_, ?_, ?_, ?_⟩
  · intro t2 b2 hg2
    simp only at hg2 ⊢
    have hne : t ≠ t2 := by
      intro e; rw [← e, GoMap.get_delete_self] at hg2; cases hg2
    rw [GoMap.get_delete_ne _ _ _ hne] at hg2
    rw [GoMap.get_set_ne _ _ _ _ hne]
    exact hinv.batches_wf t2 b2 hg2
  · intro t2 b2 hg2
    simp only at hg2 ⊢
    rw [GoMap.get_set] at hg2
    by_cases hne : t = t2
    · rw [if_pos hne] at hg2
      cases hg2
      rw [← hne]
      exact ⟨hblt, hbtext, hblive⟩
    · rw [if_neg hne] at hg2
      exact hinv.inflight_wf t2 b2 hg2
  · intro b2 hb2 hl
    simp only at hb2 hl ⊢
    by_cases hte : (getBatch d.heap b2).text = t
    · right
      rw [hte, GoMap.get_set_self]
      rcases hinv.live_reg b2 hb2 hl with h | h
      · rw [hte, hg] at h
        exact h
      · rw [hte, hinfnone] at h
        cases h
    · rw [GoMap.get_delete_ne _ _ _ (fun e => hte e.symm),
        GoMap.get_set_ne _ _ _ _ (fun e => hte e.symm)]
      exact hinv.live_reg b2 hb2 hl
  · intro b2 hb2 hl
    exact hinv.live_slots b2 hb2 hl
  · intro it hit
    simp only at hit ⊢
    obtain ⟨h1, h2⟩ := hinv.items_wf it hit
    have hne : t ≠ it.text := by
      intro e; rw [← e, hinfnone] at h1; cases h1
    rw [GoMap.get_set_ne _ _ _ _ hne]
    exact ⟨h1, h2⟩
  · exact hinv.items_nodup
  · intro hdb b2 hb2 hd p hp
    exact hinv.done_cached hdb b2 hb2 hd p hp
  · intro t2 p a hg2
    exact hinv.cache_nonempty t2 p a hg2

theorem erase_append_singleton {α : Type} [DecidableEq α] (l : List α) (a : α) (h : a ∉ l) :
    (l ++ [a]).erase a = l := by
  rw [List.erase_append_right _ h]
  simp

/-- No work is held or queued for a text that has no in-flight batch. -/
theorem no_item_of_not_inflight (d : FusedDispatcher) (hinv : FusedInv d) (t : Str)
    (h : GoMap.get d.inflight t = none) : ∀ it ∈ d.calling ++ d.workCh, it.text ≠ t := by
  intro it hit e
  have := (hinv.items_wf it hit).1
  rw [e, h] at this
  cases this

/-- A temporary piece of work for an in-flight batch without work. -/
theorem FusedInv_temp_item (d : FusedDispatcher) (hinv : FusedInv d) (t : Str) (b : Nat)
    (hg : GoMap.get d.inflight t = some b)
    (hnew : ∀ it ∈ d.calling ++ d.workCh, it.text ≠ t) :
    FusedInv { d with calling := d.calling ++
        [{ text := t, promptList := [], fusedPrompt := [], b := b }] }
    ∧ ({ text := t, promptList := [], fusedPrompt := [], b := b } : fusedWorkItem) ∉ d.calling := by
  constructor
  · refine FusedInv_add_item d _ { text := t, promptList := [], fusedPrompt := [], b := b } hinv
      rfl rfl rfl rfl rfl ?_ hg ?_ hnew
    · simp only
      rw [List.append_assoc]
      exact (List.perm_middle).trans (List.Perm.refl _)
    · intro p hp
      exact absurd hp (List.not_mem_nil _)
  · intro hm
    exact hnew _ (List.mem_append_left _ hm) rfl

theorem flushTextBegin_some (d d1 d2 : FusedDispatcher) (t : Str) (b : Nat)
    (hg : GoMap.get d.batches t = some b)
    (hd1 : d1 = { d with batches := GoMap.delete d.batches t, inflight := GoMap.set d.inflight t b })
    (hd2 : d2 = { d1 with heap := updBatch d1.heap b (fun x => { x with frozen := true }) })
    (pl : List Str)
    (hpl : pl = (getBatch d2.heap b).order.filter
      (fun p => (GoMap.get (getBatch d2.heap b).prompts p).isSome)) :
    (flushTextBegin d t).1 =
      if d.client = false then
        failBatch d1 t b "ERR:client_nil".toList (some "single client is nil".toList)
      else if pl.length = 0 then releaseBatch d2 t b
      else if d.multiEnabled = true then
        { d2 with workCh := d2.workCh ++
            [{ text := t, promptList := pl, fusedPrompt := Join pl d.sep, b := b }] }
      else
        { d2 with calling := d2.calling ++
            [{ text := t, promptList := pl, fusedPrompt := Join pl d.sep, b := b }] } := by
  subst hd1
  subst hd2
  subst hpl
  unfold flushTextBegin
  rw [hg]
  dsimp only
  split
  · rfl
  · split
    · rfl
    · split <;> rfl

theorem FusedInv_flush (d : FusedDispatcher) (hinv : FusedInv d) (t : Str) :
    FusedInv (flushTextBegin d t).1 := by
  cases hg : GoMap.get d.batches t with
  | none =>
    have : (flushTextBegin d t).1 = { d with batches := GoMap.delete d.batches t } := by
      unfold flushTextBegin
      rw [hg]
    rw [this]
    exact FusedInv_view d _ hinv rfl (fun b => ⟨rfl, rfl, rfl⟩)
      (fun t2 => GoMap.get_delete_absent _ _ hg t2) (fun _ => rfl) rfl (List.Perm.refl _) rfl
  | some b =>
    obtain ⟨hblt, hbtext, hblive, hinfnone⟩ := hinv.batches_wf t b hg
    have hmove := FusedInv_move d hinv t b hg
    have hnoitem := no_item_of_not_inflight d hinv t hinfnone
    obtain ⟨d1, hd1⟩ : ∃ d1 : FusedDispatcher, d1 = { d with batches := GoMap.delete d.batches t, inflight := GoMap.set d.inflight t b } := ⟨_, rfl⟩
    obtain ⟨d2, hd2⟩ : ∃ d2 : FusedDispatcher, d2 = { d1 with heap := updBatch d1.heap b (fun x => { x with frozen := true }) } := ⟨_, rfl⟩
    obtain ⟨pl, hpleq⟩ : ∃ pl : List Str, pl = (getBatch d2.heap b).order.filter (fun p => (GoMap.get (getBatch d2.heap b).prompts p).isSome) := ⟨_, rfl⟩
    rw [flushTextBegin_some d d1 d2 t b hg hd1 hd2 pl hpleq]
    rw [← hd1] at hmove
    have hheap1 : d1.heap = d.heap := by rw [hd1]
    have hinf1 : GoMap.get d1.inflight t = some b := by
      rw [hd1]; exact GoMap.get_set_self _ _ _
    have hitems1 : d1.calling ++ d1.workCh = d.calling ++ d.workCh := by rw [hd1]
    have hnoitem1 : ∀ it ∈ d1.calling ++ d1.workCh, it.text ≠ t := by
      rw [hitems1]; exact hnoitem
    by_cases hc : d.client = false
    · rw [if_pos hc]
      obtain ⟨htmp, hnotin⟩ := FusedInv_temp_item d1 hmove t b hinf1 hnoitem1
      have := FusedInv_fail _ { text := t, promptList := [], fusedPrompt := [], b := b }
        "ERR:client_nil".toList (some "single client is nil".toList) htmp (by simp)
      simp only [erase_append_singleton _ _ hnotin] at this
      exact this
    · rw [if_neg hc]
      have hb2 : ∀ b2, (getBatch d2.heap b2).text = (getBatch d1.heap b2).text
          ∧ (getBatch d2.heap b2).done = (getBatch d1.heap b2).done
          ∧ (getBatch d2.heap b2).prompts = (getBatch d1.heap b2).prompts := by
        intro b2
        rw [hd2]
        by_cases hbe : b2 = b
        · subst hbe
          simp only
          rw [getBatch_updBatch_self _ _ _ (by rw [hheap1]; exact hblt)]
          exact ⟨rfl, rfl, rfl⟩
        · simp only
          rw [getBatch_updBatch_ne _ _ _ _ hbe]
          exact ⟨rfl, rfl, rfl⟩
      have hlen2 : d2.heap.length = d1.heap.length := by
        rw [hd2]; exact length_updBatch _ _ _
      have hinv2 : FusedInv d2 :=
        FusedInv_view d1 d2 hmove hlen2 hb2 (fun _ => by rw [hd2]) (fun _ => by rw [hd2])
          (by rw [hd2]) (by rw [hd2]) (by rw [hd2])
      have hinf2 : GoMap.get d2.inflight t = some b := by rw [hd2]; exact hinf1
      have hnoitem2 : ∀ it ∈ d2.calling ++ d2.workCh, it.text ≠ t := by
        rw [hd2]; exact hnoitem1
      have hblt2 : b < d2.heap.length := by rw [hlen2, hheap1]; exact hblt
      have hlive2 : (getBatch d2.heap b).done = false := by
        rw [(hb2 b).2.1, hheap1]; exact hblive
      have htext2 : (getBatch d2.heap b).text = t := by
        rw [(hb2 b).1, hheap1]; exact hbtext
      split
      · -- no prompt: the batch is released at once
        obtain ⟨htmp, hnotin⟩ := FusedInv_temp_item d2 hinv2 t b hinf2 hnoitem2
        refine FusedInv_complete _ (releaseBatch d2 t b)
          { text := t, promptList := [], fusedPrompt := [], b := b } htmp (by simp)
          ?_ ?_ ?_ ?_ rfl rfl rfl ?_ rfl (fun _ _ _ => rfl) (fun _ _ h => h)
          (fun p a h => hinv2.cache_nonempty _ _ _ h) ?_
        · simp only [releaseBatch, length_updBatch]
        · intro b2 hne
          simp only [releaseBatch]
          exact getBatch_updBatch_ne _ _ _ _ hne
        · simp only [releaseBatch]
          rw [getBatch_updBatch_self _ _ _ hblt2]
        · simp only [releaseBatch]
          rw [getBatch_updBatch_self _ _ _ hblt2]
          exact htext2
        · simp only [releaseBatch]
          rw [erase_append_singleton _ _ hnotin]
        · intro _ p hp
          exfalso
          apply hp
          simp only [releaseBatch]
          rw [getBatch_updBatch_self _ _ _ hblt2]
          exact live_slot_empty d2 hinv2 b hblt2 hlive2 p
      · have hpl : ∀ p ∈ pl, p ∈ GoMap.keys (getBatch d2.heap b).prompts := by
          intro p hp
          rw [hpleq] at hp
          have := (List.mem_filter.1 hp).2
          rw [mem_keys_iff_get]
          exact Option.isSome_iff_exists.1 this
        split
        · refine FusedInv_add_item d2 _
            { text := t, promptList := pl, fusedPrompt := Join pl d.sep, b := b }
            hinv2 rfl rfl rfl rfl rfl ?_ hinf2 hpl hnoitem2
          simp only
          rw [← List.append_assoc]
          exact List.perm_append_singleton _ _
        · refine FusedInv_add_item d2 _
            { text := t, promptList := pl, fusedPrompt := Join pl d.sep, b := b }
            hinv2 rfl rfl rfl rfl rfl ?_ hinf2 hpl hnoitem2
          simp only
          rw [List.append_assoc]
          exact List.perm_middle

theorem FusedInv_register (d : FusedDispatcher) (hinv : FusedInv d) (t p : Str) (b : Nat)
    (hg : GoMap.get d.batches t = some b) (hmiss : cacheGet d.cache t p = none) :
    FusedInv { d with heap := updBatch d.heap b (registerPrompt p) } := by
  obtain ⟨hblt, hbtext, hblive, hinfnone⟩ := hinv.batches_wf t b hg
  have hlen : (updBatch d.heap b (registerPrompt p)).length = d.heap.length := length_updBatch _ _ _
  have hself : getBatch (updBatch d.heap b (registerPrompt p)) b
      = registerPrompt p (getBatch d.heap b) := getBatch_updBatch_self _ _ _ hblt
  have htd : ∀ b2, (getBatch (updBatch d.heap b (registerPrompt p)) b2).text
        = (getBatch d.heap b2).text
      ∧ (getBatch (updBatch d.heap b (registerPrompt p)) b2).done = (getBatch d.heap b2).done := by
    intro b2
    by_cases hbe : b2 = b
    · subst hbe
      rw [hself]
      unfold registerPrompt
      split <;> exact ⟨rfl, rfl⟩
    · rw [getBatch_updBatch_ne _ _ _ _ hbe]
      exact ⟨rfl, rfl⟩
  have hkeys : ∀ b2 q, q ∈ GoMap.keys (getBatch d.heap b2).prompts →
      q ∈ GoMap.keys (getBatch (updBatch d.heap b (registerPrompt p)) b2).prompts := by
    intro b2 q hq
    by_cases hbe : b2 = b
    · subst hbe
      rw [hself]
      unfold registerPrompt
      split
      · exact hq
      · exact (GoMap.mem_keys_set _ _ _ _).2 (Or.inr hq)
    · rw [getBatch_updBatch_ne _ _ _ _ hbe]
      exact hq
  refine ⟨?_, ?_, ?_, ?_, ?_, ?_, ?_, ?_⟩
  · intro t2 b2 hg2
    simp only at hg2 ⊢
    rw [hlen, (htd b2).1, (htd b2).2]
    exact hinv.batches_wf t2 b2 hg2
  · intro t2 b2 hg2
    simp only at hg2 ⊢
    rw [hlen, (htd b2).1, (htd b2).2]
    exact hinv.inflight_wf t2 b2 hg2
  · intro b2 hb2 hl
    simp only at hb2 hl ⊢
    rw [hlen] at hb2
    rw [(htd b2).2] at hl
    rw [(htd b2).1]
    exact hinv.live_reg b2 hb2 hl
  · intro b2 hb2 hl
    simp only at hb2 hl ⊢
    rw [hlen] at hb2
    rw [(htd b2).2] at hl
    rw [(htd b2).1]
    obtain ⟨h1, h2⟩ := hinv.live_slots b2 hb2 hl
    by_cases hbe : b2 = b
    · subst hbe
      rw [hself]
      unfold registerPrompt
      split
      · exact ⟨h1, h2⟩
      · refine ⟨GoMap.nodup_keys_set _ _ _ h1, ?_⟩
        intro q hq
        simp only at hq ⊢
        rcases (GoMap.mem_keys_set _ _ _ _).1 hq with h | h
        · subst h
          rw [GoMap.get_set_self, hbtext]
          exact ⟨rfl, hmiss⟩
        · by_cases hqp : p = q
          · subst hqp
            rw [GoMap.get_set_self, hbtext]
            exact ⟨rfl, hmiss⟩
          · rw [GoMap.get_set_ne _ _ _ _ hqp]
            exact h2 q h
    · rw [getBatch_updBatch_ne _ _ _ _ hbe]
      exact ⟨h1, h2⟩
  · intro it hit
    simp only at hit ⊢
    obtain ⟨h1, h2⟩ := hinv.items_wf it hit
    exact ⟨h1, fun q hq => hkeys _ q (h2 q hq)⟩
  · exact hinv.items_nodup
  · intro hdb b2 hb2 hd q hq
    simp only at hdb hb2 hd hq ⊢
    rw [hlen] at hb2
    have hbe : b2 ≠ b := by
      intro e
      rw [(htd b2).2, e, hblive] at hd
      cases hd
    rw [getBatch_updBatch_ne _ _ _ _ hbe] at hd hq ⊢
    exact hinv.done_cached hdb b2 hb2 hd q hq
  · intro t2 q a hg2
    exact hinv.cache_nonempty t2 q a hg2

theorem FusedInv_alloc (d : FusedDispatcher) (hinv : FusedInv d) (t : Str)
    (hb : GoMap.get d.batches t = none) (hi : GoMap.get d.inflight t = none) :
    FusedInv { d with heap := d.heap ++ [newBatch t],
                      batches := GoMap.set d.batches t d.heap.length } := by
  have hold : ∀ b2, b2 < d.heap.length →
      getBatch (d.heap ++ [newBatch t]) b2 = getBatch d.heap b2 :=
    fun b2 h => getBatch_append_lt _ _ _ h
  have hnew : getBatch (d.heap ++ [newBatch t]) d.heap.length = newBatch t :=
    getBatch_append_new _ _
  have hlen : (d.heap ++ [newBatch t]).length = d.heap.length + 1 := by simp
  refine ⟨?_, ?_, ?_, ?_, ?_, ?_, ?_, ?_⟩
  · intro t2 b2 hg2
    simp only at hg2 ⊢
    rw [GoMap.get_set] at hg2
    by_cases hte : t = t2
    · rw [if_pos hte] at hg2
      cases hg2
      rw [hlen, hnew, ← hte]
      exact ⟨Nat.lt_succ_self _, rfl, rfl, hi⟩
    · rw [if_neg hte] at hg2
      obtain ⟨h1, h2, h3, h4⟩ := hinv.batches_wf t2 b2 hg2
      rw [hlen, hold b2 h1]
      exact ⟨Nat.lt_succ_of_lt h1, h2, h3, h4⟩
  · intro t2 b2 hg2
    simp only at hg2 ⊢
    obtain ⟨h1, h2, h3⟩ := hinv.inflight_wf t2 b2 hg2
    rw [hlen, hold b2 h1]
    exact ⟨Nat.lt_succ_of_lt h1, h2, h3⟩
  · intro b2 hb2 hl
    simp only at hb2 hl ⊢
    rw [hlen] at hb2
    by_cases hbe : b2 = d.heap.length
    · subst hbe
      rw [hnew]
      left
      exact GoMap.get_set_self _ _ _
    · have hlt : b2 < d.heap.length := by omega
      rw [hold b2 hlt] at hl ⊢
      have hreg := hinv.live_reg b2 hlt hl
      have hte : t ≠ (getBatch d.heap b2).text := by
        intro e
        rw [← e, hb, hi] at hreg
        rcases hreg with h | h <;> cases h
      rw [GoMap.get_set_ne _ _ _ _ hte]
      exact hreg
  · intro b2 hb2 hl
    simp only at hb2 hl ⊢
    rw [hlen] at hb2
    by_cases hbe : b2 = d.heap.length
    · subst hbe
      rw [hnew]
      refine ⟨List.nodup_nil, ?_⟩
      intro q hq
      exact absurd hq (List.not_mem_nil _)
    · have hlt : b2 < d.heap.length := by omega
      rw [hold b2 hlt] at hl ⊢
      exact hinv.live_slots b2 hlt hl
  · intro it hit
    simp only at hit ⊢
    obtain ⟨h1, h2⟩ := hinv.items_wf it hit
    rw [hold it.b (hinv.inflight_wf it.text it.b h1).1]
    exact ⟨h1, h2⟩
  · exact hinv.items_nodup
  · intro hdb b2 hb2 hd q hq
    simp only at hdb hb2 hd hq ⊢
    rw [hlen] at hb2
    by_cases hbe : b2 = d.heap.length
    · subst hbe
      rw [hnew] at hd
      cases hd
    · have hlt : b2 < d.heap.length := by omega
      rw [hold b2 hlt] at hd hq ⊢
      exact hinv.done_cached hdb b2 hlt hd q hq
  · intro t2 q a hg2
    exact hinv.cache_nonempty t2 q a hg2

/-- Go `GetResult`, one pass, by cases. -/
theorem GetResultEnter_eq (d : FusedDispatcher) (t p : Str) :
    GetResultEnter d t p =
      if (cacheGet d.cache t p).getD [] ≠ [] then
        (d, GetStep.hit ((cacheGet d.cache t p).getD []), false)
      else
        match GoMap.get d.inflight t with
        | some inb =>
            if (GoMap.get (getBatch d.heap inb).prompts p).isSome
            then (d, GetStep.waitIncluded inb, false)
            else (d, GetStep.waitOther inb, false)
        | none =>
            match GoMap.get d.batches t with
            | some b =>
                if (getBatch d.heap b).frozen = false then
                  ({ d with heap := updBatch d.heap b (registerPrompt p) },
                    GetStep.waitRegistered b, false)
                else (d, GetStep.waitFrozen b, false)
            | none =>
                ({ d with
                    heap := updBatch (d.heap ++ [newBatch t]) d.heap.length (registerPrompt p)
                    batches := GoMap.set d.batches t d.heap.length },
                  GetStep.waitRegistered d.heap.length, true) := by
  have hcached : (match GoMap.get d.cache t with
      | some mp => getStr mp p
      | none => []) = (cacheGet d.cache t p).getD [] := by
    unfold cacheGet getStr
    cases GoMap.get d.cache t <;> rfl
  unfold GetResultEnter
  simp only [hcached]
  split
  · rfl
  · cases hi : GoMap.get d.inflight t with
    | some inb => rfl
    | none =>
      cases hb : GoMap.get d.batches t with
      | some b => rfl
      | none =>
        simp only
        rw [getBatch_append_new]
        rfl

theorem FusedInv_enter (d : FusedDispatcher) (hinv : FusedInv d) (t p : Str) :
    FusedInv (GetResultEnter d t p).1 := by
  rw [GetResultEnter_eq]
  split
  · exact hinv
  · rename_i hmiss
    rw [not_not] at hmiss
    have hnone : cacheGet d.cache t p = none := by
      cases hc : cacheGet d.cache t p with
      | none => rfl
      | some a =>
        rw [hc] at hmiss
        simp only [Option.getD_some] at hmiss
        exact absurd hmiss (hinv.cache_nonempty t p a hc)
    cases hi : GoMap.get d.inflight t with
    | some inb =>
      simp only
      split <;> exact hinv
    | none =>
      cases hb : GoMap.get d.batches t with
      | some b =>
        simp only
        split
        · exact FusedInv_register d hinv t p b hb hnone
        · exact hinv
      | none =>
        simp only
        have halloc := FusedInv_alloc d hinv t hb hi
        have := FusedInv_register _ halloc t p d.heap.length (GoMap.get_set_self _ _ _) hnone
        exact this

theorem FusedInv_step (d d2 : FusedDispatcher) (hinv : FusedInv d) (hs : FusedStep d d2) :
    FusedInv d2 := by
  cases hs with
  | enter text prompt => exact FusedInv_enter d hinv text prompt
  | flush text => exact FusedInv_flush d hinv text
  | take k =>
    refine FusedInv_view d _ hinv rfl (fun b => ⟨rfl, rfl, rfl⟩) (fun _ => rfl) (fun _ => rfl)
      rfl ?_ rfl
    simp only
    rw [List.append_assoc, List.take_append_drop]
  | call payload =>
    exact FusedInv_view d _ hinv rfl (fun b => ⟨rfl, rfl, rfl⟩) (fun _ => rfl) (fun _ => rfl)
      rfl (List.Perm.refl _) rfl
  | fail it msg err hit => exact FusedInv_fail d it msg err hinv hit
  | mismatch it diag err hit => exact FusedInv_mismatch d it diag err hinv hit
  | succeed it parts hit _ _ => exact FusedInv_succeed d it parts hinv hit

theorem FusedInv_reach (d d2 : FusedDispatcher) (hinv : FusedInv d) (hr : FusedReach d d2) :
    FusedInv d2 := by
  induction hr with
  | refl => exact hinv
  | tail _ hs ih => exact FusedInv_step _ _ ih hs

theorem FusedInv_new (e : FusedEnv) (client : Bool) (sep : Str) :
    FusedInv (NewFusedDispatcher e client sep) := by
  refine ⟨?_, ?_, ?_, ?_, ?_, ?_, ?_, ?_⟩
  · intro t b h; cases h
  · intro t b h; cases h
  · intro b hb; exact absurd hb (Nat.not_lt_zero _)
  · intro b hb; exact absurd hb (Nat.not_lt_zero _)
  · intro it hit; exact absurd hit (List.not_mem_nil _)
  · exact List.nodup_nil
  · intro _ b hb; exact absurd hb (Nat.not_lt_zero _)
  · intro t p a h; cases h

theorem debug_step (d d2 : FusedDispatcher) (hs : FusedStep d d2) : d2.debug = d.debug := by
  cases hs with
  | enter text prompt =>
    rw [GetResultEnter_eq]
    split
    · rfl
    · cases GoMap.get d.inflight text with
      | some inb => simp only; split <;> rfl
      | none =>
        cases GoMap.get d.batches text with
        | some b => simp only; split <;> rfl
        | none => rfl
  | flush text =>
    cases hg : GoMap.get d.batches text with
    | none =>
      unfold flushTextBegin
      rw [hg]
    | some b =>
      rw [flushTextBegin_some d _ _ text b hg rfl rfl _ rfl]
      split
      · rfl
      · split
        · rfl
        · split <;> rfl
  | take k => rfl
  | call payload => rfl
  | fail it msg err hit => rfl
  | mismatch it diag err hit => rfl
  | succeed it parts hit _ _ => rfl

theorem debug_reach (d d2 : FusedDispatcher) (hr : FusedReach d d2) : d2.debug = d.debug := by
  induction hr with
  | refl => rfl
  | tail _ hs ih => rw [debug_step _ _ hs, ih]

theorem cache_enter (d : FusedDispatcher) (t p : Str) :
    (GetResultEnter d t p).1.cache = d.cache := by
  rw [GetResultEnter_eq]
  split
  · rfl
  · cases GoMap.get d.inflight t with
    | some inb => simp only; split <;> rfl
    | none =>
      cases GoMap.get d.batches t with
      | some b => simp only; split <;> rfl
      | none => rfl

theorem cache_flush (d : FusedDispatcher) (t : Str) :
    (flushTextBegin d t).1.cache = d.cache := by
  cases hg : GoMap.get d.batches t with
  | none =>
    unfold flushTextBegin
    rw [hg]
  | some b =>
    rw [flushTextBegin_some d _ _ t b hg rfl rfl _ rfl]
    split
    · rfl
    · split
      · rfl
      · split <;> rfl

/-- The cache is write-once: a step never changes or removes an entry. -/
theorem cache_stable_step (d d2 : FusedDispatcher) (hinv : FusedInv d) (hs : FusedStep d d2)
    (t p a : Str) (h : cacheGet d.cache t p = some a) : cacheGet d2.cache t p = some a := by
  cases hs with
  | enter text prompt => rw [cache_enter]; exact h
  | flush text => rw [cache_flush]; exact h
  | take k => exact h
  | call payload => exact h
  | fail it msg err hit => exact h
  | mismatch it diag err hit => exact h
  | succeed it parts hit _ _ =>
    have hitem := hinv.items_wf it (List.mem_append_left _ hit)
    obtain ⟨hblt, hbtext, hblive⟩ := hinv.inflight_wf it.text it.b hitem.1
    obtain ⟨hkeys, hslots⟩ := hinv.live_slots it.b hblt hblive
    have hcache := succeedBatch_cache { d with calling := d.calling.erase it } it.text it.b
      it.promptList parts hblt
    rw [hcache, cacheGet_set]
    by_cases hte : it.text = t
    · rw [if_pos hte]
      subst hte
      rw [cacheAnswers_get _ _ _ (zipSet_keys _ _ _ hkeys)]
      have hinner : GoMap.get ((GoMap.get d.cache it.text).getD []) p = some a := by
        unfold cacheGet at h
        cases hc : GoMap.get d.cache it.text with
        | none => rw [hc] at h; cases h
        | some mp => rw [hc] at h; exact h
      cases hg : GoMap.get ((it.promptList.zip parts).foldl
          (fun m e => GoMap.set m e.1 e.2) (getBatch d.heap it.b).prompts) p with
      | none => exact hinner
      | some v =>
        exfalso
        have hpk : p ∈ GoMap.keys (getBatch d.heap it.b).prompts := by
          by_cases hp : p ∈ it.promptList
          · exact hitem.2 p hp
          · have hg2 : GoMap.get ((it.promptList.zip parts).foldl
                (fun m e => GoMap.set m e.1 e.2) (getBatch d.heap it.b).prompts) p = some v := hg
            rw [zipSet_get_notin _ _ _ _ hp] at hg2
            exact (mem_keys_iff_get _ _).2 ⟨v, hg2⟩
        have := (hslots p hpk).2
        rw [hbtext, h] at this
        cases this
    · rw [if_neg hte]
      exact h

theorem cache_stable_reach (d d2 : FusedDispatcher) (hinv : FusedInv d) (hr : FusedReach d d2)
    (t p a : Str) (h : cacheGet d.cache t p = some a) : cacheGet d2.cache t p = some a := by
  induction hr with
  | refl => exact h
  | tail hr1 hs ih => exact cache_stable_step _ _ (FusedInv_reach _ _ hinv hr1) hs t p a ih

theorem enter_hit (d : FusedDispatcher) (t p a : Str) (h : cacheGet d.cache t p = some a)
    (ha : a ≠ []) : GetResultEnter d t p = (d, GetStep.hit a, false) := by
  rw [GetResultEnter_eq, h]
  simp only [Option.getD_some]
  rw [if_pos ha]

/-! ## Fused dispatcher: answers that were returned stay -/

/-- C9 (the claim as stated fails with debug on). On a fresh dispatcher with
debug on, a caller asks for `("cat","p1")`; the first upstream reply `x;y` has two
parts for one prompt, so the call returns the diagnostic string, which is not
empty, with a nil error. The same call made again is not answered from the
cache: it makes a second upstream call and returns `z`. -/
theorem debug_answer_not_repeated :
    twoCalls envTwoReplies (freshFused true) "cat".toList "p1".toList
      = some (("PARSE_MISMATCH want=1 got=2 raw=x;y".toList, none), ("z".toList, none), 2) := by
  decide

/-- C9 (amended). With debug off: let a dispatcher created by
`NewFusedDispatcher` have reached a state `d` in which `GetResult(t, p)` returns
a non-empty string `a` (by a cache hit, or by reading the answer slot of its
completed batch). Then in every state `d2` reached later, by any steps of any
goroutines, a call `GetResult(t, p)` is a cache hit: it returns `a` with a nil
error at once, leaves the dispatcher as it is (nothing is registered, no upstream
call is logged) and arms no flush timer. -/
theorem returned_answer_is_repeated (e : FusedEnv) (client : Bool) (sep : Str)
    (hdebug : e.debug = false) (d d2 : FusedDispatcher)
    (hr1 : FusedReach (NewFusedDispatcher e client sep) d) (t p a : Str) (ha : a ≠ [])
    (hret : cacheGet d.cache t p = some a
      ∨ ∃ b, b < d.heap.length ∧ (getBatch d.heap b).done = true
          ∧ (getBatch d.heap b).text = t ∧ (GetResultRead d b p).1 = a)
    (hr2 : FusedReach d d2) :
    GetResultEnter d2 t p = (d2, GetStep.hit a, false) := by
  have hinv : FusedInv d := FusedInv_reach _ _ (FusedInv_new e client sep) hr1
  have hdbg : d.debug = false := by
    rw [debug_reach _ _ hr1]
    exact hdebug
  have hc : cacheGet d.cache t p = some a := by
    rcases hret with h | ⟨b, hb, hd, ht, hread⟩
    · exact h
    · have hread2 : getStr (getBatch d.heap b).prompts p = a := hread
      have := hinv.done_cached hdbg b hb hd p (by rw [hread2]; exact ha)
      rw [ht, hread2] at this
      exact this
  exact enter_hit d2 t p a (cache_stable_reach d d2 hinv hr2 t p a hc) ha

/-! ## The dispatcher routines are sequences of steps -/

theorem blocks_calling (x : FusedDispatcher) (c : List fusedWorkItem) (t : Str) (b : Nat) :
    (∀ msg err, failBatch { x with calling := c } t b msg err
        = { failBatch x t b msg err with calling := c })
    ∧ (∀ diag err, mismatchBatch { x with calling := c } t b diag err
        = { mismatchBatch x t b diag err with calling := c })
    ∧ (∀ pl parts, succeedBatch { x with calling := c } t b pl parts
        = { succeedBatch x t b pl parts with calling := c }) :=
  ⟨fun _ _ => rfl, fun _ _ => rfl, fun _ _ => rfl⟩

theorem finishSingle_calling (x : FusedDispatcher) (c : List fusedWorkItem) (t : Str) (b : Nat)
    (pl : List Str) (raw : Str) (err : Option GoError) :
    finishSingle { x with calling := c } t b pl raw err
      = { finishSingle x t b pl raw err with calling := c } := by
  unfold finishSingle
  cases err with
  | some e => rfl
  | none =>
    dsimp only
    split <;> rfl

theorem finishLine_calling (x : FusedDispatcher) (c : List fusedWorkItem) (it : fusedWorkItem)
    (line : Str) :
    finishLine { x with calling := c } it line = { finishLine x it line with calling := c } := by
  unfold finishLine
  dsimp only
  split <;> rfl

theorem calling_self (x : FusedDispatcher) : { x with calling := x.calling } = x := rfl

/-- `finishSingle` on held work is one completion step. -/
theorem finishSingle_reach (x : FusedDispatcher) (it : fusedWorkItem) (raw : Str)
    (err : Option GoError) (hit : it ∈ x.calling) :
    FusedReach x (finishSingle { x with calling := x.calling.erase it } it.text it.b
      it.promptList raw err) := by
  apply Relation.ReflTransGen.single
  cases err with
  | some e => exact FusedStep.fail x it _ _ hit
  | none =>
    by_cases hl : (splitFused raw x.sep).length = it.promptList.length
    · have : finishSingle { x with calling := x.calling.erase it } it.text it.b
          it.promptList raw none
          = succeedBatch { x with calling := x.calling.erase it } it.text it.b it.promptList
              (splitFused raw x.sep) :=
        finishSingle_success _ _ _ _ _ hl
      rw [this]
      exact FusedStep.succeed x it _ hit hl (fun a ha => splitFused_mem_ne_nil raw x.sep a ha)
    · have : finishSingle { x with calling := x.calling.erase it } it.text it.b
          it.promptList raw none
          = mismatchBatch { x with calling := x.calling.erase it } it.text it.b _ _ :=
        finishSingle_mismatch _ _ _ _ _ hl
      rw [this]
      exact FusedStep.mismatch x it _ _ hit

/-- `finishLine` on held work is one completion step. -/
theorem finishLine_reach (x : FusedDispatcher) (it : fusedWorkItem) (line : Str)
    (hit : it ∈ x.calling) :
    FusedReach x (finishLine { x with calling := x.calling.erase it } it line) := by
  apply Relation.ReflTransGen.single
  unfold finishLine
  dsimp only
  split
  · exact FusedStep.mismatch x it _ _ hit
  · rename_i hl
    rw [not_not] at hl
    exact FusedStep.succeed x it _ hit hl (fun a ha => splitFused_mem_ne_nil line x.sep a ha)

/-- The upstream request and `finishSingle` of `flushText` and of the fallback of
`runMultiBatch`, on held work, are at most one call step and one completion
step. -/
theorem singleRequest_reach (env : Env) (x : FusedDispatcher) (it : fusedWorkItem)
    (hit : it ∈ x.calling) :
    FusedReach x
      (finishSingle
        { (runSingleFusedRequest env x it.text it.fusedPrompt).2 with
          calling := x.calling.erase it }
        it.text it.b it.promptList
        (runSingleFusedRequest env x it.text it.fusedPrompt).1.1
        (runSingleFusedRequest env x it.text it.fusedPrompt).1.2) := by
  unfold runSingleFusedRequest
  cases hw : (if x.limiter = true then env.limiterWait x.upstream.length else none) with
  | some e =>
    simp only
    exact finishSingle_reach x it _ _ hit
  | none =>
    simp only [clientRun]
    have h1 : FusedStep x { x with upstream := x.upstream ++
        [fusedPayload it.text it.fusedPrompt x.sep] } := FusedStep.call x _
    exact Relation.ReflTransGen.head h1 (finishSingle_reach _ it _ _ hit)

theorem runSingleFusedRequest_calling (env : Env) (x : FusedDispatcher)
    (c : List fusedWorkItem) (t fp : Str) :
    (runSingleFusedRequest env { x with calling := c } t fp).1
        = (runSingleFusedRequest env x t fp).1
    ∧ (runSingleFusedRequest env { x with calling := c } t fp).2
        = { (runSingleFusedRequest env x t fp).2 with calling := c } := by
  unfold runSingleFusedRequest
  cases (if x.limiter = true then env.limiterWait x.upstream.length else none) with
  | some e => exact ⟨rfl, rfl⟩
  | none => exact ⟨rfl, rfl⟩

theorem runSingleFusedRequest_keeps (env : Env) (x : FusedDispatcher) (t fp : Str) :
    (runSingleFusedRequest env x t fp).2.calling = x.calling := by
  unfold runSingleFusedRequest
  cases (if x.limiter = true then env.limiterWait x.upstream.length else none) with
  | some e => rfl
  | none => rfl

theorem flushTextCall_reach (env : Env) (d : FusedDispatcher) (it : fusedWorkItem)
    (hit : it ∈ d.calling) : FusedReach d (flushTextCall env d it) := by
  have h := singleRequest_reach env d it hit
  have hk := runSingleFusedRequest_keeps env d it.text it.fusedPrompt
  unfold flushTextCall
  simp only [hk]
  exact h

theorem flushText_reach (env : Env) (d : FusedDispatcher) (t : Str) :
    FusedReach d (flushText env d t) := by
  have hbegin : FusedReach d (flushTextBegin d t).1 :=
    Relation.ReflTransGen.single (FusedStep.flush d t)
  unfold flushText
  cases hf : flushTextBegin d t with
  | mk d1 step =>
    rw [hf] at hbegin
    cases step with
    | noBatch => exact hbegin
    | finished => exact hbegin
    | queued item => exact hbegin
    | call item =>
      simp only
      have hmem : item ∈ d1.calling := by
        cases hg : GoMap.get d.batches t with
        | none =>
          unfold flushTextBegin at hf
          rw [hg] at hf
          cases hf
        | some b =>
          have h1 := flushTextBegin_some d _ _ t b hg rfl rfl _ rfl
          rw [hf] at h1
          have hstep : (flushTextBegin d t).2 = FlushStep.call item := by rw [hf]
          unfold flushTextBegin at hstep
          rw [hg] at hstep
          simp only at hstep
          split at hstep
          · cases hstep
          · split at hstep
            · cases hstep
            · split at hstep
              · cases hstep
              · rename_i hc hp hm
                cases hstep
                rw [if_neg hc, if_neg hp, if_neg hm] at h1
                simp only at h1
                rw [h1]
                simp
      exact hbegin.trans (flushTextCall_reach env d1 item hmem)

/-- A loop that completes one piece of held work per iteration is a sequence of
steps, when the work of its items is added to the held work beforehand. -/
theorem fold_reach {α : Type} (g : FusedDispatcher → α → FusedDispatcher)
    (itemOf : α → fusedWorkItem)
    (hcomm : ∀ x a c, g { x with calling := c } a = { g x a with calling := c })
    (hstep : ∀ x a, itemOf a ∈ x.calling →
      FusedReach x (g { x with calling := x.calling.erase (itemOf a) } a))
    (hkeep : ∀ x a, (g x a).calling = x.calling) :
    ∀ (l : List α) (x : FusedDispatcher), (∀ a ∈ l, itemOf a ∉ x.calling) →
      (l.map itemOf).Nodup →
      FusedReach { x with calling := x.calling ++ l.map itemOf } (l.foldl g x) := by
  intro l
  induction l with
  | nil =>
    intro x _ _
    simp only [List.map_nil, List.append_nil, List.foldl_nil]
    exact Relation.ReflTransGen.refl
  | cons a rest ih =>
    intro x hnot hnd
    simp only [List.map_cons, List.nodup_cons] at hnd
    simp only [List.foldl_cons, List.map_cons]
    have hmem : itemOf a ∈ ({ x with calling := x.calling ++ itemOf a :: rest.map itemOf }
        : FusedDispatcher).calling := by simp
    have h1 := hstep { x with calling := x.calling ++ itemOf a :: rest.map itemOf } a hmem
    have herase : (x.calling ++ itemOf a :: rest.map itemOf).erase (itemOf a)
        = x.calling ++ rest.map itemOf := by
      rw [List.erase_append_right _ (hnot a (List.mem_cons_self _ _)), List.erase_cons_head]
    simp only [herase] at h1
    have h2 : g { x with calling := x.calling ++ rest.map itemOf } a
        = { g x a with calling := (g x a).calling ++ rest.map itemOf } := by
      rw [hcomm, hkeep]
    have h1b : FusedReach { x with calling := x.calling ++ itemOf a :: rest.map itemOf }
        { g x a with calling := (g x a).calling ++ rest.map itemOf } := by
      rw [← h2]; exact h1
    refine h1b.trans (ih (g x a) ?_ hnd.2)
    intro a2 ha2
    rw [hkeep]
    exact hnot a2 (List.mem_cons_of_mem _ ha2)

theorem finishSingle_keeps (x : FusedDispatcher) (t : Str) (b : Nat) (pl : List Str) (raw : Str)
    (err : Option GoError) : (finishSingle x t b pl raw err).calling = x.calling := by
  unfold finishSingle
  cases err with
  | some e => rfl
  | none =>
    dsimp only
    split <;> rfl

theorem finishLine_keeps (x : FusedDispatcher) (it : fusedWorkItem) (line : Str) :
    (finishLine x it line).calling = x.calling := by
  unfold finishLine
  dsimp only
  split <;> rfl

theorem runMultiBatch_fallback (env : Env) (d : FusedDispatcher) (first : fusedWorkItem)
    (rest : List fusedWorkItem)
    (hany : (first :: rest).any
      (fun it => decide (it.promptList.length ≠ first.promptList.length)) = true) :
    runMultiBatch env d (first :: rest) = (first :: rest).foldl (fallbackItem env) d := by
  simp only [runMultiBatch, hany, if_true]
  rfl

theorem fallbackItem_reach (env : Env) (l : List fusedWorkItem) (x : FusedDispatcher)
    (hnot : ∀ a ∈ l, a ∉ x.calling) (hnd : l.Nodup) :
    FusedReach { x with calling := x.calling ++ l } (l.foldl (fallbackItem env) x) := by
  have h := fold_reach (fallbackItem env) (fun a => a)
    (fun x a c => by
      unfold fallbackItem
      rw [(runSingleFusedRequest_calling env x c a.text a.fusedPrompt).1,
        (runSingleFusedRequest_calling env x c a.text a.fusedPrompt).2, finishSingle_calling])
    (fun x a ha => by
      unfold fallbackItem
      rw [(runSingleFusedRequest_calling env x _ a.text a.fusedPrompt).1,
        (runSingleFusedRequest_calling env x _ a.text a.fusedPrompt).2]
      exact singleRequest_reach env x a ha)
    (fun x a => by
      unfold fallbackItem
      rw [finishSingle_keeps, runSingleFusedRequest_keeps])
    l x hnot (by rw [List.map_id']; exact hnd)
  rw [List.map_id'] at h
  exact h

/-- Go `runMultiBatch` on work that the worker holds is a sequence of steps. -/
theorem runMultiBatch_reach (env : Env) (d : FusedDispatcher) (items : List fusedWorkItem)
    (hnot : ∀ a ∈ items, a ∉ d.calling) (hnd : items.Nodup) :
    FusedReach { d with calling := d.calling ++ items } (runMultiBatch env d items) := by
  cases items with
  | nil =>
    simp only [List.append_nil]
    exact Relation.ReflTransGen.refl
  | cons first rest =>
    by_cases hany : (first :: rest).any
        (fun it => decide (it.promptList.length ≠ first.promptList.length)) = true
    · rw [runMultiBatch_fallback env d first rest hany]
      exact fallbackItem_reach env (first :: rest) d hnot hnd
    · have hsame : ∀ it ∈ first :: rest, it.promptList.length = first.promptList.length := by
        intro it hit
        by_contra hne
        apply hany
        rw [List.any_eq_true]
        exact ⟨it, hit, by simpa using hne⟩
      obtain ⟨d1, hd1⟩ : ∃ d1 : FusedDispatcher, d1 = { d with upstream := d.upstream ++ [multiPayload d.sep first.promptList.length (first :: rest)] } := ⟨_, rfl⟩
      obtain ⟨r, hr⟩ : ∃ r : Str × Option GoError, r = AnthropicSingleClient.Run (env.createMessages d.upstream.length) [] (multiPayload d.sep first.promptList.length (first :: rest)) := ⟨_, rfl⟩
      rw [runMultiBatch_same_length env d first rest hsame r d1 hr hd1]
      have hcall : FusedReach { d with calling := d.calling ++ (first :: rest) }
          { d1 with calling := d1.calling ++ (first :: rest) } := by
        rw [hd1]
        exact Relation.ReflTransGen.single (FusedStep.call _ _)
      have hnot1 : ∀ a ∈ first :: rest, a ∉ d1.calling := by rw [hd1]; exact hnot
      refine hcall.trans ?_
      split
      · have h := fold_reach
          (fun x (it : fusedWorkItem) =>
            failBatch x it.text it.b ("ERR:".toList ++ sprintErr r.2) r.2) (fun a => a)
          (fun x a c => rfl)
          (fun x a ha => Relation.ReflTransGen.single (FusedStep.fail x a _ _ ha))
          (fun x a => rfl) (first :: rest) d1 hnot1 (by rw [List.map_id']; exact hnd)
        rw [List.map_id'] at h
        exact h
      · split
        · have h := fold_reach
            (fun x (it : fusedWorkItem) =>
              mismatchBatch x it.text it.b
                ("lines=".toList ++ itoa (splitLines r.1).length ++ " raw=".toList ++ r.1)
                ("got ".toList ++ itoa (splitLines r.1).length ++ " lines, want ".toList ++
                  itoa (first :: rest).length)) (fun a => a)
            (fun x a c => rfl)
            (fun x a ha => Relation.ReflTransGen.single (FusedStep.mismatch x a _ _ ha))
            (fun x a => rfl) (first :: rest) d1 hnot1 (by rw [List.map_id']; exact hnd)
          rw [List.map_id'] at h
          exact h
        · rename_i hl
          rw [not_not] at hl
          have hfst : ((first :: rest).zip (splitLines r.1)).map (fun e => e.1) = first :: rest :=
            List.map_fst_zip _ _ (by rw [hl])
          have h := fold_reach
            (fun x (e : fusedWorkItem × Str) => finishLine x e.1 e.2) (fun e => e.1)
            (fun x a c => finishLine_calling x c a.1 a.2)
            (fun x a ha => finishLine_reach x a.1 a.2 ha)
            (fun x a => finishLine_keeps x a.1 a.2)
            ((first :: rest).zip (splitLines r.1)) d1
            (fun a ha => hnot1 a.1 (List.of_mem_zip ha).1)
            (by rw [hfst]; exact hnd)
          rw [hfst] at h
          exact h

theorem multiWorkerRound_reach (env : Env) (d : FusedDispatcher) (hinv : FusedInv d) (k : Nat) :
    FusedReach d (multiWorkerRound env d k) := by
  have hnd : (d.calling ++ d.workCh).Nodup := List.Nodup.of_map _ hinv.items_nodup
  have htake : FusedReach d
      { d with workCh := d.workCh.drop k, calling := d.calling ++ d.workCh.take k } :=
    Relation.ReflTransGen.single (FusedStep.take d k)
  have hrun := runMultiBatch_reach env { d with workCh := d.workCh.drop k } (d.workCh.take k)
    (fun a ha hc =>
      (List.disjoint_of_nodup_append hnd) hc (List.mem_of_mem_take ha))
    ((List.nodup_append.1 hnd).2.1.sublist (List.take_sublist _ _))
  exact htake.trans hrun

theorem GetResultAlone_reach (env : Env) (d : FusedDispatcher) (hinv : FusedInv d)
    (t p : Str) (r : Str × Option GoError) (d1 : FusedDispatcher)
    (h : GetResultAlone env d t p = some (r, d1)) : FusedReach d d1 := by
  have henter : FusedReach d (GetResultEnter d t p).1 :=
    Relation.ReflTransGen.single (FusedStep.enter d t p)
  have hinv1 : FusedInv (GetResultEnter d t p).1 := FusedInv_enter d hinv t p
  unfold GetResultAlone at h
  cases he : GetResultEnter d t p with
  | mk d' rest =>
    rw [he] at h henter hinv1
    obtain ⟨step, armed⟩ := rest
    cases step with
    | hit ans =>
      simp only [Option.some.injEq, Prod.mk.injEq] at h
      rw [← h.2]
      exact henter
    | waitIncluded b => simp at h
    | waitOther b => simp at h
    | waitFrozen b => simp at h
    | waitRegistered b =>
      simp only at h
      have hd2 : FusedReach d' (if d'.multiEnabled = true then
          multiWorkerRound env (flushTextBegin d' t).1 (max 1 d'.multiMaxTexts)
          else flushText env d' t) := by
        split
        · have hf : FusedReach d' (flushTextBegin d' t).1 :=
            Relation.ReflTransGen.single (FusedStep.flush d' t)
          exact hf.trans (multiWorkerRound_reach env _ (FusedInv_flush d' hinv1 t) _)
        · exact flushText_reach env d' t
      generalize (if d'.multiEnabled = true then
          multiWorkerRound env (flushTextBegin d' t).1 (max 1 d'.multiMaxTexts)
          else flushText env d' t) = d2 at h hd2
      by_cases hdone : (getBatch d2.heap b).done = true
      · rw [if_pos hdone] at h
        simp only [Option.some.injEq, Prod.mk.injEq] at h
        rw [← h.2]
        exact henter.trans hd2
      · rw [if_neg hdone] at h
        cases h

theorem text_updBatch (heap : List fusedBatch) (b : Nat) (f : fusedBatch → fusedBatch)
    (hf : ∀ x, (f x).text = x.text) (b2 : Nat) :
    (getBatch (updBatch heap b f) b2).text = (getBatch heap b2).text := by
  by_cases hbe : b2 = b
  · subst hbe
    by_cases hlt : b2 < heap.length
    · rw [getBatch_updBatch_self _ _ _ hlt, hf]
    · have : heap[b2]? = none := List.getElem?_eq_none (Nat.le_of_not_lt hlt)
      simp only [updBatch, this]
  · rw [getBatch_updBatch_ne _ _ _ _ hbe]

theorem text_blocks (d : FusedDispatcher) (t : Str) (b b2 : Nat) :
    (∀ msg err, (getBatch (failBatch d t b msg err).heap b2).text = (getBatch d.heap b2).text)
    ∧ (∀ diag err,
        (getBatch (mismatchBatch d t b diag err).heap b2).text = (getBatch d.heap b2).text)
    ∧ (∀ pl parts,
        (getBatch (succeedBatch d t b pl parts).heap b2).text = (getBatch d.heap b2).text)
    ∧ (getBatch (releaseBatch d t b).heap b2).text = (getBatch d.heap b2).text := by
  refine ⟨?_, ?_, ?_, ?_⟩
  · intro msg err
    simp only [failBatch, releaseBatch]
    refine (text_updBatch _ _ _ (by intro _; rfl) _).trans ?_
    refine text_updBatch _ _ _ ?_ _
    intro x
    unfold setAll
    split <;> rfl
  · intro diag err
    simp only [mismatchBatch, releaseBatch]
    refine (text_updBatch _ _ _ (by intro _; rfl) _).trans ?_
    refine text_updBatch _ _ _ ?_ _
    intro x
    dsimp only
    split <;> rfl
  · intro pl parts
    simp only [succeedBatch, releaseBatch]
    refine (text_updBatch _ _ _ (by intro _; rfl) _).trans ?_
    exact text_updBatch _ _ _ (by intro _; rfl) _
  · simp only [releaseBatch]
    exact text_updBatch _ _ _ (by intro _; rfl) _

/-- A step keeps the batches that exist and their texts. -/
theorem text_stable_step (d d2 : FusedDispatcher) (hs : FusedStep d d2) (b : Nat)
    (hb : b < d.heap.length) :
    b < d2.heap.length ∧ (getBatch d2.heap b).text = (getBatch d.heap b).text := by
  have hreg : ∀ q x, (registerPrompt q x).text = x.text := by
    intro q x
    unfold registerPrompt
    split <;> rfl
  cases hs with
  | enter text prompt =>
    rw [GetResultEnter_eq]
    split
    · exact ⟨hb, rfl⟩
    · cases GoMap.get d.inflight text with
      | some inb => simp only; split <;> exact ⟨hb, rfl⟩
      | none =>
        cases GoMap.get d.batches text with
        | some b0 =>
          simp only
          split
          · exact ⟨by simp only [length_updBatch]; exact hb, text_updBatch _ _ _ (hreg prompt) b⟩
          · exact ⟨hb, rfl⟩
        | none =>
          simp only
          refine ⟨by simp only [length_updBatch, List.length_append, List.length_singleton]; omega,
            ?_⟩
          rw [text_updBatch _ _ _ (hreg prompt) b, getBatch_append_lt _ _ _ hb]
  | flush text =>
    cases hg : GoMap.get d.batches text with
    | none =>
      unfold flushTextBegin
      rw [hg]
      exact ⟨hb, rfl⟩
    | some b0 =>
      rw [flushTextBegin_some d _ _ text b0 hg rfl rfl _ rfl]
      split
      · exact ⟨by rw [(heap_length_blocks _ _ _).1]; exact hb, (text_blocks _ _ _ _).1 _ _⟩
      · split
        · refine ⟨by simp only [releaseBatch, length_updBatch]; exact hb, ?_⟩
          rw [(text_blocks _ _ _ _).2.2.2]
          exact text_updBatch _ _ _ (by intro _; rfl) b
        · split
          · exact ⟨by simp only [length_updBatch]; exact hb, text_updBatch _ _ _ (by intro _; rfl) b⟩
          · exact ⟨by simp only [length_updBatch]; exact hb, text_updBatch _ _ _ (by intro _; rfl) b⟩
  | take k => exact ⟨hb, rfl⟩
  | call payload => exact ⟨hb, rfl⟩
  | fail it msg err hit =>
    exact ⟨by rw [(heap_length_blocks _ _ _).1]; exact hb, (text_blocks _ _ _ _).1 _ _⟩
  | mismatch it diag err hit =>
    exact ⟨by rw [(heap_length_blocks _ _ _).2.1]; exact hb, (text_blocks _ _ _ _).2.1 _ _⟩
  | succeed it parts hit _ _ =>
    exact ⟨by rw [(heap_length_blocks _ _ _).2.2]; exact hb, (text_blocks _ _ _ _).2.2.1 _ _⟩

theorem text_stable_reach (d d2 : FusedDispatcher) (hr : FusedReach d d2) (b : Nat)
    (hb : b < d.heap.length) :
    b < d2.heap.length ∧ (getBatch d2.heap b).text = (getBatch d.heap b).text := by
  induction hr with
  | refl => exact ⟨hb, rfl⟩
  | tail _ hs ih =>
    obtain ⟨h1, h2⟩ := text_stable_step _ _ hs b ih.1
    exact ⟨h1, h2.trans ih.2⟩

/-! ## Fused dispatcher: the upstream log -/

theorem finishSingle_upstream (x : FusedDispatcher) (tx : Str) (bx : Nat) (pl : List Str)
    (r : Str) (e : Option GoError) : (finishSingle x tx bx pl r e).upstream = x.upstream := by
  unfold finishSingle
  cases e with
  | some e => rfl
  | none =>
    simp only
    split <;> rfl

theorem finishLine_upstream (x : FusedDispatcher) (it : fusedWorkItem) (line : Str) :
    (finishLine x it line).upstream = x.upstream := by
  unfold finishLine
  simp only
  split <;> rfl

theorem foldl_upstream {α : Type} (step : FusedDispatcher → α → FusedDispatcher)
    (h : ∀ x a, (step x a).upstream = x.upstream) (l : List α) (d : FusedDispatcher) :
    (l.foldl step d).upstream = d.upstream := by
  induction l generalizing d with
  | nil => rfl
  | cons a l ih => rw [List.foldl_cons, ih, h]

theorem runSingleFusedRequest_upstream (env : Env) (d : FusedDispatcher) (t fp : Str) :
    (runSingleFusedRequest env d t fp).2.upstream.length ≤ d.upstream.length + 1 := by
  unfold runSingleFusedRequest
  cases (if d.limiter = true then env.limiterWait d.upstream.length else none) with
  | some err => exact Nat.le_succ _
  | none =>
    simp only [clientRun, List.length_append, List.length_singleton]
    exact Nat.le_refl _

theorem enter_upstream (d : FusedDispatcher) (t p : Str) :
    (GetResultEnter d t p).1.upstream = d.upstream
    ∧ (GetResultEnter d t p).1.workCh = d.workCh := by
  rw [GetResultEnter_eq]
  split
  · exact ⟨rfl, rfl⟩
  · cases GoMap.get d.inflight t with
    | some inb => simp only; split <;> exact ⟨rfl, rfl⟩
    | none =>
      cases GoMap.get d.batches t with
      | some b0 => simp only; split <;> exact ⟨rfl, rfl⟩
      | none => exact ⟨rfl, rfl⟩

theorem flushTextBegin_upstream (d : FusedDispatcher) (t : Str) :
    (flushTextBegin d t).1.upstream = d.upstream
    ∧ (flushTextBegin d t).1.workCh.length ≤ d.workCh.length + 1 := by
  cases hg : GoMap.get d.batches t with
  | none =>
    unfold flushTextBegin
    rw [hg]
    exact ⟨rfl, Nat.le_succ _⟩
  | some b0 =>
    rw [flushTextBegin_some d _ _ t b0 hg rfl rfl _ rfl]
    split
    · exact ⟨rfl, Nat.le_succ _⟩
    · split
      · exact ⟨rfl, Nat.le_succ _⟩
      · split
        · refine ⟨rfl, ?_⟩
          simp only [List.length_append, List.length_singleton]
          exact Nat.le_refl _
        · exact ⟨rfl, Nat.le_succ _⟩

theorem flushText_upstream (env : Env) (d : FusedDispatcher) (t : Str) :
    (flushText env d t).upstream.length ≤ d.upstream.length + 1 := by
  have hb := (flushTextBegin_upstream d t).1
  unfold flushText
  cases hf : flushTextBegin d t with
  | mk d1 step =>
    rw [hf] at hb
    simp only at hb
    cases step with
    | call item =>
      simp only [flushTextCall]
      rw [finishSingle_upstream, ← hb]
      exact runSingleFusedRequest_upstream env d1 _ _
    | noBatch => simp only; rw [hb]; exact Nat.le_succ _
    | finished => simp only; rw [hb]; exact Nat.le_succ _
    | queued item => simp only; rw [hb]; exact Nat.le_succ _

theorem runMultiBatch_single_upstream (env : Env) (d : FusedDispatcher) (it : fusedWorkItem) :
    (runMultiBatch env d [it]).upstream.length = d.upstream.length + 1 := by
  rw [runMultiBatch_same_length env d it [] (fun x hx => by
    rw [List.mem_singleton] at hx
    rw [hx]) _ _ rfl rfl]
  split
  · rw [foldl_upstream _ (by intro _ _; rfl)]
    simp only [List.length_append, List.length_singleton]
  · split
    · rw [foldl_upstream _ (by intro _ _; rfl)]
      simp only [List.length_append, List.length_singleton]
    · rw [foldl_upstream _ (by intro x e; exact finishLine_upstream x e.1 e.2)]
      simp only [List.length_append, List.length_singleton]

theorem multiWorkerRound_upstream (env : Env) (d : FusedDispatcher) (k : Nat) (hk : 1 ≤ k)
    (hw : d.workCh.length ≤ 1) :
    (multiWorkerRound env d k).upstream.length ≤ d.upstream.length + 1 := by
  unfold multiWorkerRound
  cases hc : d.workCh with
  | nil =>
    simp only [List.take_nil, List.drop_nil, runMultiBatch]
    exact Nat.le_succ _
  | cons a l =>
    rw [hc] at hw
    have hl : l = [] := by
      cases l with
      | nil => rfl
      | cons b l2 => simp only [List.length_cons] at hw; omega
    subst hl
    have ht : List.take k [a] = [a] := List.take_of_length_le (by simpa using hk)
    simp only [ht]
    rw [runMultiBatch_single_upstream]

/-- What the lone caller waits for after registering: the flush of its text, in
multi mode followed by the worker round. -/
theorem aloneRound_reach (env : Env) (d : FusedDispatcher) (hinv : FusedInv d) (t : Str) :
    FusedReach d (if d.multiEnabled = true then
        multiWorkerRound env (flushTextBegin d t).1 (max 1 d.multiMaxTexts)
      else flushText env d t) := by
  split
  · have hf : FusedReach d (flushTextBegin d t).1 :=
      Relation.ReflTransGen.single (FusedStep.flush d t)
    exact hf.trans (multiWorkerRound_reach env _ (FusedInv_flush d hinv t) _)
  · exact flushText_reach env d t

theorem aloneRound_upstream (env : Env) (d : FusedDispatcher) (hw : d.workCh = []) (t : Str) :
    (if d.multiEnabled = true then
        multiWorkerRound env (flushTextBegin d t).1 (max 1 d.multiMaxTexts)
      else flushText env d t).upstream.length ≤ d.upstream.length + 1 := by
  split
  · have h1 := flushTextBegin_upstream d t
    rw [hw] at h1
    rw [← h1.1]
    exact multiWorkerRound_upstream env _ _ (Nat.le_max_left _ _) h1.2
  · exact flushText_upstream env d t

/-! ## Fused dispatcher: a caller that is alone -/

theorem enter_hit_inv (d : FusedDispatcher) (t p a : Str)
    (h : (GetResultEnter d t p).2.1 = GetStep.hit a) :
    cacheGet d.cache t p = some a ∧ a ≠ [] := by
  rw [GetResultEnter_eq] at h
  by_cases hc : (cacheGet d.cache t p).getD [] ≠ []
  · rw [if_pos hc] at h
    simp only [GetStep.hit.injEq] at h
    rw [← h]
    refine ⟨?_, hc⟩
    cases hg : cacheGet d.cache t p with
    | none => rw [hg] at hc; exact absurd rfl hc
    | some x => rfl
  · rw [if_neg hc] at h
    cases hi : GoMap.get d.inflight t with
    | some inb =>
      rw [hi] at h
      simp only at h
      split at h <;> cases h
    | none =>
      rw [hi] at h
      cases hb : GoMap.get d.batches t with
      | some b0 =>
        rw [hb] at h
        simp only at h
        split at h <;> cases h
      | none =>
        rw [hb] at h
        cases h

theorem enter_registered (d : FusedDispatcher) (t p : Str) (b : Nat)
    (h : (GetResultEnter d t p).2.1 = GetStep.waitRegistered b) :
    GoMap.get (GetResultEnter d t p).1.batches t = some b := by
  rw [GetResultEnter_eq] at h ⊢
  by_cases hc : (cacheGet d.cache t p).getD [] ≠ []
  · rw [if_pos hc] at h
    cases h
  · rw [if_neg hc] at h ⊢
    cases hi : GoMap.get d.inflight t with
    | some inb =>
      rw [hi] at h
      simp only at h
      split at h <;> cases h
    | none =>
      rw [hi] at h
      cases hb : GoMap.get d.batches t with
      | some b0 =>
        rw [hb] at h
        simp only at h ⊢
        by_cases hfz : (getBatch d.heap b0).frozen = false
        · rw [if_pos hfz] at h ⊢
          simp only [GetStep.waitRegistered.injEq] at h
          rw [← h]
          exact hb
        · rw [if_neg hfz] at h
          cases h
      | none =>
        rw [hb] at h
        simp only [GetStep.waitRegistered.injEq] at h
        rw [← h]
        exact GoMap.get_set_self _ _ _

/-- With debug off, a non-empty answer that a lone caller gets with a nil error
is in the cache when the call returns, and the call logged at most one upstream
call if no work was queued when it started. -/
theorem GetResultAlone_cached (env : Env) (d : FusedDispatcher) (hinv : FusedInv d)
    (hdebug : d.debug = false) (t p a : Str) (e : Option GoError) (d1 : FusedDispatcher)
    (h : GetResultAlone env d t p = some ((a, e), d1)) (ha : a ≠ []) :
    cacheGet d1.cache t p = some a
    ∧ (d.workCh = [] → d1.upstream.length ≤ d.upstream.length + 1) := by
  have hinv1 : FusedInv (GetResultEnter d t p).1 := FusedInv_enter d hinv t p
  have hdebug1 : (GetResultEnter d t p).1.debug = false :=
    (debug_step _ _ (FusedStep.enter d t p)).trans hdebug
  have hup := enter_upstream d t p
  have hhit := enter_hit_inv d t p
  have hreg := enter_registered d t p
  unfold GetResultAlone at h
  cases he : GetResultEnter d t p with
  | mk d' rest =>
    rw [he] at h hinv1 hdebug1 hup hhit hreg
    obtain ⟨step, armed⟩ := rest
    simp only at hup hhit hreg
    cases step with
    | hit ans =>
      simp only [Option.some.injEq, Prod.mk.injEq] at h
      obtain ⟨hc, hne⟩ := hhit ans rfl
      have hst := enter_hit d t p ans hc hne
      rw [he] at hst
      simp only [Prod.mk.injEq] at hst
      rw [← h.2, hst.1, ← h.1.1]
      exact ⟨hc, fun _ => Nat.le_succ _⟩
    | waitIncluded b => simp at h
    | waitOther b => simp at h
    | waitFrozen b => simp at h
    | waitRegistered b =>
      simp only at h
      have hd2 := aloneRound_reach env d' hinv1 t
      have hu2 := fun hw => aloneRound_upstream env d' hw t
      generalize (if d'.multiEnabled = true then
          multiWorkerRound env (flushTextBegin d' t).1 (max 1 d'.multiMaxTexts)
          else flushText env d' t) = d2 at h hd2 hu2
      by_cases hdone : (getBatch d2.heap b).done = true
      · rw [if_pos hdone] at h
        simp only [Option.some.injEq, Prod.mk.injEq, GetResultRead] at h
        obtain ⟨⟨hans, _⟩, hd12⟩ := h
        subst hd12
        obtain ⟨hlt, htext, _, _⟩ := hinv1.batches_wf t b (hreg b rfl)
        obtain ⟨hlt2, htext2⟩ := text_stable_reach _ _ hd2 b hlt
        have hinv2 := FusedInv_reach _ _ hinv1 hd2
        have hdebug2 : d2.debug = false := (debug_reach _ _ hd2).trans hdebug1
        have hc := hinv2.done_cached hdebug2 b hlt2 hdone p (by rw [hans]; exact ha)
        rw [htext2, htext, hans] at hc
        refine ⟨hc, fun hw => ?_⟩
        rw [← hup.1]
        exact hu2 (by rw [hup.2]; exact hw)
      · rw [if_neg hdone] at h
        cases h

/-- C9 (amended), at work: after the lone caller got `x` for `("cat","p1")`, and
after another caller has asked for `("dog","p1")`, the call `("cat","p1")` is a
cache hit that returns `x` and leaves the dispatcher as it is. -/
theorem returned_answer_is_repeated_witness :
    cacheGet answeredOnce.cache "cat".toList "p1".toList = some "x".toList
    ∧ GetResultEnter (GetResultEnter answeredOnce "dog".toList "p1".toList).1
        "cat".toList "p1".toList
      = ((GetResultEnter answeredOnce "dog".toList "p1".toList).1,
          GetStep.hit "x".toList, false) :=
  ⟨by decide,
   returned_answer_is_repeated noEnv true ";".toList rfl answeredOnce
    (GetResultEnter answeredOnce "dog".toList "p1".toList).1
    (GetResultAlone_reach (constEnv (MessagesOutcome.content ["x".toList]))
      (NewFusedDispatcher noEnv true ";".toList) (FusedInv_new _ _ _)
      "cat".toList "p1".toList ("x".toList, none) answeredOnce (by decide))
    "cat".toList "p1".toList "x".toList (by decide) (Or.inl (by decide))
    (Relation.ReflTransGen.single (FusedStep.enter _ _ _))⟩

/-! ## Fused dispatcher: two calls one after the other -/

/-- C10 (the claim as stated fails when the first call fails). On a fresh
dispatcher with debug off, a caller asks for `("cat","p1")` and the upstream call
fails: the call returns the empty string with the error, and nothing is cached.
The same call made again is not a cache hit: it makes a second upstream call,
which fails in the same way, so the two calls cause two upstream calls. -/
theorem failed_call_is_repeated :
    twoCalls (constEnv (MessagesOutcome.failed "boom".toList)) (freshFused false)
        "cat".toList "p1".toList
      = some (([], some "CreateMessages: boom".toList),
              ([], some "CreateMessages: boom".toList), 2) := by
  decide

/-- C10 (amended). With debug off: let a dispatcher created by
`NewFusedDispatcher` have reached a state `d` with no work queued for the worker,
and let a caller that is alone on it call `GetResult(t, p)` and get a non-empty
string `a` with a nil error, in the state `d1`. Then that call logged at most one
upstream call, and the same call made next is a cache hit: it returns `a` with a
nil error and leaves the dispatcher, its upstream log included, as it is. So the
two calls cause at most one upstream call in total. -/
theorem second_call_is_cache_hit (e : FusedEnv) (client : Bool) (sep : Str)
    (hdebug : e.debug = false) (d : FusedDispatcher)
    (hr : FusedReach (NewFusedDispatcher e client sep) d) (hidle : d.workCh = [])
    (env : Env) (t p a : Str) (d1 : FusedDispatcher)
    (h1 : GetResultAlone env d t p = some ((a, none), d1)) (ha : a ≠ []) :
    d1.upstream.length ≤ d.upstream.length + 1
    ∧ GetResultAlone env d1 t p = some ((a, none), d1)
    ∧ twoCalls env d t p = some ((a, none), (a, none), d1.upstream.length) := by
  have hinv : FusedInv d := FusedInv_reach _ _ (FusedInv_new e client sep) hr
  have hdbg : d.debug = false := (debug_reach _ _ hr).trans hdebug
  obtain ⟨hc, hu⟩ := GetResultAlone_cached env d hinv hdbg t p a none d1 h1 ha
  have h2 : GetResultAlone env d1 t p = some ((a, none), d1) := by
    unfold GetResultAlone
    rw [enter_hit d1 t p a hc ha]
  refine ⟨hu hidle, h2, ?_⟩
  unfold twoCalls
  rw [h1]
  simp only
  rw [h2]

/-- C10 (amended), at work: on a fresh dispatcher the upstream replies `x` to the
first call `("cat","p1")`; the two calls return `x` and one upstream call is
logged. -/
theorem second_call_is_cache_hit_witness :
    answeredOnce.upstream.length ≤ 0 + 1
    ∧ GetResultAlone (constEnv (MessagesOutcome.content ["x".toList])) answeredOnce
        "cat".toList "p1".toList = some (("x".toList, none), answeredOnce)
    ∧ twoCalls (constEnv (MessagesOutcome.content ["x".toList])) (freshFused false)
        "cat".toList "p1".toList
      = some (("x".toList, none), ("x".toList, none), answeredOnce.upstream.length) :=
  second_call_is_cache_hit noEnv true ";".toList rfl (freshFused false)
    Relation.ReflTransGen.refl rfl (constEnv (MessagesOutcome.content ["x".toList]))
    "cat".toList "p1".toList "x".toList answeredOnce (by decide) (by decide)

/-! ## Fused dispatcher: what the operations write into the cache -/

theorem cacheAnswers_nonempty (prompts : GoMap Str) :
    ∀ (inner : GoMap Str), (∀ p a, GoMap.get inner p = some a → a ≠ []) →
      ∀ p a, GoMap.get (cacheAnswers inner prompts) p = some a → a ≠ [] := by
  induction prompts with
  | nil => intro inner h; exact h
  | cons e r ih =>
    intro inner h
    unfold cacheAnswers
    rw [List.foldl_cons]
    refine ih _ ?_
    intro p a hg
    by_cases he : e.2 ≠ []
    · rw [if_pos he, GoMap.get_set] at hg
      by_cases hk : e.1 = p
      · rw [if_pos hk] at hg
        cases hg
        exact he
      · rw [if_neg hk] at hg
        exact h p a hg
    · rw [if_neg he] at hg
      exact h p a hg

theorem succeedBatch_nonempty (d : FusedDispatcher) (text : Str) (b : Nat)
    (promptList parts : List Str) (h : cacheNonempty d.cache) :
    cacheNonempty (succeedBatch d text b promptList parts).cache := by
  intro t p a hg
  simp only [succeedBatch, releaseBatch] at hg
  rw [cacheGet_set] at hg
  by_cases ht : text = t
  · rw [if_pos ht] at hg
    refine cacheAnswers_nonempty _ _ ?_ p a hg
    intro q c hq
    cases hc : GoMap.get d.cache text with
    | none => rw [hc] at hq; cases hq
    | some mp =>
      rw [hc] at hq
      refine h text q c ?_
      unfold cacheGet
      rw [hc]
      exact hq
  · rw [if_neg ht] at hg
    exact h t p a hg

theorem finishSingle_nonempty (d : FusedDispatcher) (text : Str) (b : Nat)
    (promptList : List Str) (raw : Str) (err : Option GoError) (h : cacheNonempty d.cache) :
    cacheNonempty (finishSingle d text b promptList raw err).cache := by
  unfold finishSingle
  cases err with
  | some e => exact h
  | none =>
    simp only
    split
    · exact h
    · exact succeedBatch_nonempty d text b promptList _ h

theorem finishLine_nonempty (d : FusedDispatcher) (it : fusedWorkItem) (line : Str)
    (h : cacheNonempty d.cache) : cacheNonempty (finishLine d it line).cache := by
  unfold finishLine
  simp only
  split
  · exact h
  · exact succeedBatch_nonempty d it.text it.b it.promptList _ h

theorem runSingleFusedRequest_cache (env : Env) (d : FusedDispatcher) (t fp : Str) :
    (runSingleFusedRequest env d t fp).2.cache = d.cache := by
  unfold runSingleFusedRequest
  cases (if d.limiter = true then env.limiterWait d.upstream.length else none) with
  | some e => rfl
  | none => rfl

theorem foldl_pres {α : Type} (P : FusedDispatcher → Prop)
    (step : FusedDispatcher → α → FusedDispatcher) (h : ∀ x a, P x → P (step x a))
    (l : List α) (d : FusedDispatcher) (hd : P d) : P (l.foldl step d) := by
  induction l generalizing d with
  | nil => exact hd
  | cons a l ih => exact ih _ (h d a hd)

theorem runMultiBatch_nonempty (env : Env) (d : FusedDispatcher) (items : List fusedWorkItem)
    (h : cacheNonempty d.cache) : cacheNonempty (runMultiBatch env d items).cache := by
  cases items with
  | nil => exact h
  | cons first rest =>
    by_cases hany : (first :: rest).any
        (fun it => decide (it.promptList.length ≠ first.promptList.length)) = true
    · rw [runMultiBatch_fallback env d first rest hany]
      refine foldl_pres (fun x => cacheNonempty x.cache) _ ?_ _ d h
      intro x a hx
      unfold fallbackItem
      refine finishSingle_nonempty _ _ _ _ _ _ ?_
      rw [runSingleFusedRequest_cache]
      exact hx
    · have hsame : ∀ it ∈ first :: rest, it.promptList.length = first.promptList.length := by
        intro it hit
        by_contra hne
        apply hany
        rw [List.any_eq_true]
        exact ⟨it, hit, by simpa using hne⟩
      rw [runMultiBatch_same_length env d first rest hsame _ _ rfl rfl]
      split
      · exact foldl_pres (fun x => cacheNonempty x.cache) _ (by intro x a hx; exact hx) _ _ h
      · split
        · exact foldl_pres (fun x => cacheNonempty x.cache) _ (by intro x a hx; exact hx) _ _ h
        · exact foldl_pres (fun x => cacheNonempty x.cache) _
            (by intro x a hx; exact finishLine_nonempty x a.1 a.2 hx) _ _ h

/-- C11. In every state `d` that a dispatcher created by `NewFusedDispatcher`
reaches, by any steps of any goroutines, every value stored in
`cache[text][prompt]` is a non-empty string; and no operation stores an empty
answer there: after `finishSingle` and after `runMultiBatch`, with any
arguments and any upstream reply, every cached value is again non-empty, and the
failure block around `setAll` leaves the cache as it is. -/
theorem cache_values_nonempty (e : FusedEnv) (client : Bool) (sep : Str)
    (d : FusedDispatcher) (hr : FusedReach (NewFusedDispatcher e client sep) d) :
    cacheNonempty d.cache
    ∧ (∀ text b promptList raw err,
        cacheNonempty (finishSingle d text b promptList raw err).cache)
    ∧ (∀ env items, cacheNonempty (runMultiBatch env d items).cache)
    ∧ (∀ text b msg err, (failBatch d text b msg err).cache = d.cache) := by
  have h : cacheNonempty d.cache :=
    (FusedInv_reach _ _ (FusedInv_new e client sep) hr).cache_nonempty
  exact ⟨h, fun text b promptList raw err => finishSingle_nonempty d text b promptList raw err h,
    fun env items => runMultiBatch_nonempty env d items h, fun _ _ _ _ => rfl⟩

/-- C11, at work: the state after a lone caller got `x` for `("cat","p1")`; the
cache holds `x` there, and every value in it is non-empty. -/
theorem cache_values_nonempty_witness :
    cacheGet answeredOnce.cache "cat".toList "p1".toList = some "x".toList
    ∧ cacheNonempty answeredOnce.cache :=
  ⟨by decide,
   (cache_values_nonempty noEnv true ";".toList answeredOnce
    (GetResultAlone_reach (constEnv (MessagesOutcome.content ["x".toList]))
      (NewFusedDispatcher noEnv true ";".toList) (FusedInv_new _ _ _)
      "cat".toList "p1".toList ("x".toList, none) answeredOnce (by decide))).1⟩

/-! ## Fused dispatcher: the cache is write-once -/

/-- C12. Let a dispatcher created by `NewFusedDispatcher` have reached a state
`d` in which `cache[t][p]` holds `a`. Then `cache[t][p]` holds the same `a` after
every step of the dispatcher, and in particular after a pass of `GetResult` for
any text and prompt (registration included), after `flushText` of any text with
any upstream reply, after `finishSingle` for any piece of held work with any
reply or error, and after a worker round, which runs `runMultiBatch` on the
items it takes from the queue: an entry is never overwritten with another
answer and never removed. -/
theorem cache_write_once (e : FusedEnv) (client : Bool) (sep : Str)
    (d : FusedDispatcher) (hr : FusedReach (NewFusedDispatcher e client sep) d)
    (t p a : Str) (h : cacheGet d.cache t p = some a) :
    (∀ d2, FusedStep d d2 → cacheGet d2.cache t p = some a)
    ∧ (∀ t2 p2, cacheGet (GetResultEnter d t2 p2).1.cache t p = some a)
    ∧ (∀ env t2, cacheGet (flushText env d t2).cache t p = some a)
    ∧ (∀ it ∈ d.calling, ∀ raw err,
        cacheGet (finishSingle { d with calling := d.calling.erase it } it.text it.b
          it.promptList raw err).cache t p = some a)
    ∧ (∀ env k, cacheGet (multiWorkerRound env d k).cache t p = some a) := by
  have hinv : FusedInv d := FusedInv_reach _ _ (FusedInv_new e client sep) hr
  refine ⟨fun d2 hs => cache_stable_step d d2 hinv hs t p a h,
    fun t2 p2 => cache_stable_step d _ hinv (FusedStep.enter d t2 p2) t p a h,
    fun env t2 => cache_stable_reach d _ hinv (flushText_reach env d t2) t p a h,
    fun it hit raw err => cache_stable_reach d _ hinv (finishSingle_reach d it raw err hit) t p a h,
    fun env k => cache_stable_reach d _ hinv (multiWorkerRound_reach env d hinv k) t p a h⟩

/-- C12, at work: after a lone caller got `x` for `("cat","p1")` and another
caller registered `("cat","p2")`, the flush of `cat` gets the reply `y`: `y` is
cached for `p2` and the entry of `p1` is still `x`. -/
theorem cache_write_once_witness :
    cacheGet (flushText (constEnv (MessagesOutcome.content ["y".toList]))
        (GetResultEnter answeredOnce "cat".toList "p2".toList).1 "cat".toList).cache
        "cat".toList "p2".toList = some "y".toList
    ∧ cacheGet (flushText (constEnv (MessagesOutcome.content ["y".toList]))
        (GetResultEnter answeredOnce "cat".toList "p2".toList).1 "cat".toList).cache
        "cat".toList "p1".toList = some "x".toList :=
  ⟨by decide,
   (cache_write_once noEnv true ";".toList
    (GetResultEnter answeredOnce "cat".toList "p2".toList).1
    ((GetResultAlone_reach (constEnv (MessagesOutcome.content ["x".toList]))
      (NewFusedDispatcher noEnv true ";".toList) (FusedInv_new _ _ _)
      "cat".toList "p1".toList ("x".toList, none) answeredOnce (by decide)).trans
      (Relation.ReflTransGen.single (FusedStep.enter _ _ _)))
    "cat".toList "p1".toList "x".toList (by decide)).2.2.1 _ _⟩

/-! ## Batch dispatcher: the chunk loop of `flush` -/

theorem chunksOf_fuel {α : Type} (n : Nat) (hn : 0 < n) :
    ∀ (f g : Nat) (l : List α), l.length ≤ f → l.length ≤ g →
      chunksOf n f l = chunksOf n g l := by
  intro f
  induction f with
  | zero =>
    intro g l hf _
    have hl : l = [] := List.length_eq_zero.1 (Nat.le_zero.1 hf)
    subst hl
    cases g <;> rfl
  | succ f ih =>
    intro g l hf hg
    cases l with
    | nil => cases g <;> rfl
    | cons a l =>
      cases g with
      | zero => simp only [List.length_cons] at hg; omega
      | succ g =>
        simp only [chunksOf]
        have hd : ((a :: l).drop n).length ≤ l.length := by
          rw [List.length_drop, List.length_cons]
          omega
        simp only [List.length_cons] at hf hg
        rw [ih g _ (by omega) (by omega)]

theorem ceilDiv_zero (n : Nat) (hn : 0 < n) : ceilDiv 0 n = 0 := by
  unfold ceilDiv
  rw [Nat.zero_add]
  exact Nat.div_eq_of_lt (by omega)

theorem ceilDiv_step (m n : Nat) (hn : 0 < n) (hm : 0 < m) :
    ceilDiv m n = ceilDiv (m - n) n + 1 := by
  unfold ceilDiv
  by_cases h : n ≤ m
  · have : m + n - 1 = (m - n + n - 1) + n := by omega
    rw [this, Nat.add_div_right _ hn]
  · have h1 : m - n = 0 := by omega
    rw [h1, Nat.zero_add, Nat.div_eq_of_lt (by omega : n - 1 < n)]
    have h2 : m + n - 1 = (m - 1) + n := by omega
    rw [h2, Nat.add_div_right _ hn, Nat.div_eq_of_lt (by omega : m - 1 < n)]

theorem chunksOf_length {α : Type} (n : Nat) (hn : 0 < n) :
    ∀ (f : Nat) (l : List α), l.length ≤ f → (chunksOf n f l).length = ceilDiv l.length n := by
  intro f
  induction f with
  | zero =>
    intro l hf
    have hl : l = [] := List.length_eq_zero.1 (Nat.le_zero.1 hf)
    subst hl
    simp only [chunksOf, List.length_nil, ceilDiv_zero n hn]
  | succ f ih =>
    intro l hf
    cases l with
    | nil => simp only [chunksOf, List.length_nil, ceilDiv_zero n hn]
    | cons a l =>
      simp only [chunksOf, List.length_cons]
      simp only [List.length_cons] at hf
      rw [ih _ (by rw [List.length_drop, List.length_cons]; omega), List.length_drop,
        List.length_cons, ceilDiv_step (l.length + 1) n hn (by omega)]

theorem flushLoop_eq (sha1Sum : Str → List Nat)
    (remote : Nat → List InnerRequests → BatchOutcome) (maxTokens : Int) (maxBatchSize : Nat)
    (hn : 0 < maxBatchSize) (jobs : List llmJob) :
    ∀ (fuel start : Nat) (st : GoMap Str × Option GoError × List (List InnerRequests)),
      jobs.length - start < fuel →
      flushLoop sha1Sum remote maxTokens maxBatchSize jobs fuel start st
        = some ((chunksOf maxBatchSize fuel (jobs.drop start)).foldl
            (flushStep sha1Sum remote maxTokens) st) := by
  intro fuel
  induction fuel with
  | zero => intro start st h; omega
  | succ fuel ih =>
    intro start st h
    obtain ⟨allResults, firstErr, sent⟩ := st
    unfold flushLoop
    by_cases hs : start < jobs.length
    · rw [if_pos hs]
      have hne : jobs.drop start ≠ [] := by
        intro hnil
        have := congrArg List.length hnil
        rw [List.length_drop, List.length_nil] at this
        omega
      obtain ⟨a, l, hd⟩ := List.exists_cons_of_ne_nil hne
      have hchunk : List.take ((if start + maxBatchSize > jobs.length then jobs.length
          else start + maxBatchSize) - start) (jobs.drop start)
          = List.take maxBatchSize (jobs.drop start) := by
        split
        · have hlen : (jobs.drop start).length ≤ maxBatchSize := by
            rw [List.length_drop]; omega
          rw [List.take_of_length_le hlen, List.take_of_length_le (by rw [List.length_drop])]
        · rw [Nat.add_sub_cancel_left]
      have hih : jobs.length - (start + maxBatchSize) < fuel := by omega
      simp only [ih _ _ hih, hchunk]
      conv_rhs => rw [hd]
      simp only [chunksOf, List.foldl_cons]
      rw [← hd, List.drop_drop]
      rfl
    · rw [if_neg hs]
      have hnil : jobs.drop start = [] := List.drop_of_length_le (by omega)
      rw [hnil]
      rfl

theorem firstError_cons (e : Option GoError) (es : List (Option GoError)) :
    firstError (e :: es) = if e ≠ none then e else firstError es := by
  cases e with
  | none => simp [firstError]
  | some x => simp [firstError]

theorem foldl_flushStep (sha1Sum : Str → List Nat)
    (remote : Nat → List InnerRequests → BatchOutcome) (maxTokens : Int) :
    ∀ (chunks : List (List llmJob)) (st : GoMap Str × Option GoError × List (List InnerRequests)),
      chunks.foldl (flushStep sha1Sum remote maxTokens) st =
        (((chunkOutcomes sha1Sum remote maxTokens st.2.2.length chunks).map Prod.fst).foldl
            (fun acc m => m.foldl (fun a kv => GoMap.set a kv.1 kv.2) acc) st.1,
         (if st.2.1 = none then
            firstError ((chunkOutcomes sha1Sum remote maxTokens st.2.2.length chunks).map Prod.snd)
          else st.2.1),
         st.2.2 ++ chunks.map (buildReqs sha1Sum maxTokens)) := by
  intro chunks
  induction chunks with
  | nil =>
    intro st
    obtain ⟨ar, fe, sent⟩ := st
    cases fe with
    | none => simp [chunkOutcomes, firstError]
    | some x => simp [chunkOutcomes]
  | cons c cs ih =>
    intro st
    obtain ⟨ar, fe, sent⟩ := st
    rw [List.foldl_cons, ih]
    simp only [flushStep, List.length_append, List.length_singleton, chunkOutcomes,
      List.map_cons, List.foldl_cons, List.append_assoc, List.singleton_append, firstError_cons]
    refine Prod.ext rfl (Prod.ext ?_ rfl)
    simp only
    cases fe with
    | some x => simp
    | none =>
      by_cases he : (RunMessageBatch (remote sent.length) (buildReqs sha1Sum maxTokens c)).2 = none
      · simp [he]
      · simp [he]

/-- Go `flush` on a dispatcher with a client, a positive `maxBatchSize`, at
least one waiter and at least one pending job: it returns, with one upstream
submission per chunk of the pending list. -/
theorem flush_eq (sha1Sum : Str → List Nat) (remote : Nat → List InnerRequests → BatchOutcome)
    (d : LLMDispatcher) (c : AnthropicBatchClient) (hc : d.client = some c)
    (hn : 0 < d.maxBatchSize) (hw : d.waiters ≠ []) (hp : d.pending ≠ []) :
    flush sha1Sum remote d = some
      { d := { d with flushScheduled := false, pending := [], waiters := [] }
        woken := wakeAll d.waiters
          (unionMaps ((chunkOutcomes sha1Sum remote c.maxTokens 0
            (jobChunks d.maxBatchSize d.pending)).map Prod.fst))
          (firstError ((chunkOutcomes sha1Sum remote c.maxTokens 0
            (jobChunks d.maxBatchSize d.pending)).map Prod.snd))
        sent := (jobChunks d.maxBatchSize d.pending).map (buildReqs sha1Sum c.maxTokens) } := by
  have hw2 : ¬ d.waiters.length = 0 := fun h => hw (List.length_eq_zero.1 h)
  have hp2 : ¬ d.pending.length = 0 := fun h => hp (List.length_eq_zero.1 h)
  unfold flush
  simp only [if_neg hw2, if_neg hp2, hc]
  rw [flushLoop_eq sha1Sum remote c.maxTokens d.maxBatchSize hn d.pending _ 0 _ (by omega)]
  rw [List.drop_zero, chunksOf_fuel d.maxBatchSize hn _ d.pending.length d.pending
    (Nat.le_succ _) (Nat.le_refl _), foldl_flushStep]
  simp only [List.length_nil, List.nil_append, if_true]
  rfl

theorem Submit_sent (sha1Sum : Str → List Nat) (remote : Nat → List InnerRequests → BatchOutcome)
    (d : LLMDispatcher) (c : AnthropicBatchClient) (hc : d.client = some c)
    (hn : 0 < d.maxBatchSize) (jobs : List llmJob) :
    (Submit sha1Sum remote d jobs).2
      = (jobChunks d.maxBatchSize (d.pending ++ jobs)).map (buildReqs sha1Sum c.maxTokens) := by
  have hkey : ∀ r, flush sha1Sum remote (SubmitEnqueue d jobs).1 = some r →
      (Submit sha1Sum remote d jobs).2 = r.sent := by
    intro r hr
    unfold Submit
    simp only [SubmitEnqueue] at hr ⊢
    rw [hr]
    simp only
    split <;> rfl
  by_cases hp : d.pending ++ jobs = []
  · rw [hp]
    have hf : ∃ r, flush sha1Sum remote (SubmitEnqueue d jobs).1 = some r ∧ r.sent = [] := by
      unfold flush
      simp only [SubmitEnqueue, hp, List.length_append, List.length_singleton, List.length_nil,
        Nat.add_one_ne_zero, if_false, if_true]
      exact ⟨_, rfl, rfl⟩
    obtain ⟨r, hr, hs⟩ := hf
    rw [hkey r hr, hs]
    rfl
  · refine (hkey _ (flush_eq sha1Sum remote (SubmitEnqueue d jobs).1 c hc hn ?_ hp)).trans rfl
    simp only [SubmitEnqueue, ne_eq, List.append_eq_nil, List.cons_ne_self, and_false,
      not_false_eq_true]

theorem Submit_sent_length (sha1Sum : Str → List Nat)
    (remote : Nat → List InnerRequests → BatchOutcome)
    (d : LLMDispatcher) (c : AnthropicBatchClient) (hc : d.client = some c)
    (hn : 0 < d.maxBatchSize) (jobs : List llmJob) :
    (Submit sha1Sum remote d jobs).2.length
      = ceilDiv (d.pending ++ jobs).length d.maxBatchSize := by
  rw [Submit_sent sha1Sum remote d c hc hn jobs, List.length_map]
  exact chunksOf_length d.maxBatchSize hn _ _ (Nat.le_refl _)

/-- C13 (the claim as stated fails for a list with duplicates). `Submit` on a
fresh dispatcher (`maxBatchSize` 200) gets 201 copies of the job
`("cat","plural")`: the list has one distinct pair, so the claimed bound is
`ceil(1/200) = 1`, and the flush issues two submissions. -/
theorem duplicates_are_submitted :
    (Submit toySum (fun _ _ => BatchOutcome.results [])
        (NewLLMDispatcher (some { maxTokens := 256 }))
        (List.replicate 201 { row := 0, text := "cat".toList, prompt := "plural".toList })).2.length
      = 2
    ∧ ceilDiv (uniquePairs
        (List.replicate 201 { row := 0, text := "cat".toList, prompt := "plural".toList })) 200
      = 1 := by
  refine ⟨?_, ?_⟩
  · rw [Submit_sent_length toySum _ _ { maxTokens := 256 } rfl (by decide)]
    simp only [NewLLMDispatcher, List.nil_append, List.length_replicate]
    decide
  · unfold uniquePairs
    rw [List.map_replicate, List.replicate_dedup (by decide)]
    decide

/-- C13 (amended). `Submit` and `flush` do not deduplicate. For every job list
passed to `Submit` on a dispatcher with a client and a positive `maxBatchSize`
(`NewLLMDispatcher` sets 200), the flush that serves it issues exactly
`ceil(n / maxBatchSize)` submissions, `n` being the number of pending jobs, those
of the list included. With nothing else pending this is
`ceil(unique / maxBatchSize)` when no (text, prompt) pair occurs twice in the
list, and exactly one when the list has between one and `maxBatchSize` jobs. -/
theorem Submit_submissions (sha1Sum : Str → List Nat)
    (remote : Nat → List InnerRequests → BatchOutcome)
    (d : LLMDispatcher) (c : AnthropicBatchClient) (hc : d.client = some c)
    (hn : 0 < d.maxBatchSize) (jobs : List llmJob) :
    (Submit sha1Sum remote d jobs).2.length
        = ceilDiv (d.pending.length + jobs.length) d.maxBatchSize
    ∧ (d.pending = [] → (jobs.map (fun j => (j.text, j.prompt))).Nodup →
        (Submit sha1Sum remote d jobs).2.length = ceilDiv (uniquePairs jobs) d.maxBatchSize)
    ∧ (d.pending = [] → 0 < jobs.length → jobs.length ≤ d.maxBatchSize →
        (Submit sha1Sum remote d jobs).2.length = 1) := by
  have h := Submit_sent_length sha1Sum remote d c hc hn jobs
  rw [List.length_append] at h
  refine ⟨h, ?_, ?_⟩
  · intro hp hnd
    rw [h, hp, List.length_nil, Nat.zero_add]
    unfold uniquePairs
    rw [hnd.dedup, List.length_map]
  · intro hp h0 hle
    rw [h, hp, List.length_nil, Nat.zero_add, ceilDiv_step _ _ hn h0,
      Nat.sub_eq_zero_of_le hle, ceilDiv_zero _ hn]

/-- C13 (amended), at work: one job on a fresh dispatcher gives one
submission. -/
theorem Submit_submissions_witness :
    (Submit toySum (fun _ _ => BatchOutcome.results [])
        (NewLLMDispatcher (some { maxTokens := 256 }))
        [{ row := 0, text := "cat".toList, prompt := "plural".toList }]).2.length = 1 :=
  (Submit_submissions toySum (fun _ _ => BatchOutcome.results [])
    (NewLLMDispatcher (some { maxTokens := 256 })) { maxTokens := 256 } rfl (by decide)
    [{ row := 0, text := "cat".toList, prompt := "plural".toList }]).2.2 rfl (by decide)
    (by decide)

/-! ## Batch dispatcher: what a flush hands to its waiters -/

/-- C14 (the claim as stated fails for a dispatcher without a client). One
caller has submitted one job to a dispatcher whose client is nil: the flush
wakes it with the error `anthropic client is nil` although no chunk was
submitted, so the error is not that of a chunk whose `RunMessageBatch` failed. -/
theorem flush_nil_client :
    flush toySum okRemote (SubmitEnqueue (NewLLMDispatcher none)
        [{ row := 0, text := "cat".toList, prompt := "plural".toList }]).1
      = some
        { d := NewLLMDispatcher none
          woken := [{ done := true, results := [],
                      err := some "anthropic client is nil".toList }]
          sent := [] } := by
  decide

/-- C14 (amended). For a dispatcher with a positive `maxBatchSize`
(`NewLLMDispatcher` sets 200), `flush` returns and wakes every waiter it took
with one and the same pair `(results, err)`. With pending jobs and a client,
`results` is the union of the result maps of all `maxBatchSize`-sized chunks of
the pending list (later chunks overwriting equal keys) and `err` is the error of
the first chunk whose `RunMessageBatch` failed, or nil; with pending jobs and a
nil client every waiter receives a nil map and the error
`anthropic client is nil`; with no pending jobs every waiter receives an empty
map and a nil error. After the flush `pending` and `waiters` are empty and
`flushScheduled` is false. -/
theorem flush_wakes_all (sha1Sum : Str → List Nat)
    (remote : Nat → List InnerRequests → BatchOutcome) (d : LLMDispatcher)
    (hn : 0 < d.maxBatchSize) :
    ∃ r, flush sha1Sum remote d = some r
      ∧ r.woken = d.waiters.map (fun _ =>
          { done := true, results := (flushPair sha1Sum remote d).1,
            err := (flushPair sha1Sum remote d).2 })
      ∧ r.d.pending = [] ∧ r.d.waiters = [] ∧ r.d.flushScheduled = false := by
  by_cases hw : d.waiters = []
  · refine ⟨_, by unfold flush; simp only [hw, List.length_nil, if_true]; rfl, ?_, rfl, rfl, rfl⟩
    simp only [hw, List.map_nil]
  · have hw2 : ¬ d.waiters.length = 0 := fun h => hw (List.length_eq_zero.1 h)
    by_cases hp : d.pending = []
    · refine ⟨_, by unfold flush; simp only [hp, if_neg hw2, List.length_nil, if_true]; rfl,
        ?_, rfl, rfl, rfl⟩
      simp only [flushPair, hp, if_true, wakeAll]
    · have hp2 : ¬ d.pending.length = 0 := fun h => hp (List.length_eq_zero.1 h)
      cases hc : d.client with
      | none =>
        refine ⟨_, by unfold flush; simp only [hc, if_neg hw2, if_neg hp2]; rfl,
          ?_, rfl, rfl, rfl⟩
        simp only [flushPair, hc, if_neg hp, wakeAll]
      | some c =>
        refine ⟨_, flush_eq sha1Sum remote d c hc hn hw hp, ?_, rfl, rfl, rfl⟩
        simp only [flushPair, hc, if_neg hp, wakeAll]

/-- C14 (amended), at work: two callers, one job each, one flush window; both
are woken with the same map of two answers and no error. -/
theorem flush_wakes_all_witness :
    flushPair toySum okRemote twoWaiters
        = ([("r0_c80a00000000".toList, "ok".toList), ("r0_ca0a00000000".toList, "ok".toList)],
           none)
    ∧ ∃ r, flush toySum okRemote twoWaiters = some r
      ∧ r.woken = twoWaiters.waiters.map (fun _ =>
          { done := true, results := (flushPair toySum okRemote twoWaiters).1,
            err := (flushPair toySum okRemote twoWaiters).2 })
      ∧ r.d.pending = [] ∧ r.d.waiters = [] ∧ r.d.flushScheduled = false :=
  ⟨by decide, flush_wakes_all toySum okRemote twoWaiters (by decide)⟩

/-! ## Batch dispatcher: the custom ids of one submission -/

/-- C15 (the code breaks the claim). Two callers submit the job
`("cat","plural")` within one flush window; the jobs carry the row 0, as every
job that `aiLLM` and `aiLLMBatch` build. The flush places both in one upstream
batch, and the two requests carry the same custom id, whatever SHA-1 is. -/
theorem same_pair_same_custom_id (sha1Sum : Str → List Nat)
    (remote : Nat → List InnerRequests → BatchOutcome) :
    ∃ r, flush sha1Sum remote twoSamePair = some r
      ∧ r.sent.map (fun reqs => reqs.map (fun q => q.CustomId))
          = [[makeCustomID sha1Sum 0 "cat".toList "plural".toList,
              makeCustomID sha1Sum 0 "cat".toList "plural".toList]]
      ∧ ∃ reqs ∈ r.sent, ¬ (reqs.map (fun q => q.CustomId)).Nodup := by
  refine ⟨_, flush_eq sha1Sum remote twoSamePair { maxTokens := 256 } rfl (by decide)
    (by decide) (by decide), rfl, ?_⟩
  refine ⟨_, List.mem_singleton.2 rfl, ?_⟩
  intro hnd
  exact (List.nodup_cons.1 hnd).1 (List.mem_singleton.2 rfl)

/-! ## Initialisation: mode selection -/

/-- C16 (the claim as stated fails). With the API key set and `QUACK_LLM_MODE`
set to `turbo`, which is none of `single`, `fused`, `batch`, both `init` and
`initExtension` succeed and construct the batch dispatcher. -/
theorem unknown_mode_selects_batch :
    init (envWithMode "turbo".toList) = InitOutcome.done batchGlobals
    ∧ initExtension (envWithMode "turbo".toList) none
        = { ok := true, error := none, globals := batchGlobals } := by
  decide

/-- C16 (amended). Mode selection does not reject unknown modes: for every
value of `QUACK_LLM_MODE` other than `single` and `fused` (unset, `batch` or
anything else) initialisation takes the batch branch. With `ANTHROPIC_API_KEY`
set, `init` constructs the batch dispatcher and no other handle, and so does
`initExtension`, which then fails only if the registration of `ai_llm` fails;
with the key missing, `init` panics and `initExtension` returns false with the
error set, and no handle is constructed. -/
theorem unknown_mode_is_batch (env : ProcessEnv) (registerErr : Option GoError)
    (hs : env.QUACK_LLM_MODE ≠ "single".toList) (hf : env.QUACK_LLM_MODE ≠ "fused".toList) :
    (env.ANTHROPIC_API_KEY ≠ [] →
      init env = InitOutcome.done batchGlobals
      ∧ (initExtension env registerErr).globals = batchGlobals
      ∧ ((initExtension env registerErr).ok = true ↔ registerErr = none))
    ∧ (env.ANTHROPIC_API_KEY = [] →
      init env = InitOutcome.panic
        "Failed to init batch client: ANTHROPIC_API_KEY is not set".toList
      ∧ initExtension env registerErr =
          { ok := false
            error := some "Failed to init Anthropic batch client: ANTHROPIC_API_KEY is not set".toList
            globals := { dispatcher := none, singleClient := none, fusedDispatcher := none } }) := by
  refine ⟨fun hk => ?_, fun hk => ?_⟩
  · refine ⟨?_, ?_, ?_⟩
    · simp only [init, if_neg hs, if_neg hf, NewAnthropicBatchClientFromEnv, if_neg hk]
      rfl
    · simp only [initExtension, if_neg hs, if_neg hf, NewAnthropicBatchClientFromEnv, if_neg hk]
      cases registerErr <;> rfl
    · simp only [initExtension, if_neg hs, if_neg hf, NewAnthropicBatchClientFromEnv, if_neg hk]
      cases registerErr <;> simp
  · refine ⟨?_, ?_⟩
    · simp only [init, if_neg hs, if_neg hf, NewAnthropicBatchClientFromEnv, if_pos hk]
      rfl
    · simp only [initExtension, if_neg hs, if_neg hf, NewAnthropicBatchClientFromEnv, if_pos hk]
      rfl

/-- C16 (amended), at work: the mode `batch`, and no key. -/
theorem unknown_mode_is_batch_witness :
    init { QUACK_LLM_MODE := "batch".toList, ANTHROPIC_API_KEY := [], fused := noEnv }
      = InitOutcome.panic "Failed to init batch client: ANTHROPIC_API_KEY is not set".toList :=
  ((unknown_mode_is_batch
    { QUACK_LLM_MODE := "batch".toList, ANTHROPIC_API_KEY := [], fused := noEnv } none
    (by decide) (by decide)).2 rfl).1

/-! ## Single client: the answer of `Run` -/

theorem foldl_concat (blocks : List Str) :
    ∀ acc : Str, blocks.foldl (fun out t => if t ≠ [] then out ++ t else out) acc
      = acc ++ blocks.flatten := by
  induction blocks with
  | nil => intro acc; simp
  | cons b bs ih =>
    intro acc
    rw [List.foldl_cons, ih, List.flatten_cons]
    by_cases hb : b = []
    · simp [hb]
    · simp [hb]

theorem concatBlocks_eq (blocks : List Str) : concatBlocks blocks = blocks.flatten := by
  unfold concatBlocks
  rw [foldl_concat, List.nil_append]

/-- C17 (the claim as stated fails). The upstream call succeeds with a response
whose only content block has no text: `Run` returns the empty string with a nil
error. -/
theorem Run_empty_on_success :
    AnthropicSingleClient.Run (fun _ => MessagesOutcome.content [[]])
        "cat".toList "plural".toList = ([], none) := by
  decide

/-- C17 (amended). `Run` returns a nil error exactly when `CreateMessages`
succeeds, and then the returned string is the concatenation of the texts of the
response's content blocks: it is non-empty if and only if some block has a
non-empty text. -/
theorem Run_answer (remote : Str → MessagesOutcome) (text prompt : Str) :
    ((AnthropicSingleClient.Run remote text prompt).2 = none ↔
      ∃ blocks, remote ("TEXT:\n".toList ++ text ++ "\n\nINSTRUCTION:\n".toList ++ prompt ++
        "\n\nReturn only the answer text.".toList) = MessagesOutcome.content blocks)
    ∧ ∀ blocks, remote ("TEXT:\n".toList ++ text ++ "\n\nINSTRUCTION:\n".toList ++ prompt ++
        "\n\nReturn only the answer text.".toList) = MessagesOutcome.content blocks →
      AnthropicSingleClient.Run remote text prompt = (blocks.flatten, none)
      ∧ ((AnthropicSingleClient.Run remote text prompt).1 ≠ [] ↔ ∃ b ∈ blocks, b ≠ []) := by
  refine ⟨?_, ?_⟩
  · unfold AnthropicSingleClient.Run
    simp only
    cases h : remote ("TEXT:\n".toList ++ text ++ "\n\nINSTRUCTION:\n".toList ++ prompt ++
        "\n\nReturn only the answer text.".toList) with
    | failed e => simp
    | content blocks => simp
  · intro blocks h
    have hrun : AnthropicSingleClient.Run remote text prompt = (blocks.flatten, none) := by
      unfold AnthropicSingleClient.Run
      simp only [h, concatBlocks_eq]
    rw [hrun]
    refine ⟨rfl, ?_⟩
    simp only [ne_eq, List.flatten_eq_nil_iff, not_forall]
    constructor
    · rintro ⟨b, hb, hne⟩
      exact ⟨b, hb, hne⟩
    · rintro ⟨b, hb, hne⟩
      exact ⟨b, hb, hne⟩

/-- C17 (amended), at work: two text blocks are concatenated. -/
theorem Run_answer_witness :
    AnthropicSingleClient.Run (fun _ => MessagesOutcome.content ["ca".toList, "ts".toList])
        "cat".toList "plural".toList = ("cats".toList, none) :=
  ((Run_answer (fun _ => MessagesOutcome.content ["ca".toList, "ts".toList])
    "cat".toList "plural".toList).2 ["ca".toList, "ts".toList] rfl).1

/-! ## Fingerprints: the format of `customID` -/

theorem hexEncodeToString_length (bs : List Nat) :
    (hexEncodeToString bs).length = 2 * bs.length := by
  induction bs with
  | nil => rfl
  | cons b bs ih =>
    have h : hexEncodeToString (b :: bs)
        = [hexDigit ((b % 256) / 16), hexDigit ((b % 256) % 16)] ++ hexEncodeToString bs := by
      simp only [hexEncodeToString, List.flatMap_cons]
    rw [h, List.length_append, ih, List.length_cons]
    simp only [List.length_cons, List.length_nil]
    omega

theorem hexDigit_mem : ∀ n, n < 16 → hexDigit n ∈ hextable := by
  decide

theorem hexEncodeToString_mem (bs : List Nat) :
    ∀ c ∈ hexEncodeToString bs, c ∈ hextable := by
  intro c hc
  simp only [hexEncodeToString, List.mem_flatMap, List.mem_cons, List.mem_singleton,
    List.not_mem_nil, or_false] at hc
  obtain ⟨b, _, h | h⟩ := hc
  · rw [h]
    exact hexDigit_mem _ (by omega)
  · rw [h]
    exact hexDigit_mem _ (by omega)

theorem customID_length (sha1Sum : Str → List Nat) (hlen : ∀ s, (sha1Sum s).length = 20)
    (text prompt : Str) : (customID sha1Sum text prompt).length = 16 := by
  unfold customID
  rw [hexEncodeToString_length, List.length_take, hlen]
  rfl

/-- C18 (the claim as stated fails on the width). Whatever 20-byte digest
`sha1.Sum` computes, the fingerprint of `("cat","plural")` does not have 8
characters. -/
theorem customID_not_8_chars :
    ¬ ∃ sha1Sum : Str → List Nat, (∀ s, (sha1Sum s).length = 20)
        ∧ (customID sha1Sum "cat".toList "plural".toList).length = 8 := by
  rintro ⟨f, hf, h8⟩
  rw [customID_length f hf] at h8
  exact absurd h8 (by decide)

/-- C18 (amended). For every text and prompt, `customID(text, prompt)` is a
fixed-width string of exactly 16 lower-case hexadecimal characters, namely the
hex encoding of the first 8 bytes of the SHA-1 digest (20 bytes) of
`text ++ [0x00] ++ prompt`; it is a function of `(text, prompt)` alone. -/
theorem customID_format (sha1Sum : Str → List Nat) (hlen : ∀ s, (sha1Sum s).length = 20)
    (text prompt : Str) :
    (customID sha1Sum text prompt).length = 16
    ∧ (∀ c ∈ customID sha1Sum text prompt, c ∈ "0123456789abcdef".toList)
    ∧ customID sha1Sum text prompt
        = hexEncodeToString ((sha1Sum (text ++ [Char.ofNat 0] ++ prompt)).take 8)
    ∧ ((sha1Sum (text ++ [Char.ofNat 0] ++ prompt)).take 8).length = 8 :=
  ⟨customID_length sha1Sum hlen text prompt,
   fun c hc => hexEncodeToString_mem _ c hc, rfl,
   by rw [List.length_take, hlen]; rfl⟩

/-- C18 (amended), at work, with a toy 20-byte digest in the place of SHA-1. -/
theorem customID_format_witness :
    customID toySum "cat".toList "plural".toList = "c80a000000000000".toList
    ∧ (customID toySum "cat".toList "plural".toList).length = 16 :=
  ⟨by decide, (customID_format toySum (fun s => by simp [toySum]) "cat".toList
    "plural".toList).1⟩

/-! ## The retry helper: the sleep after a failed attempt -/

/-- C20 (the code breaks the claim). With a backoff of 100 ms, 40 retries and
every attempt failing, the shift `backoff << 37` overflows the 64-bit duration
and gives a negative value: the helper calls `time.Sleep` with it after attempt
37, which does not sleep, where the claim asks for
`min(backoff * 2^37, 500 ms) = 500 ms`. The sleeps after the attempts 36 and 38
are 500 ms. -/
theorem backoff_shift_overflows :
    (callBundledWithRetry (fun _ => ([], some "context deadline exceeded".toList))
        40 (100 * 1000000)).map
      (fun r => (r.attempts, r.sleeps.length, r.sleeps.get? 36, r.sleeps.get? 37,
        r.sleeps.get? 38))
      = some (41, 40, some (500 * 1000000), some (-4702848726509551616), some (500 * 1000000))
    ∧ min ((100 * 1000000 : Int) * 2 ^ 37) (500 * 1000000) = 500 * 1000000 := by
  decide

/-- The argument of `time.Sleep` never exceeds 500 ms. -/
theorem sleepTime_le (backoff : Int) (k : Nat) : sleepTime backoff k ≤ 500 * 1000000 := by
  unfold sleepTime
  simp only
  split
  · exact Int.le_refl _
  · omega

/-- Without overflow the sleep is `min(backoff * 2^k, 500 ms)`. -/
theorem sleepTime_eq_min (backoff : Int) (k : Nat) (h0 : 0 ≤ backoff)
    (hlt : backoff * 2 ^ k < 2 ^ 63) :
    sleepTime backoff k = min (backoff * 2 ^ k) (500 * 1000000) := by
  have hpos : (0 : Int) ≤ backoff * 2 ^ k := Int.mul_nonneg h0 (by positivity)
  have hw : wrap64 (backoff * 2 ^ k) = backoff * 2 ^ k := by
    unfold wrap64
    rw [Int.emod_eq_of_lt (by omega) (by omega)]
    omega
  unfold sleepTime shl64
  simp only [hw]
  split
  · rw [min_eq_right (by omega)]
  · rw [min_eq_left (by omega)]

/-! ## Fused dispatcher: routing in `runMultiBatch` -/

/-- A loop whose body changes only the cache of the text of its own item leaves,
for every item, the cache that the body makes of the initial one. -/
theorem foldl_cache_local {α : Type} (step : FusedDispatcher → α → FusedDispatcher)
    (ptr : α → Nat) (txt : α → Str) (dbg : Bool) (sp : Str)
    (cupd : α → fusedBatch → (Str → Option Str) → Str → Option Str)
    (hown : ∀ d a, d.debug = dbg → d.sep = sp → ptr a < d.heap.length →
      (GoMap.keys (getBatch d.heap (ptr a)).prompts).Nodup →
      ∀ p, cacheGet (step d a).cache (txt a) p
        = cupd a (getBatch d.heap (ptr a)) (cacheGet d.cache (txt a)) p)
    (hcother : ∀ d a t p, t ≠ txt a → cacheGet (step d a).cache t p = cacheGet d.cache t p)
    (hother : ∀ d a b2, b2 ≠ ptr a → getBatch (step d a).heap b2 = getBatch d.heap b2)
    (hlen : ∀ d a, (step d a).heap.length = d.heap.length)
    (hcfg : ∀ d a, (step d a).debug = d.debug ∧ (step d a).sep = d.sep) :
    ∀ (l : List α) (d : FusedDispatcher), d.debug = dbg → d.sep = sp →
      (l.map ptr).Nodup → (l.map txt).Nodup → (∀ a ∈ l, ptr a < d.heap.length) →
      (∀ a ∈ l, (GoMap.keys (getBatch d.heap (ptr a)).prompts).Nodup) →
      (∀ a ∈ l, ∀ p, cacheGet (l.foldl step d).cache (txt a) p
        = cupd a (getBatch d.heap (ptr a)) (cacheGet d.cache (txt a)) p)
      ∧ (∀ t, t ∉ l.map txt → ∀ p, cacheGet (l.foldl step d).cache t p = cacheGet d.cache t p) := by
  intro l
  induction l with
  | nil =>
    intro d _ _ _ _ _ _
    exact ⟨fun a ha => absurd ha (List.not_mem_nil _), fun t _ p => rfl⟩
  | cons x l ih =>
    intro d hd hs hnd hnt hlt hk
    simp only [List.map_cons, List.nodup_cons] at hnd hnt
    have hne : ∀ a ∈ l, ptr a ≠ ptr x := by
      intro a ha e
      apply hnd.1
      rw [← e]
      exact List.mem_map_of_mem ptr ha
    have hnet : ∀ a ∈ l, txt a ≠ txt x := by
      intro a ha e
      apply hnt.1
      rw [← e]
      exact List.mem_map_of_mem txt ha
    obtain ⟨ih1, ih2⟩ := ih (step d x) ((hcfg d x).1.trans hd) ((hcfg d x).2.trans hs) hnd.2
      hnt.2 (fun a ha => by rw [hlen]; exact hlt a (List.mem_cons_of_mem _ ha))
      (fun a ha => by
        rw [hother d x (ptr a) (hne a ha)]
        exact hk a (List.mem_cons_of_mem _ ha))
    simp only [List.foldl_cons]
    refine ⟨?_, ?_⟩
    · intro a ha p
      rcases List.mem_cons.1 ha with h | h
      · subst h
        rw [ih2 (txt a) hnt.1 p]
        exact hown d a hd hs (hlt a (List.mem_cons_self _ _)) (hk a (List.mem_cons_self _ _)) p
      · rw [ih1 a h p, hother d x (ptr a) (hne a h)]
        have hfun : cacheGet (step d x).cache (txt a) = cacheGet d.cache (txt a) :=
          funext (fun q => hcother d x (txt a) q (hnet a h))
        rw [hfun]
    · intro t ht p
      simp only [List.map_cons, List.mem_cons, not_or] at ht
      rw [ih2 t ht.2 p, hcother d x t p ht.1]

theorem finishLine_result (d : FusedDispatcher) (e : fusedWorkItem × Str)
    (hb : e.1.b < d.heap.length) :
    getBatch (finishLine d e.1 e.2).heap e.1.b
      = lineResult d.debug d.sep e (getBatch d.heap e.1.b) := by
  unfold finishLine lineResult
  by_cases hl : (splitFused e.2 d.sep).length ≠ e.1.promptList.length
  · simp only [hl, if_true, ne_eq, not_false_eq_true]
    rw [mismatchBatch_batch _ _ _ _ _ hb]
  · simp only [hl, if_false]
    rw [succeedBatch_batch _ _ _ _ _ hb]

theorem inner_get (c : GoMap (GoMap Str)) (t p : Str) :
    GoMap.get ((GoMap.get c t).getD []) p = cacheGet c t p := by
  unfold cacheGet
  cases GoMap.get c t <;> rfl

theorem finishLine_cache_own (d : FusedDispatcher) (e : fusedWorkItem × Str)
    (hb : e.1.b < d.heap.length)
    (hk : (GoMap.keys (getBatch d.heap e.1.b).prompts).Nodup) (p : Str) :
    cacheGet (finishLine d e.1 e.2).cache e.1.text p
      = lineCache d.sep e (getBatch d.heap e.1.b) (cacheGet d.cache e.1.text) p := by
  unfold finishLine lineCache
  by_cases hl : (splitFused e.2 d.sep).length ≠ e.1.promptList.length
  · simp only [hl, if_true, ne_eq, not_false_eq_true]
    rfl
  · simp only [hl, if_false]
    rw [succeedBatch_cache _ _ _ _ _ hb, cacheGet_set, if_pos rfl,
      cacheAnswers_get _ _ _ (zipSet_keys _ _ _ hk), inner_get]

theorem finishLine_cache_other (d : FusedDispatcher) (e : fusedWorkItem × Str) (t p : Str)
    (ht : t ≠ e.1.text) :
    cacheGet (finishLine d e.1 e.2).cache t p = cacheGet d.cache t p := by
  unfold finishLine
  dsimp only
  split
  · rfl
  · simp only [succeedBatch, releaseBatch]
    rw [cacheGet_set, if_neg (fun h => ht h.symm)]

theorem TrimSpace_all_space (s : Str) (h : ∀ c ∈ s, isSpace c = true) : TrimSpace s = [] := by
  unfold TrimSpace
  rw [List.dropWhile_eq_nil_iff.2 h]
  rfl

theorem all_space_of_TrimSpace (s : Str) (h : TrimSpace s = []) : ∀ c ∈ s, isSpace c = true := by
  unfold TrimSpace at h
  have h1 : ∀ c ∈ s.dropWhile isSpace, isSpace c = true := List.rdropWhile_eq_nil_iff.1 h
  have h2 : s.dropWhile isSpace = [] := by
    by_contra hne
    have hh := List.head_dropWhile_not isSpace s hne
    rw [h1 _ (List.head_mem hne)] at hh
    exact absurd hh (by decide)
  exact List.dropWhile_eq_nil_iff.1 h2

theorem splitGo_chars (sep : Str) :
    ∀ (s : Str) (k : Nat) (acc : Str), ∀ piece ∈ splitGo sep k acc s, ∀ c ∈ piece,
      c ∈ acc ∨ c ∈ s := by
  intro s
  induction s with
  | nil =>
    intro k acc piece hp c hc
    cases k with
    | zero =>
      simp only [splitGo, List.mem_singleton] at hp
      rw [hp, List.mem_reverse] at hc
      exact Or.inl hc
    | succ k =>
      simp only [splitGo, List.mem_singleton] at hp
      rw [hp, List.mem_reverse] at hc
      exact Or.inl hc
  | cons x xs ih =>
    intro k acc piece hp c hc
    cases k with
    | succ k =>
      simp only [splitGo] at hp
      rcases ih k acc piece hp c hc with h | h
      · exact Or.inl h
      · exact Or.inr (List.mem_cons_of_mem _ h)
    | zero =>
      simp only [splitGo] at hp
      split at hp
      · rcases List.mem_cons.1 hp with h | h
        · rw [h, List.mem_reverse] at hc
          exact Or.inl hc
        · rcases ih _ [] piece h c hc with h2 | h2
          · exact absurd h2 (List.not_mem_nil _)
          · exact Or.inr (List.mem_cons_of_mem _ h2)
      · rcases ih 0 (x :: acc) piece hp c hc with h | h
        · rcases List.mem_cons.1 h with h2 | h2
          · exact Or.inr (by rw [h2]; exact List.mem_cons_self _ _)
          · exact Or.inl h2
        · exact Or.inr (List.mem_cons_of_mem _ h)

theorem Split_chars (s sep : Str) : ∀ piece ∈ Split s sep, ∀ c ∈ piece, c ∈ s := by
  intro piece hp c hc
  unfold Split at hp
  split at hp
  · simp only [List.mem_map] at hp
    obtain ⟨x, hx, hpx⟩ := hp
    rw [← hpx, List.mem_singleton] at hc
    rw [hc]
    exact hx
  · rcases splitGo_chars sep s 0 [] piece hp c hc with h | h
    · exact absurd h (List.not_mem_nil _)
    · exact h

/-- A blank reply has no lines. -/
theorem splitLines_blank (s : Str) (h : TrimSpace s = []) : splitLines s = [] := by
  have hs := all_space_of_TrimSpace s h
  unfold splitLines
  simp only [List.filterMap_eq_nil_iff]
  intro piece hp
  have hall : ∀ c ∈ piece, isSpace c = true := by
    intro c hc
    have hm := Split_chars _ _ piece hp c hc
    exact hs c (List.mem_filter.1 hm).1
  rw [TrimSpace_all_space piece hall]
  rfl

theorem foldl_cache_eq {α : Type} (step : FusedDispatcher → α → FusedDispatcher)
    (h : ∀ x a, (step x a).cache = x.cache) (l : List α) (d : FusedDispatcher) :
    (l.foldl step d).cache = d.cache := by
  induction l generalizing d with
  | nil => rfl
  | cons a l ih => rw [List.foldl_cons, ih, h]

/-- The reply of `runMultiBatch` has as many lines as there are items: the batch
and the cache of every item are what its line makes of them. -/
theorem runMultiBatch_lines (env : Env) (d : FusedDispatcher) (first : fusedWorkItem)
    (rest : List fusedWorkItem) (hwf : ItemsWf d (first :: rest))
    (hsame : ∀ it ∈ first :: rest, it.promptList.length = first.promptList.length)
    (r : Str × Option GoError)
    (hr : r = AnthropicSingleClient.Run (env.createMessages d.upstream.length) []
      (multiPayload d.sep first.promptList.length (first :: rest)))
    (herr : r.2 = none) (hcount : (splitLines r.1).length = (first :: rest).length)
    (i : Nat) (it : fusedWorkItem) (line : Str)
    (hi : (first :: rest)[i]? = some it) (hline : (splitLines r.1)[i]? = some line) :
    getBatch (runMultiBatch env d (first :: rest)).heap it.b
      = lineResult d.debug d.sep (it, line) (getBatch d.heap it.b)
    ∧ ∀ p, cacheGet (runMultiBatch env d (first :: rest)).cache it.text p
      = lineCache d.sep (it, line) (getBatch d.heap it.b) (cacheGet d.cache it.text) p := by
  obtain ⟨d1, hd1⟩ : ∃ d1 : FusedDispatcher, d1 = { d with upstream := d.upstream ++
      [multiPayload d.sep first.promptList.length (first :: rest)] } := ⟨_, rfl⟩
  have hdebug1 : d1.debug = d.debug := by rw [hd1]
  have hsep1 : d1.sep = d.sep := by rw [hd1]
  have hheap1 : d1.heap = d.heap := by rw [hd1]
  have hcache1 : d1.cache = d.cache := by rw [hd1]
  have hlt1 : ∀ it ∈ first :: rest, it.b < d1.heap.length := by rw [hheap1]; exact hwf.ptr_lt
  rw [runMultiBatch_same_length env d first rest hsame r d1 hr hd1]
  have hnb : ¬ (r.2 ≠ none ∨ TrimSpace r.1 = []) := by
    rintro (h | h)
    · exact h herr
    · rw [splitLines_blank _ h] at hcount
      simp only [List.length_nil, List.length_cons] at hcount
      omega
  rw [if_neg hnb, if_neg (not_not.2 hcount)]
  have hzi : ((first :: rest).zip (splitLines r.1))[i]? = some (it, line) := by
    rw [List.getElem?_zip_eq_some]
    exact ⟨hi, hline⟩
  have hzmem : (it, line) ∈ (first :: rest).zip (splitLines r.1) :=
    List.mem_iff_getElem?.2 ⟨i, hzi⟩
  have hfst : ((first :: rest).zip (splitLines r.1)).map Prod.fst = first :: rest :=
    List.map_fst_zip _ _ (by rw [hcount])
  have hmapb : ((first :: rest).zip (splitLines r.1)).map (fun e => e.1.b)
      = (first :: rest).map (fun a => a.b) := by
    conv_rhs => rw [← hfst]
    rw [List.map_map]
    rfl
  have hmapt : ((first :: rest).zip (splitLines r.1)).map (fun e => e.1.text)
      = (first :: rest).map (fun a => a.text) := by
    conv_rhs => rw [← hfst]
    rw [List.map_map]
    rfl
  obtain ⟨_, h2, h3, h4⟩ := finishLine_local d.sep
  refine ⟨?_, ?_⟩
  · have hfold := (foldl_batch_local
      (fun x (e : fusedWorkItem × Str) => finishLine x e.1 e.2)
      (fun e => e.1.b) d.debug d.sep (lineResult d.debug d.sep)
      (fun x e hx hs hb => by rw [finishLine_result x e hb, hx, hs])
      (fun x e b2 h => h2 x e b2 h)
      (fun x e => h3 x e)
      (fun x e => h4 x e)
      ((first :: rest).zip (splitLines r.1)) d1 hdebug1 hsep1
      (by rw [hmapb]; exact hwf.ptr_nodup)
      (fun e he => hlt1 e.1 (List.of_mem_zip he).1)).1 (it, line) hzmem
    rw [hfold, hheap1]
  · intro p
    have hfold := (foldl_cache_local
      (fun x (e : fusedWorkItem × Str) => finishLine x e.1 e.2)
      (fun e => e.1.b) (fun e => e.1.text) d.debug d.sep (lineCache d.sep)
      (fun x e _ hs hb hk q => by rw [finishLine_cache_own x e hb hk q, hs])
      (fun x e t q ht => finishLine_cache_other x e t q ht)
      (fun x e b2 h => h2 x e b2 h)
      (fun x e => h3 x e)
      (fun x e => h4 x e)
      ((first :: rest).zip (splitLines r.1)) d1 hdebug1 hsep1
      (by rw [hmapb]; exact hwf.ptr_nodup) (by rw [hmapt]; exact hwf.text_nodup)
      (fun e he => hlt1 e.1 (List.of_mem_zip he).1)
      (fun e he => by rw [hheap1]; exact hwf.keys_nodup e.1 (List.of_mem_zip he).1)).1
      (it, line) hzmem p
    rw [hfold, hheap1, hcache1]

/-- The reply of `runMultiBatch` has another number of lines than there are
items: every batch gets the failure or the mismatch block and the cache is left
as it is. -/
theorem runMultiBatch_line_count (env : Env) (d : FusedDispatcher) (first : fusedWorkItem)
    (rest : List fusedWorkItem) (hwf : ItemsWf d (first :: rest))
    (hsame : ∀ it ∈ first :: rest, it.promptList.length = first.promptList.length)
    (r : Str × Option GoError)
    (hr : r = AnthropicSingleClient.Run (env.createMessages d.upstream.length) []
      (multiPayload d.sep first.promptList.length (first :: rest)))
    (herr : r.2 = none) (hcount : (splitLines r.1).length ≠ (first :: rest).length)
    (it : fusedWorkItem) (hmem : it ∈ first :: rest) :
    (runMultiBatch env d (first :: rest)).cache = d.cache
    ∧ (TrimSpace r.1 = [] →
        getBatch (runMultiBatch env d (first :: rest)).heap it.b
          = { setAll (getBatch d.heap it.b) "ERR:<nil>".toList d.debug none with done := true })
    ∧ (TrimSpace r.1 ≠ [] →
        getBatch (runMultiBatch env d (first :: rest)).heap it.b
          = mismatchResult d.debug
              ("lines=".toList ++ itoa (splitLines r.1).length ++ " raw=".toList ++ r.1)
              ("got ".toList ++ itoa (splitLines r.1).length ++ " lines, want ".toList ++
                itoa (first :: rest).length)
              (getBatch d.heap it.b)) := by
  obtain ⟨d1, hd1⟩ : ∃ d1 : FusedDispatcher, d1 = { d with upstream := d.upstream ++
      [multiPayload d.sep first.promptList.length (first :: rest)] } := ⟨_, rfl⟩
  have hdebug1 : d1.debug = d.debug := by rw [hd1]
  have hsep1 : d1.sep = d.sep := by rw [hd1]
  have hheap1 : d1.heap = d.heap := by rw [hd1]
  have hcache1 : d1.cache = d.cache := by rw [hd1]
  have hlt1 : ∀ it ∈ first :: rest, it.b < d1.heap.length := by rw [hheap1]; exact hwf.ptr_lt
  rw [runMultiBatch_same_length env d first rest hsame r d1 hr hd1]
  by_cases hb : TrimSpace r.1 = []
  · rw [if_pos (Or.inr hb)]
    refine ⟨?_, fun _ => ?_, fun h => absurd hb h⟩
    · rw [foldl_cache_eq _ (by intro x a; rfl), hcache1]
    · have hfold := (foldl_batch_local
        (fun x (a : fusedWorkItem) => failBatch x a.text a.b ("ERR:".toList ++ sprintErr r.2) r.2)
        (fun a => a.b) d.debug d.sep
        (fun _ x => { setAll x ("ERR:".toList ++ sprintErr r.2) d.debug r.2 with done := true })
        (fun x a hx _ hb => by rw [failBatch_batch _ _ _ _ _ hb, hx])
        (fun x a b2 h => (getBatch_blocks_ne x a.text a.b b2 h).1 _ _)
        (fun x a => (heap_length_blocks x a.text a.b).1 _ _)
        (fun x a => ⟨rfl, rfl⟩)
        (first :: rest) d1 hdebug1 hsep1 hwf.ptr_nodup hlt1).1 it hmem
      rw [hfold, hheap1, herr]
      rfl
  · have hnb : ¬ (r.2 ≠ none ∨ TrimSpace r.1 = []) := by
      rintro (h | h)
      · exact h herr
      · exact hb h
    rw [if_neg hnb, if_pos hcount]
    refine ⟨?_, fun h => absurd h hb, fun _ => ?_⟩
    · rw [foldl_cache_eq _ (by intro x a; rfl), hcache1]
    · have hfold := (foldl_batch_local
        (fun x (a : fusedWorkItem) => mismatchBatch x a.text a.b
          ("lines=".toList ++ itoa (splitLines r.1).length ++ " raw=".toList ++ r.1)
          ("got ".toList ++ itoa (splitLines r.1).length ++ " lines, want ".toList ++
            itoa (first :: rest).length))
        (fun a => a.b) d.debug d.sep
        (fun _ x => mismatchResult d.debug
          ("lines=".toList ++ itoa (splitLines r.1).length ++ " raw=".toList ++ r.1)
          ("got ".toList ++ itoa (splitLines r.1).length ++ " lines, want ".toList ++
            itoa (first :: rest).length) x)
        (fun x a hx _ hb => by
          rw [mismatchBatch_batch _ _ _ _ _ hb, hx]
          rfl)
        (fun x a b2 h => (getBatch_blocks_ne x a.text a.b b2 h).2.1 _ _)
        (fun x a => (heap_length_blocks x a.text a.b).2.1 _ _)
        (fun x a => ⟨rfl, rfl⟩)
        (first :: rest) d1 hdebug1 hsep1 hwf.ptr_nodup hlt1).1 it hmem
      rw [hfold, hheap1]

/-- Multi-text routing in `runMultiBatch`. Let it run on a non-empty list of
work items as `flushText` makes them, whose prompt lists all have the same
length, and let the upstream reply come without error. If `splitLines` gives
exactly `len(items)` lines, then for every item `i` whose line `i` has as many
parts as the item has prompts, the answer of the item's `j`-th prompt is the
`j`-th part of line `i`, for every `j`; the item's `err` is nil, its batch is
completed and those answers are cached; while an item whose line has another
number of parts fails, and only that item. If the line count differs from
`len(items)` and the reply is not blank, every item fails, with the error
`got L lines, want N` when debug is off. After a blank reply every batch is
completed with a nil error: with debug off no answer is slotted in, with debug
on every slot holds `ERR:<nil>`. -/
theorem runMultiBatch_routes (env : Env) (d : FusedDispatcher) (first : fusedWorkItem)
    (rest : List fusedWorkItem) (hwf : ItemsWf d (first :: rest))
    (hsame : ∀ it ∈ first :: rest, it.promptList.length = first.promptList.length)
    (r : Str × Option GoError)
    (hr : r = AnthropicSingleClient.Run (env.createMessages d.upstream.length) []
      (multiPayload d.sep first.promptList.length (first :: rest)))
    (herr : r.2 = none) :
    ((splitLines r.1).length = (first :: rest).length →
      ∀ (i : Nat) (it : fusedWorkItem) (line : Str),
        (first :: rest)[i]? = some it → (splitLines r.1)[i]? = some line →
        ((splitFused line d.sep).length = it.promptList.length →
          (∀ (j : Nat) (p a : Str), it.promptList[j]? = some p →
            (splitFused line d.sep)[j]? = some a →
            GoMap.get (getBatch (runMultiBatch env d (first :: rest)).heap it.b).prompts p
              = some a
            ∧ cacheGet (runMultiBatch env d (first :: rest)).cache it.text p = some a)
          ∧ (getBatch (runMultiBatch env d (first :: rest)).heap it.b).err = none
          ∧ (getBatch (runMultiBatch env d (first :: rest)).heap it.b).done = true)
        ∧ ((splitFused line d.sep).length ≠ it.promptList.length →
          itemFailed d (runMultiBatch env d (first :: rest)) it
          ∧ (d.debug = false →
            (getBatch (runMultiBatch env d (first :: rest)).heap it.b).err
              = some ("mgot ".toList ++ itoa (splitFused line d.sep).length ++
                  ", want ".toList ++ itoa it.promptList.length))))
    ∧ ((splitLines r.1).length ≠ (first :: rest).length → TrimSpace r.1 ≠ [] →
      ∀ it ∈ first :: rest,
        itemFailed d (runMultiBatch env d (first :: rest)) it
        ∧ (d.debug = false →
          (getBatch (runMultiBatch env d (first :: rest)).heap it.b).err
            = some ("got ".toList ++ itoa (splitLines r.1).length ++ " lines, want ".toList ++
                itoa (first :: rest).length)))
    ∧ (TrimSpace r.1 = [] →
      ∀ it ∈ first :: rest,
        (getBatch (runMultiBatch env d (first :: rest)).heap it.b).done = true
        ∧ (getBatch (runMultiBatch env d (first :: rest)).heap it.b).err = none
        ∧ (runMultiBatch env d (first :: rest)).cache = d.cache
        ∧ (d.debug = false →
          (getBatch (runMultiBatch env d (first :: rest)).heap it.b).prompts
            = (getBatch d.heap it.b).prompts)
        ∧ (d.debug = true →
          (getBatch (runMultiBatch env d (first :: rest)).heap it.b).prompts
            = GoMap.setAllVals (getBatch d.heap it.b).prompts "ERR:<nil>".toList)) := by
  refine ⟨?_, ?_, ?_⟩
  · intro hcount i it line hi hline
    have hmem : it ∈ first :: rest := List.mem_iff_getElem?.2 ⟨i, hi⟩
    obtain ⟨hbatch, hcache⟩ :=
      runMultiBatch_lines env d first rest hwf hsame r hr herr hcount i it line hi hline
    refine ⟨?_, ?_⟩
    · intro hl
      rw [hbatch]
      unfold lineResult
      rw [if_neg (not_not.2 hl)]
      refine ⟨?_, rfl, rfl⟩
      intro j p a hp ha
      have hz := (zipSet_get it.promptList (splitFused line d.sep) (getBatch d.heap it.b).prompts
        (hwf.prompts_nodup it hmem)).1 j p a hp ha
      refine ⟨hz, ?_⟩
      rw [hcache p]
      unfold lineCache
      rw [if_neg (not_not.2 hl)]
      simp only [hz]
      have hane : a ≠ [] :=
        splitFused_mem_ne_nil line d.sep a (List.mem_iff_getElem?.2 ⟨j, ha⟩)
      rw [if_pos hane]
    · intro hl
      refine ⟨⟨?_, ?_, ?_, ?_⟩, ?_⟩
      · rw [hbatch]
        unfold lineResult
        rw [if_pos hl]
        split <;> rfl
      · intro p
        rw [hcache p]
        unfold lineCache
        rw [if_pos hl]
      · intro hdbg
        rw [hbatch]
        unfold lineResult
        rw [if_pos hl, hdbg]
        exact ⟨rfl, by simp⟩
      · intro hdbg
        rw [hbatch]
        unfold lineResult
        rw [if_pos hl, hdbg]
        exact ⟨rfl, _, by simp, rfl⟩
      · intro hdbg
        rw [hbatch]
        unfold lineResult
        rw [if_pos hl, hdbg]
        rfl
  · intro hcount hb it hmem
    obtain ⟨hcache, _, hlines⟩ :=
      runMultiBatch_line_count env d first rest hwf hsame r hr herr hcount it hmem
    have hbatch := hlines hb
    refine ⟨⟨?_, ?_, ?_, ?_⟩, ?_⟩
    · rw [hbatch]
      unfold mismatchResult
      split <;> rfl
    · intro p; rw [hcache]
    · intro hdbg
      rw [hbatch, hdbg]
      exact ⟨rfl, by simp [mismatchResult]⟩
    · intro hdbg
      rw [hbatch, hdbg]
      exact ⟨rfl, _, by simp, rfl⟩
    · intro hdbg
      rw [hbatch, hdbg]
      rfl
  · intro hb it hmem
    have hcount : (splitLines r.1).length ≠ (first :: rest).length := by
      rw [splitLines_blank _ hb]
      simp
    obtain ⟨hcache, hblank, _⟩ :=
      runMultiBatch_line_count env d first rest hwf hsame r hr herr hcount it hmem
    have hbatch := hblank hb
    refine ⟨by rw [hbatch], ?_, hcache, ?_, ?_⟩
    · rw [hbatch]
      unfold setAll
      split <;> rfl
    · intro hdbg
      rw [hbatch, hdbg]
      rfl
    · intro hdbg
      rw [hbatch, hdbg]
      rfl

/-- Routing at work: two queued items with two prompts each, the reply has the
lines `a;b` and `c;d`; the second answer of the second line goes to the prompt
`p2` of the text `dog`, in the batch and in the cache. -/
theorem runMultiBatch_routes_witness :
    twoQueued.workCh = [catItem, dogItem]
    ∧ GoMap.get (getBatch (runMultiBatch envLines twoQueued [catItem, dogItem]).heap
        dogItem.b).prompts "p2".toList = some "d".toList
    ∧ cacheGet (runMultiBatch envLines twoQueued [catItem, dogItem]).cache dogItem.text
        "p2".toList = some "d".toList :=
  ⟨by decide,
   ((((runMultiBatch_routes envLines twoQueued catItem [dogItem]
      ⟨by decide, by decide, by decide, by decide, by decide⟩ (by decide) _ rfl (by decide)).1
      (by decide) 1 dogItem "c;d".toList (by decide) (by decide)).1 (by decide)).1
      1 "p2".toList "d".toList (by decide) (by decide))⟩

/-! ## Fused dispatcher: work items are well formed -/

theorem pres_updBatch (P : fusedBatch → Prop) (heap : List fusedBatch) (b0 : Nat)
    (f : fusedBatch → fusedBatch) (hf : ∀ x, P x → P (f x))
    (h : ∀ b, P (getBatch heap b)) : ∀ b, P (getBatch (updBatch heap b0 f) b) := by
  intro b
  by_cases hbe : b = b0
  · subst hbe
    by_cases hlt : b < heap.length
    · rw [getBatch_updBatch_self _ _ _ hlt]
      exact hf _ (h b)
    · have hn : heap[b]? = none := List.getElem?_eq_none (Nat.le_of_not_lt hlt)
      simp only [updBatch, hn]
      exact h b
  · rw [getBatch_updBatch_ne _ _ _ _ hbe]
    exact h b

theorem getBatch_out (heap : List fusedBatch) (b : Nat) (hb : heap.length ≤ b) :
    getBatch heap b = getBatch [] 0 := by
  unfold getBatch
  simp only [List.getD_eq_getElem?_getD, List.getElem?_eq_none hb, Option.getD_none,
    List.getElem?_nil]

theorem pres_append (P : fusedBatch → Prop) (heap : List fusedBatch) (x : fusedBatch)
    (hx : P x) (h : ∀ b, P (getBatch heap b)) : ∀ b, P (getBatch (heap ++ [x]) b) := by
  intro b
  rcases Nat.lt_trichotomy b heap.length with hlt | heq | hgt
  · rw [getBatch_append_lt _ _ _ hlt]
    exact h b
  · rw [heq, getBatch_append_new]
    exact hx
  · rw [getBatch_out _ _ (by rw [List.length_append, List.length_singleton]; omega),
      ← getBatch_out heap b (by omega)]
    exact h b

theorem orderOk_of_keys (x y : fusedBatch) (ho : y.order = x.order)
    (hk : ∀ p, (GoMap.get x.prompts p).isSome = true → (GoMap.get y.prompts p).isSome = true)
    (h : orderOk x) : orderOk y := by
  unfold orderOk
  rw [ho]
  exact ⟨h.1, fun p hp => hk p (h.2 p hp)⟩

theorem orderOk_register (q : Str) (x : fusedBatch) (h : orderOk x) :
    orderOk (registerPrompt q x) := by
  unfold registerPrompt
  by_cases hq : (GoMap.get x.prompts q).isSome = true
  · rw [if_pos hq]
    exact h
  · rw [if_neg hq]
    refine ⟨?_, ?_⟩
    · refine List.Nodup.append h.1 (List.nodup_singleton q) ?_
      intro p hp hp2
      rw [List.mem_singleton] at hp2
      rw [hp2] at hp
      exact hq (h.2 q hp)
    · intro p hp
      simp only [GoMap.get_set]
      by_cases hqp : q = p
      · rw [if_pos hqp]
        rfl
      · rw [if_neg hqp]
        rcases List.mem_append.1 hp with h1 | h1
        · exact h.2 p h1
        · rw [List.mem_singleton] at h1
          exact absurd h1.symm hqp

theorem isSome_setAllVals (m : GoMap Str) (v p : Str)
    (h : (GoMap.get m p).isSome = true) : (GoMap.get (GoMap.setAllVals m v) p).isSome = true := by
  rw [GoMap.get_setAllVals]
  cases hg : GoMap.get m p with
  | none => rw [hg] at h; cases h
  | some a => rfl

theorem isSome_zipSet (promptList : List Str) :
    ∀ (parts : List Str) (m : GoMap Str) (p : Str), (GoMap.get m p).isSome = true →
      (GoMap.get ((promptList.zip parts).foldl (fun m e => GoMap.set m e.1 e.2) m) p).isSome
        = true := by
  induction promptList with
  | nil => intro parts m p h; exact h
  | cons q ps ih =>
    intro parts m p h
    cases parts with
    | nil => exact h
    | cons a0 as =>
      simp only [List.zip_cons_cons, List.foldl_cons]
      refine ih as _ p ?_
      rw [GoMap.get_set]
      split
      · rfl
      · exact h

theorem orderOk_blocks (d : FusedDispatcher) (text : Str) (b : Nat)
    (h : ∀ b2, orderOk (getBatch d.heap b2)) :
    (∀ msg err b2, orderOk (getBatch (failBatch d text b msg err).heap b2))
    ∧ (∀ diag err b2, orderOk (getBatch (mismatchBatch d text b diag err).heap b2))
    ∧ (∀ pl parts b2, orderOk (getBatch (succeedBatch d text b pl parts).heap b2))
    ∧ (∀ b2, orderOk (getBatch (releaseBatch d text b).heap b2)) := by
  have hdone : ∀ x, orderOk x → orderOk { x with done := true } := fun x hx => hx
  refine ⟨?_, ?_, ?_, ?_⟩
  · intro msg err
    simp only [failBatch, releaseBatch]
    refine pres_updBatch orderOk _ _ _ hdone (pres_updBatch orderOk _ _ _ ?_ h)
    intro x hx
    unfold setAll
    split
    · exact orderOk_of_keys x _ rfl (fun p hp => isSome_setAllVals _ _ _ hp) hx
    · exact hx
  · intro diag err
    simp only [mismatchBatch, releaseBatch]
    refine pres_updBatch orderOk _ _ _ hdone (pres_updBatch orderOk _ _ _ ?_ h)
    intro x hx
    dsimp only
    split
    · exact orderOk_of_keys x _ rfl (fun p hp => isSome_setAllVals _ _ _ hp) hx
    · exact hx
  · intro pl parts
    simp only [succeedBatch, releaseBatch]
    refine pres_updBatch orderOk _ _ _ hdone (pres_updBatch orderOk _ _ _ ?_ h)
    intro x hx
    exact orderOk_of_keys x _ rfl (fun p hp => isSome_zipSet _ _ _ _ hp) hx
  · simp only [releaseBatch]
    exact pres_updBatch orderOk _ _ _ hdone h

theorem OrderInv_new (e : FusedEnv) (client : Bool) (sep : Str) :
    OrderInv (NewFusedDispatcher e client sep) :=
  ⟨fun _ => ⟨List.nodup_nil, fun _ hp => absurd hp (List.not_mem_nil _)⟩,
   fun _ hit => absurd hit (List.not_mem_nil _)⟩

theorem OrderInv_step (d d2 : FusedDispatcher) (hinv : OrderInv d) (hs : FusedStep d d2) :
    OrderInv d2 := by
  have hfrozen : ∀ x, orderOk x → orderOk { x with frozen := true } := fun x hx => hx
  cases hs with
  | enter text prompt =>
    rw [GetResultEnter_eq]
    split
    · exact hinv
    · cases GoMap.get d.inflight text with
      | some inb => simp only; split <;> exact hinv
      | none =>
        cases GoMap.get d.batches text with
        | some b0 =>
          simp only
          split
          · exact ⟨pres_updBatch orderOk _ _ _ (orderOk_register prompt) hinv.batches_ok,
              hinv.items_ok⟩
          · exact hinv
        | none =>
          simp only
          refine ⟨pres_updBatch orderOk _ _ _ (orderOk_register prompt)
            (pres_append orderOk _ _ ?_ hinv.batches_ok), hinv.items_ok⟩
          exact ⟨List.nodup_nil, fun p hp => absurd hp (List.not_mem_nil _)⟩
  | flush text =>
    cases hg : GoMap.get d.batches text with
    | none =>
      unfold flushTextBegin
      rw [hg]
      exact ⟨hinv.batches_ok, hinv.items_ok⟩
    | some b0 =>
      rw [flushTextBegin_some d _ _ text b0 hg rfl rfl _ rfl]
      have hfz : ∀ b2, orderOk (getBatch
          (updBatch d.heap b0 (fun x => { x with frozen := true })) b2) :=
        pres_updBatch orderOk _ _ _ hfrozen hinv.batches_ok
      have hnd : ((getBatch (updBatch d.heap b0 (fun x => { x with frozen := true })) b0).order.filter
          (fun p => (GoMap.get (getBatch (updBatch d.heap b0
            (fun x => { x with frozen := true })) b0).prompts p).isSome)).Nodup :=
        (hfz b0).1.filter _
      split
      · refine ⟨(orderOk_blocks _ _ _ ?_).1 _ _, hinv.items_ok⟩
        exact hinv.batches_ok
      · split
        · refine ⟨(orderOk_blocks _ _ _ ?_).2.2.2, hinv.items_ok⟩
          exact hfz
        · split
          · refine ⟨hfz, ?_⟩
            intro it hit
            simp only [List.mem_append, List.mem_singleton] at hit
            rcases hit with h | h | h
            · exact hinv.items_ok it (List.mem_append_left _ h)
            · exact hinv.items_ok it (List.mem_append_right _ h)
            · rw [h]
              exact hnd
          · refine ⟨hfz, ?_⟩
            intro it hit
            simp only [List.mem_append, List.mem_singleton] at hit
            rcases hit with (h | h) | h
            · exact hinv.items_ok it (List.mem_append_left _ h)
            · rw [h]
              exact hnd
            · exact hinv.items_ok it (List.mem_append_right _ h)
  | take k =>
    refine ⟨hinv.batches_ok, ?_⟩
    intro it hit
    simp only [List.mem_append] at hit
    rcases hit with (h | h) | h
    · exact hinv.items_ok it (List.mem_append_left _ h)
    · exact hinv.items_ok it (List.mem_append_right _ (List.mem_of_mem_take h))
    · exact hinv.items_ok it (List.mem_append_right _ (List.mem_of_mem_drop h))
  | call payload => exact ⟨hinv.batches_ok, hinv.items_ok⟩
  | fail it msg err hit =>
    refine ⟨(orderOk_blocks _ _ _ ?_).1 _ _, ?_⟩
    · exact hinv.batches_ok
    intro a ha
    rcases List.mem_append.1 ha with h | h
    · exact hinv.items_ok a (List.mem_append_left _ (List.mem_of_mem_erase h))
    · exact hinv.items_ok a (List.mem_append_right _ h)
  | mismatch it diag err hit =>
    refine ⟨(orderOk_blocks _ _ _ ?_).2.1 _ _, ?_⟩
    · exact hinv.batches_ok
    intro a ha
    rcases List.mem_append.1 ha with h | h
    · exact hinv.items_ok a (List.mem_append_left _ (List.mem_of_mem_erase h))
    · exact hinv.items_ok a (List.mem_append_right _ h)
  | succeed it parts hit _ _ =>
    refine ⟨(orderOk_blocks _ _ _ ?_).2.2.1 _ _, ?_⟩
    · exact hinv.batches_ok
    intro a ha
    rcases List.mem_append.1 ha with h | h
    · exact hinv.items_ok a (List.mem_append_left _ (List.mem_of_mem_erase h))
    · exact hinv.items_ok a (List.mem_append_right _ h)

theorem OrderInv_reach (d d2 : FusedDispatcher) (hinv : OrderInv d) (hr : FusedReach d d2) :
    OrderInv d2 := by
  induction hr with
  | refl => exact hinv
  | tail _ hs ih => exact OrderInv_step _ _ ih hs

/-- In every state that a dispatcher created by `NewFusedDispatcher` reaches,
the items that a worker round takes from the queue are well formed. -/
theorem worker_items_wf (e : FusedEnv) (client : Bool) (sep : Str) (d : FusedDispatcher)
    (hr : FusedReach (NewFusedDispatcher e client sep) d) (k : Nat) :
    ItemsWf { d with workCh := d.workCh.drop k } (d.workCh.take k) := by
  have hinv : FusedInv d := FusedInv_reach _ _ (FusedInv_new e client sep) hr
  have hord : OrderInv d := OrderInv_reach _ _ (OrderInv_new e client sep) hr
  have hmem : ∀ it ∈ d.workCh.take k, it ∈ d.calling ++ d.workCh :=
    fun it hit => List.mem_append_right _ (List.mem_of_mem_take hit)
  have hfacts : ∀ it ∈ d.workCh.take k, it.b < d.heap.length
      ∧ (getBatch d.heap it.b).text = it.text ∧ (getBatch d.heap it.b).done = false :=
    fun it hit => hinv.inflight_wf it.text it.b (hinv.items_wf it (hmem it hit)).1
  have htext : ((d.workCh.take k).map (fun it => it.text)).Nodup := by
    have h1 : ((d.calling ++ d.workCh).map (fun it => it.text)).Nodup := hinv.items_nodup
    rw [List.map_append] at h1
    exact ((List.nodup_append.1 h1).2.1).sublist ((List.take_sublist _ _).map _)
  refine ⟨fun it hit => (hfacts it hit).1, ?_, htext, fun it hit => hord.items_ok it (hmem it hit),
    fun it hit => (hinv.live_slots it.b (hfacts it hit).1 (hfacts it hit).2.2).1⟩
  have hmap : (d.workCh.take k).map (fun it => it.text)
      = ((d.workCh.take k).map (fun it => it.b)).map (fun b => (getBatch d.heap b).text) := by
    rw [List.map_map]
    exact List.map_congr_left (fun it hit => ((hfacts it hit).2.1).symm)
  rw [hmap] at htext
  exact List.Nodup.of_map _ htext

/-! ## The fused answer format: joining and splitting -/

theorem Split_part_sep (c : Char) (t : Str) :
    ∀ p : Str, c ∉ p → Split (p ++ c :: t) [c] = p :: Split t [c] := by
  intro p
  induction p with
  | nil =>
    intro _
    have h := Split_cons_match [c] (by simp) c t (List.prefix_iff_eq_append.2 rfl)
    simpa using h
  | cons x p ih =>
    intro hx
    rw [List.mem_cons, not_or] at hx
    have hpre : ¬ [c] <+: x :: (p ++ c :: t) := by
      intro h
      obtain ⟨r, hr⟩ := h
      simp only [List.singleton_append, List.cons.injEq] at hr
      exact hx.1 hr.1
    rw [List.cons_append, Split_cons_nomatch [c] (by simp) x _ hpre, ih hx.2]
    rfl

theorem Split_part (c : Char) (p : Str) (hp : c ∉ p) : Split p [c] = [p] := by
  refine Split_no_occurrence [c] (by simp) p ?_
  intro h
  exact hp (h.subset (List.mem_singleton.2 rfl))

theorem Split_Join (c : Char) :
    ∀ parts : List Str, parts ≠ [] → (∀ x ∈ parts, c ∉ x) → Split (Join parts [c]) [c] = parts := by
  intro parts
  induction parts with
  | nil => intro h; exact absurd rfl h
  | cons a r ih =>
    intro _ hall
    cases r with
    | nil => exact Split_part c a (hall a (List.mem_singleton.2 rfl))
    | cons b r =>
      have hj : Join (a :: b :: r) [c] = a ++ c :: Join (b :: r) [c] := by
        simp only [Join, List.append_assoc, List.singleton_append]
      rw [hj, Split_part_sep c _ a (hall a (List.mem_cons_self _ _)),
        ih (by simp) (fun x hx => hall x (List.mem_cons_of_mem _ hx))]

theorem TrimSpace_eq_self (s : Str) (hh : ∀ c ∈ s.head?, isSpace c = false)
    (hl : ∀ c ∈ s.getLast?, isSpace c = false) : TrimSpace s = s := by
  have h1 : s.dropWhile isSpace = s := by
    cases s with
    | nil => rfl
    | cons x t =>
      have := hh x rfl
      simp [List.dropWhile_cons, this]
  unfold TrimSpace
  rw [h1, List.rdropWhile_eq_self_iff]
  intro hne
  have := hl (s.getLast hne) (by rw [List.getLast?_eq_getLast _ hne]; rfl)
  simp [this]

theorem Join_head (sep : Str) (a : Str) (r : List Str) (ha : a ≠ []) :
    (Join (a :: r) sep).head? = a.head? := by
  obtain ⟨x, t, rfl⟩ := List.exists_cons_of_ne_nil ha
  cases r with
  | nil => rfl
  | cons b r => rfl

theorem Join_last (sep : Str) :
    ∀ (parts : List Str) (hne : parts ≠ []), parts.getLast hne ≠ [] →
      (Join parts sep).getLast? = (parts.getLast hne).getLast? := by
  intro parts
  induction parts with
  | nil => intro h; exact absurd rfl h
  | cons a r ih =>
    intro hne hlast
    cases r with
    | nil => rfl
    | cons b r =>
      have hj : Join (a :: b :: r) sep = (a ++ sep) ++ Join (b :: r) sep := rfl
      have hlast2 : (b :: r).getLast (by simp) ≠ [] := by
        simpa [List.getLast_cons] using hlast
      have hjn : Join (b :: r) sep ≠ [] := by
        intro h0
        have := ih (by simp) hlast2
        rw [h0] at this
        have hx := List.getLast?_eq_getLast _ hlast2
        rw [hx] at this
        cases this
      rw [hj, List.getLast?_append_of_ne_nil _ hjn, ih (by simp) hlast2]
      simp [List.getLast_cons]

theorem trimParts_self :
    ∀ parts : List Str, (∀ x ∈ parts, x ≠ []) → (∀ x ∈ parts, TrimSpace x = x) →
      trimParts parts = parts := by
  intro parts
  induction parts with
  | nil => intro _ _; rfl
  | cons a r ih =>
    intro hne htrim
    have ha := hne a (List.mem_cons_self _ _)
    have hta := htrim a (List.mem_cons_self _ _)
    have hr := ih (fun x hx => hne x (List.mem_cons_of_mem _ hx))
      (fun x hx => htrim x (List.mem_cons_of_mem _ hx))
    unfold trimParts at hr ⊢
    simp only [List.filterMap_cons, hta, ha, if_false]
    rw [hr]

/-- C21. Round trip of the fused answer format with the production separator
`;`: for every list of strings each of which is non-empty, has no leading or
trailing white space and contains no `;`, `splitFused(strings.Join(parts, ";"), ";")`
returns exactly that list. So a reply made of `n` such parts for `n` prompts
takes the success path of `finishSingle`, with these parts. -/
theorem splitFused_Join (parts : List Str) (hne : ∀ x ∈ parts, x ≠ [])
    (htrim : ∀ x ∈ parts, TrimSpace x = x) (hsep : ∀ x ∈ parts, ';' ∉ x) :
    splitFused (Join parts ";".toList) ";".toList = parts
    ∧ ∀ (d : FusedDispatcher) (text : Str) (b : Nat) (promptList : List Str),
        d.sep = ";".toList → promptList.length = parts.length →
        finishSingle d text b promptList (Join parts ";".toList) none
          = succeedBatch d text b promptList parts := by
  have hround : splitFused (Join parts ";".toList) ";".toList = parts := by
    cases parts with
    | nil => rfl
    | cons a r =>
      have ha : a ≠ [] := hne a (List.mem_cons_self _ _)
      have hhead : ∀ x ∈ a :: r, ∀ c ∈ x.head?, isSpace c = false := by
        intro x hx c hc
        have := TrimSpace_head x c
        rw [htrim x hx] at this
        exact this hc
      have hlast : ∀ x ∈ a :: r, ∀ c ∈ x.getLast?, isSpace c = false := by
        intro x hx c hc
        have := TrimSpace_last x c
        rw [htrim x hx] at this
        exact this hc
      have hlne : (a :: r).getLast (by simp) ≠ [] := hne _ (List.getLast_mem _)
      have hJ : TrimSpace (Join (a :: r) ";".toList) = Join (a :: r) ";".toList := by
        refine TrimSpace_eq_self _ ?_ ?_
        · rw [Join_head _ a r ha]
          exact hhead a (List.mem_cons_self _ _)
        · rw [Join_last _ (a :: r) (by simp) hlne]
          exact hlast _ (List.getLast_mem _)
      have hJne : Join (a :: r) ";".toList ≠ [] := by
        intro h0
        have h1 := Join_head ";".toList a r ha
        rw [h0] at h1
        obtain ⟨x, t, rfl⟩ := List.exists_cons_of_ne_nil ha
        cases h1
      rw [splitFused_unfold, hJ, if_neg hJne]
      have hS : Split (Join (a :: r) ";".toList) ";".toList = a :: r :=
        Split_Join ';' (a :: r) (by simp) hsep
      rw [hS]
      exact trimParts_self (a :: r) hne htrim
  refine ⟨hround, ?_⟩
  intro d text b promptList hd hlen
  have h := finishSingle_success d text b promptList (Join parts ";".toList)
    (by rw [hd, hround]; exact hlen.symm)
  rw [h, hd, hround]

/-- C21, at work: three parts, one of them with a blank inside. -/
theorem splitFused_Join_witness :
    Join ["cats".toList, "a b".toList, "42".toList] ";".toList = "cats;a b;42".toList
    ∧ splitFused "cats;a b;42".toList ";".toList
        = ["cats".toList, "a b".toList, "42".toList] :=
  ⟨by decide,
   (splitFused_Join ["cats".toList, "a b".toList, "42".toList] (by decide) (by decide)
    (by decide)).1⟩

/-! ## Fingerprints: the hashed string determines the pair -/

theorem append_sep_inj {α : Type} (z : α) :
    ∀ (l1 l2 r1 r2 : List α), z ∉ l1 → z ∉ l2 → l1 ++ z :: r1 = l2 ++ z :: r2 →
      l1 = l2 ∧ r1 = r2 := by
  intro l1
  induction l1 with
  | nil =>
    intro l2 r1 r2 _ h2 h
    cases l2 with
    | nil =>
      simp only [List.nil_append, List.cons.injEq, true_and] at h
      exact ⟨rfl, h⟩
    | cons y l2 =>
      simp only [List.nil_append, List.cons_append, List.cons.injEq] at h
      exact absurd (by rw [h.1]; exact List.mem_cons_self _ _) h2
  | cons x l1 ih =>
    intro l2 r1 r2 h1 h2 h
    cases l2 with
    | nil =>
      simp only [List.nil_append, List.cons_append, List.cons.injEq] at h
      exact absurd (by rw [← h.1]; exact List.mem_cons_self _ _) h1
    | cons y l2 =>
      simp only [List.cons_append, List.cons.injEq] at h
      rw [List.mem_cons, not_or] at h1 h2
      obtain ⟨hl, hr⟩ := ih l2 r1 r2 h1.2 h2.2 h.2
      exact ⟨by rw [h.1, hl], hr⟩

theorem hashInput_inj (t1 p1 t2 p2 : Str) (h1 : Char.ofNat 0 ∉ t1) (h2 : Char.ofNat 0 ∉ t2)
    (h : hashInput t1 p1 = hashInput t2 p2) : t1 = t2 ∧ p1 = p2 := by
  unfold hashInput at h
  simp only [List.append_assoc, List.singleton_append] at h
  exact append_sep_inj _ t1 t2 p1 p2 h1 h2 h

theorem hexDigit_inj : ∀ n, n < 16 → ∀ m, m < 16 → hexDigit n = hexDigit m → n = m := by
  decide

theorem hexEncodeToString_inj :
    ∀ (bs cs : List Nat), (∀ b ∈ bs, b < 256) → (∀ c ∈ cs, c < 256) →
      hexEncodeToString bs = hexEncodeToString cs → bs = cs := by
  have hcons : ∀ (b : Nat) (bs : List Nat), hexEncodeToString (b :: bs)
      = hexDigit ((b % 256) / 16) :: hexDigit ((b % 256) % 16) :: hexEncodeToString bs := by
    intro b bs
    simp only [hexEncodeToString, List.flatMap_cons, List.cons_append, List.nil_append]
  intro bs
  induction bs with
  | nil =>
    intro cs _ _ h
    cases cs with
    | nil => rfl
    | cons c cs => rw [hcons] at h; cases h
  | cons b bs ih =>
    intro cs hb hc h
    cases cs with
    | nil => rw [hcons] at h; cases h
    | cons c cs =>
      rw [hcons, hcons] at h
      simp only [List.cons.injEq] at h
      obtain ⟨hhi, hlo, hrest⟩ := h
      have hb1 := hb b (List.mem_cons_self _ _)
      have hc1 := hc c (List.mem_cons_self _ _)
      have e1 := hexDigit_inj _ (by omega) _ (by omega) hhi
      have e2 := hexDigit_inj _ (by omega) _ (by omega) hlo
      have hbc : b = c := by omega
      rw [hbc, ih cs (fun x hx => hb x (List.mem_cons_of_mem _ hx))
        (fun x hx => hc x (List.mem_cons_of_mem _ hx)) hrest]

/-- The restriction to texts without a zero byte is needed: these two pairs are
hashed as the same string. -/
theorem hashInput_zero_in_text :
    hashInput [ 'a', Char.ofNat 0] ['b'] = hashInput ['a'] [Char.ofNat 0, 'b'] := by
  decide

/-- C22. The string that `customID` and `makeCustomID` hash,
`text ++ [0x00] ++ prompt`, determines the pair for texts that contain no zero
byte: if the hashed strings of `(text1, prompt1)` and `(text2, prompt2)` are
equal, then `text1 = text2` and `prompt1 = prompt2`. So two distinct such pairs
have different hashed strings, and if they share the fingerprint `customID` (or
the label `makeCustomID` of one row), then the digests of two different strings
agree on their first 8 (or 6) bytes: a hash-prefix collision. -/
theorem hashInput_injective (t1 p1 t2 p2 : Str) (h1 : Char.ofNat 0 ∉ t1)
    (h2 : Char.ofNat 0 ∉ t2) :
    (hashInput t1 p1 = hashInput t2 p2 → t1 = t2 ∧ p1 = p2)
    ∧ ∀ sha1Sum : Str → List Nat, (∀ s, ∀ b ∈ sha1Sum s, b < 256) → (t1, p1) ≠ (t2, p2) →
        (customID sha1Sum t1 p1 = customID sha1Sum t2 p2 →
          hashInput t1 p1 ≠ hashInput t2 p2
          ∧ (sha1Sum (hashInput t1 p1)).take 8 = (sha1Sum (hashInput t2 p2)).take 8)
        ∧ (∀ row, makeCustomID sha1Sum row t1 p1 = makeCustomID sha1Sum row t2 p2 →
          hashInput t1 p1 ≠ hashInput t2 p2
          ∧ (sha1Sum (hashInput t1 p1)).take 6 = (sha1Sum (hashInput t2 p2)).take 6) := by
  refine ⟨hashInput_inj t1 p1 t2 p2 h1 h2, ?_⟩
  intro sha1Sum hbytes hne
  have hdiff : hashInput t1 p1 ≠ hashInput t2 p2 := by
    intro h
    obtain ⟨ht, hp⟩ := hashInput_inj t1 p1 t2 p2 h1 h2 h
    exact hne (by rw [ht, hp])
  refine ⟨fun hid => ⟨hdiff, ?_⟩, fun row hid => ⟨hdiff, ?_⟩⟩
  · unfold customID at hid
    exact hexEncodeToString_inj _ _ (fun b hb => hbytes _ b (List.mem_of_mem_take hb))
      (fun b hb => hbytes _ b (List.mem_of_mem_take hb)) hid
  · unfold makeCustomID at hid
    exact hexEncodeToString_inj _ _ (fun b hb => hbytes _ b (List.mem_of_mem_take hb))
      (fun b hb => hbytes _ b (List.mem_of_mem_take hb)) (List.append_cancel_left hid)

/-- C22, at work: the pairs `("cat","plural")` and `("cat","plura")` have
different hashed strings. -/
theorem hashInput_injective_witness :
    hashInput "cat".toList "plural".toList ≠ hashInput "cat".toList "plura".toList :=
  fun h => absurd ((hashInput_injective "cat".toList "plural".toList "cat".toList
    "plura".toList (by decide) (by decide)).1 h).2 (by decide)

/-! ## Fused dispatcher: a blank reply in multi mode -/

/-- C19 (the code breaks the claim). Multi mode, debug off, two queued items
with two prompts each; the upstream replies, without error, with a blank text.
`splitLines` gives no line, so the line count differs from the number of items
and, by the claim, every item fails. `runMultiBatch` takes its failure block
with the nil error of the reply: both batches are completed with `err` nil and
no answer, nothing is cached, and the waiters read the empty string with a nil
error; no item has failed in the sense of `itemFailed`. A reply with one line
for the two items does fail both, with the error `got 1 lines, want 2`. -/
theorem blank_reply_fails_no_item :
    twoQueued.debug = false
    ∧ twoQueued.workCh = [catItem, dogItem]
    ∧ AnthropicSingleClient.Run (envBlank.createMessages twoQueued.upstream.length) []
        (multiPayload twoQueued.sep 2 [catItem, dogItem]) = (" \n ".toList, none)
    ∧ (splitLines " \n ".toList).length = 0
    ∧ (getBatch (runMultiBatch envBlank twoQueued [catItem, dogItem]).heap catItem.b).done = true
    ∧ (getBatch (runMultiBatch envBlank twoQueued [catItem, dogItem]).heap dogItem.b).done = true
    ∧ (getBatch (runMultiBatch envBlank twoQueued [catItem, dogItem]).heap catItem.b).err = none
    ∧ (getBatch (runMultiBatch envBlank twoQueued [catItem, dogItem]).heap dogItem.b).err = none
    ∧ GetResultRead (runMultiBatch envBlank twoQueued [catItem, dogItem]) catItem.b "p1".toList
        = ([], none)
    ∧ GetResultRead (runMultiBatch envBlank twoQueued [catItem, dogItem]) dogItem.b "p2".toList
        = ([], none)
    ∧ (runMultiBatch envBlank twoQueued [catItem, dogItem]).cache = []
    ∧ ¬ itemFailed twoQueued (runMultiBatch envBlank twoQueued [catItem, dogItem]) catItem
    ∧ ¬ itemFailed twoQueued (runMultiBatch envBlank twoQueued [catItem, dogItem]) dogItem
    ∧ (getBatch (runMultiBatch (constEnv (MessagesOutcome.content ["a;b".toList])) twoQueued
        [catItem, dogItem]).heap catItem.b).err = some "got 1 lines, want 2".toList :=
  ⟨by decide, by decide, by decide, by decide, by decide, by decide, by decide, by decide,
   by decide, by decide, by decide,
   fun h => (h.2.2.1 (by decide)).2 (by decide),
   fun h => (h.2.2.1 (by decide)).2 (by decide),
   by decide⟩

end QuackAI
